import Mathlib

/-!
# TriTriAgainAgain (October 2019): placement enumeration, pruning and search

A shallow embedding of `src/October 2019/TriTriAgainAgain.cpp`.

Modelling conventions.

* `Point` holds two `float`s in the source.  Every coordinate the program ever
  stores is a small integer (grid coordinates, leg lengths, offsets), which a
  `float` holds exactly, so the embedding uses `Int` coordinates and exact
  integer arithmetic.  `int` variables are unbounded `Int`s.
* A `vector<Point>` that stores triangles as consecutive groups of three points
  is a flat `List Point`, exactly as in the source.
* The two `while` loops of `createShifts` carry a fuel argument and return
  `none` when it runs out; `createShifts_eq` shows that fuel at least the two
  leg lengths always suffices.  The bounded `for` loops are structural
  recursions; the `j` loop of the pruning pass, whose list shrinks while it
  runs, counts its steps down from the list length (`jLoop_fuel_enough`).
* A loop that reads `v[i], v[i+1], v[i+2]` with `i += 3` matches on the next
  three points of the list and stops when fewer than three are left (the source
  would read past the end there; the constructor never builds such a list).
* `exit(0)` after `printSolution(e)` is modelled by returning `some e`; a call
  that returns normally (nothing printed) is `none`.
-/

namespace TriTri

/-! ## Globals and classes -/

/-- The size of the grid in which the triangles lie. -/
def MATRIX_MAX : Int := 17

/-- The orientations of triangles on the grid. -/
inductive direction where
  | UP
  | RIGHT
  | DOWN
  | LEFT
  deriving DecidableEq, Repr

/-- A point of the grid (`struct Point`). -/
structure Point where
  x : Int
  y : Int
  deriving DecidableEq, Repr

/-- One base/height pair (`_dimensions`) with all its valid offsets (`_shifts`). -/
structure PossibleShifts where
  _dimensions : Point
  _shifts : List Point
  deriving DecidableEq, Repr

/-- The class `Triangle`: anchor cell, area, orientation tag, the enumerated
dimensions and the flat list of candidate vertices (three per candidate). -/
structure Triangle where
  _xC : Int
  _yC : Int
  _area : Int
  _direction : direction
  _combinations : List PossibleShifts
  _allTriangles : List Point
  deriving DecidableEq, Repr

/-! ## Point comparison functions -/

/-- Source `onSegment`: `q` lies in the bounding box of `p` and `r`. -/
def onSegment (p q r : Point) : Bool :=
  decide (q.x ≤ max p.x r.x) && decide (q.x ≥ min p.x r.x) &&
  decide (q.y ≤ max p.y r.y) && decide (q.y ≥ min p.y r.y)

/-- Source `orientation`: 0 colinear, 1 clockwise, 2 counterclockwise. -/
def orientation (p q r : Point) : Int :=
  let val := (q.y - p.y) * (r.x - q.x) - (q.x - p.x) * (r.y - q.y)
  if val = 0 then 0 else if val > 0 then 1 else 2

/-- Source `doIntersect`: the early return on any colinear orientation comes
first, then the general case; the special cases below it all return false. -/
def doIntersect (p1 q1 p2 q2 : Point) : Bool :=
  let o1 := orientation p1 q1 p2
  let o2 := orientation p1 q1 q2
  let o3 := orientation p2 q2 p1
  let o4 := orientation p2 q2 q1
  if o1 = 0 ∨ o2 = 0 ∨ o3 = 0 ∨ o4 = 0 then false
  else if o1 ≠ o2 ∧ o3 ≠ o4 then true
  else if o1 = 0 ∧ onSegment p1 p2 q1 = true then false
  else if o2 = 0 ∧ onSegment p1 q2 q1 = true then false
  else if o3 = 0 ∧ onSegment p2 p1 q2 = true then false
  else if o4 = 0 ∧ onSegment p2 q1 q2 = true then false
  else false

/-- Source `sign`. -/
def sign (p1 p2 p3 : Point) : Int :=
  (p1.x - p3.x) * (p2.y - p3.y) - (p2.x - p3.x) * (p1.y - p3.y)

/-- Source `pointInTriangle`: the three signs do not disagree. -/
def pointInTriangle (pt v1 v2 v3 : Point) : Bool :=
  let d1 := sign pt v1 v2
  let d2 := sign pt v2 v3
  let d3 := sign pt v3 v1
  let has_neg := decide (d1 < 0) || decide (d2 < 0) || decide (d3 < 0)
  let has_pos := decide (d1 > 0) || decide (d2 > 0) || decide (d3 > 0)
  !(has_neg && has_pos)

/-- Source `triangleIsContainedInOtherTriangle`: some triangle stored in `e`
contains all of `p`, `q`, `r`.  The loop steps through `e` three points at a
time. -/
def triangleIsContainedInOtherTriangle : List Point → Point → Point → Point → Bool
  | e0 :: e1 :: e2 :: rest, p, q, r =>
    if pointInTriangle p e0 e1 e2 && pointInTriangle q e0 e1 e2 && pointInTriangle r e0 e1 e2
    then true
    else triangleIsContainedInOtherTriangle rest p q r
  | _, _, _, _ => false

/-- Source `triangleIsContainingOtherTriangle`: some triangle stored in the
list has all three of its vertices in the triangle `p`, `q`, `r`. -/
def triangleIsContainingOtherTriangle : List Point → Point → Point → Point → Bool
  | vertexOne :: vertexTwo :: vertexThree :: rest, p, q, r =>
    if pointInTriangle vertexOne p q r && pointInTriangle vertexTwo p q r &&
       pointInTriangle vertexThree p q r
    then true
    else triangleIsContainingOtherTriangle rest p q r
  | _, _, _, _ => false

/-! ## Placement enumerator -/

/-- The local variables of `createShifts` that the two loops mutate. -/
structure ShiftState where
  results : List Point
  shiftX : Int
  shiftY : Int
  v1 : Point
  v2 : Point
  v3 : Point
  deriving DecidableEq, Repr

/-- The 1 by 1 box corner `q1(1,1)` tested by `createShifts`. -/
def q1 : Point := ⟨1, 1⟩

/-- The inner `while` of `createShifts`: record the offset, then lower
`shiftY`, `v2.y` and `v3.y` (`v1` is left as it is). -/
def innerWhile : Nat → ShiftState → Option ShiftState
  | 0, _ => none
  | fuel + 1, s =>
    if pointInTriangle q1 s.v1 s.v2 s.v3 then
      innerWhile fuel
        { s with
          results := s.results ++ [⟨s.shiftX, s.shiftY⟩]
          shiftY := s.shiftY - 1
          v2 := ⟨s.v2.x, s.v2.y - 1⟩
          v3 := ⟨s.v3.x, s.v3.y - 1⟩ }
    else some s

/-- The outer `while` of `createShifts`: reset `shiftY` and `v1`, run the inner
loop, then restore the heights and move `v2`, `v3` and `shiftX` one step left.
The first `Nat` is the fuel handed to every inner loop. -/
def outerWhile (maxHeight : Int) (innerFuel : Nat) : Nat → ShiftState → Option ShiftState
  | 0, _ => none
  | fuel + 1, s =>
    if pointInTriangle q1 s.v1 s.v2 s.v3 then
      match innerWhile innerFuel { s with shiftY := 0, v1 := ⟨s.shiftX, 0⟩ } with
      | none => none
      | some s2 =>
        outerWhile maxHeight innerFuel fuel
          { s2 with
            v2 := ⟨s2.v2.x - 1, maxHeight⟩
            v3 := ⟨s2.v3.x - 1, 0⟩
            shiftX := s2.shiftX - 1 }
    else some s

/-- Source `Triangle::createShifts`; `none` when the fuel does not suffice. -/
def createShifts (fuel : Nat) (dimensions : Point) : Option (List Point) :=
  let init : ShiftState :=
    { results := []
      shiftX := 0
      shiftY := 0
      v1 := ⟨0, 0⟩
      v2 := ⟨0, dimensions.y⟩
      v3 := ⟨dimensions.x, 0⟩ }
  (outerWhile dimensions.y fuel fuel init).map ShiftState.results

/-- The body of the `for` loop of `createDimensions` over the remaining bases. -/
def createDimensionsLoop (fuel : Nat) (effectiveArea : Int) : List Int → Option (List PossibleShifts)
  | [] => some []
  | base :: rest =>
    if Int.tmod effectiveArea base = 0 then
      let height := Int.tdiv effectiveArea base
      match createShifts fuel ⟨base, height⟩ with
      | none => none
      | some shifts =>
        (createDimensionsLoop fuel effectiveArea rest).map
          (fun combinations => ⟨⟨base, height⟩, shifts⟩ :: combinations)
    else createDimensionsLoop fuel effectiveArea rest

/-- The values `base` takes in `for (int base{2}; base < effectiveArea; ++base)`. -/
def baseRange (effectiveArea : Int) : List Int :=
  (List.range (effectiveArea - 2).toNat).map (fun (i : Nat) => (2 : Int) + i)

/-- Source `Triangle::createDimensions`. -/
def createDimensions (fuel : Nat) (area : Int) : Option (List PossibleShifts) :=
  let effectiveArea := 2 * area
  createDimensionsLoop fuel effectiveArea (baseRange effectiveArea)

/-- The bounds test of `makeCombinations`: some vertex is off the board. -/
def offBoard (aX aY bX bY cX cY : Int) : Bool :=
  decide (aX < 0) || decide (aX > MATRIX_MAX) || decide (bX < 0) || decide (bX > MATRIX_MAX) ||
  decide (cX < 0) || decide (cX > MATRIX_MAX) ||
  decide (aY < 0) || decide (aY > MATRIX_MAX) || decide (bY < 0) || decide (bY > MATRIX_MAX) ||
  decide (cY < 0) || decide (cY > MATRIX_MAX)

/-- What one iteration of a loop of `makeCombinations` pushes. -/
def pushIfOnBoard (aX aY bX bY cX cY : Int) : List Point :=
  if offBoard aX aY bX bY cX cY then [] else [⟨aX, aY⟩, ⟨bX, bY⟩, ⟨cX, cY⟩]

/-- Vertices computed in the first (upward) loop of `makeCombinations`. -/
def verticesUp (X Y : Int) (dim shift : Point) : Point × Point × Point :=
  let aX := X + shift.x
  let aY := Y + shift.y
  (⟨aX, aY⟩, ⟨aX + dim.x, aY⟩, ⟨aX, aY + dim.y⟩)

/-- Vertices computed in the second (rightward) loop of `makeCombinations`. -/
def verticesRight (X Y : Int) (dim shift : Point) : Point × Point × Point :=
  let aX := X + shift.y
  let aY := Y + abs shift.x + 1
  (⟨aX, aY⟩, ⟨aX, aY - dim.x⟩, ⟨aX + dim.y, aY⟩)

/-- Vertices computed in the third (downward) loop of `makeCombinations`. -/
def verticesDown (X Y : Int) (dim shift : Point) : Point × Point × Point :=
  let aX := X + abs shift.x + 1
  let aY := Y + abs shift.y + 1
  (⟨aX, aY⟩, ⟨aX - dim.x, aY⟩, ⟨aX, aY - dim.y⟩)

/-- Vertices computed in the fourth (leftward) loop of `makeCombinations`. -/
def verticesLeft (X Y : Int) (dim shift : Point) : Point × Point × Point :=
  let aX := X + abs shift.y + 1
  let aY := Y + shift.x
  (⟨aX, aY⟩, ⟨aX, aY + dim.x⟩, ⟨aX - dim.y, aY⟩)

/-- One of the four double loops of `makeCombinations`, for the vertex formula
`f`: all combinations in order, all shifts of each in order. -/
def orientationLoop (f : Point → Point → Point × Point × Point)
    (combinations : List PossibleShifts) : List Point :=
  combinations.flatMap fun c =>
    c._shifts.flatMap fun s =>
      let v := f c._dimensions s
      pushIfOnBoard v.1.x v.1.y v.2.1.x v.2.1.y v.2.2.x v.2.2.y

/-- Source `Triangle::makeCombinations`, started on an empty `allTriangles`. -/
def makeCombinations (X Y : Int) (combinations : List PossibleShifts) : List Point :=
  orientationLoop (verticesUp X Y) combinations ++
  orientationLoop (verticesRight X Y) combinations ++
  orientationLoop (verticesDown X Y) combinations ++
  orientationLoop (verticesLeft X Y) combinations

/-- The constructor `Triangle(area, X, Y, dir)`. -/
def Triangle.new (fuel : Nat) (area X Y : Int) (dir : direction) : Option Triangle :=
  match createDimensions fuel area with
  | none => none
  | some combinations =>
    some
      { _xC := X
        _yC := Y
        _area := area
        _direction := dir
        _combinations := combinations
        _allTriangles := makeCombinations X Y combinations }

/-! ## Preprocessing -/

/-- The chain of `doIntersect` tests that `preProcessValidTriangles` makes for
the candidate `p`, `q`, `r` against the anchor cell of triangle `t`, in source
order (the ninth test repeats `p, q, a, d`; the fifteenth is `q, q, a, d`). -/
def cellConflict (p q r : Point) (t : Triangle) : Bool :=
  let a : Point := ⟨t._xC, t._yC⟩
  let b : Point := ⟨t._xC, t._yC + 1⟩
  let c : Point := ⟨t._xC + 1, t._yC + 1⟩
  let d : Point := ⟨t._xC + 1, t._yC⟩
  doIntersect p q a b || doIntersect p q a c || doIntersect p q a d ||
  doIntersect p q b c || doIntersect p q b d || doIntersect p q c d ||
  doIntersect p r a b || doIntersect p r a c || doIntersect p q a d ||
  doIntersect p r b c || doIntersect p r b d || doIntersect p r c d ||
  doIntersect q r a b || doIntersect q r a c || doIntersect q q a d ||
  doIntersect q r b c || doIntersect q r b d || doIntersect q r c d

/-- The `k` loop of `preProcessValidTriangles`, from index `k` over the
triangles still to visit: true when the loop erases the candidate and breaks. -/
def kLoop (i : Nat) (p q r : Point) : Nat → List Triangle → Bool
  | _, [] => false
  | k, t :: rest =>
    if k = i then kLoop i p q r (k + 1) rest
    else if cellConflict p q r t then true
    else kLoop i p q r (k + 1) rest

/-- The effect of `v.erase(v.begin() + j, v.begin() + j + 3)`. -/
def eraseTriple (l : List Point) (j : Nat) : List Point :=
  l.take j ++ l.drop (j + 3)

/-- The `j` loop of `preProcessValidTriangles` on the candidate list `l` of
triangle `i`: read the triple at `j`, erase it when the `k` loop finds a
conflict, and in both cases go on with `j + 3`.  The loop ends when no point
is left at `j`. -/
def jLoop (WIN : List Triangle) (i : Nat) : Nat → List Point → Nat → List Point
  | 0, l, _ => l
  | fuel + 1, l, j =>
    match l.drop j with
    | p :: q :: r :: _ =>
      if kLoop i p q r 0 WIN then jLoop WIN i fuel (eraseTriple l j) (j + 3)
      else jLoop WIN i fuel l (j + 3)
    | _ => l

/-- One iteration of the `i` loop of `preProcessValidTriangles`. -/
def pruneTriangle (WIN : List Triangle) (i : Nat) : List Triangle :=
  match WIN.get? i with
  | none => WIN
  | some t =>
    WIN.set i
      { t with
        _allTriangles := jLoop WIN i (t._allTriangles.length + 1) t._allTriangles 0 }

/-- Source `preProcessValidTriangles`. -/
def preProcessValidTriangles (WIN : List Triangle) : List Triangle :=
  (List.range WIN.length).foldl pruneTriangle WIN

/-! ## Search -/

/-- The nine `doIntersect` tests of one iteration of the `j` loop of
`mySolution`, in source order. -/
def edgesCross (p q r e0 e1 e2 : Point) : Bool :=
  doIntersect p q e0 e1 || doIntersect p q e0 e2 || doIntersect p q e2 e1 ||
  doIntersect p r e0 e1 || doIntersect p r e0 e2 || doIntersect p r e2 e1 ||
  doIntersect q r e0 e1 || doIntersect q r e0 e2 || doIntersect q r e2 e1

/-- The `j` loop of `mySolution`: true when it sets `triangleValid = false`. -/
def crossesCommitted : List Point → Point → Point → Point → Bool
  | e0 :: e1 :: e2 :: rest, p, q, r =>
    if edgesCross p q r e0 e1 e2 then true else crossesCommitted rest p q r
  | _, _, _, _ => false

/-- The value of `triangleValid` when `mySolution` decides whether to commit
the candidate `p`, `q`, `r`. -/
def triangleValid (e : List Point) (p q r : Point) : Bool :=
  !crossesCommitted e p q r &&
  !triangleIsContainedInOtherTriangle e p q r &&
  !triangleIsContainingOtherTriangle e p q r

/-- The candidate loop of `mySolution` over the rest of `_allTriangles`; `next`
is the recursive call for `index + 1`.  A valid candidate is committed as
`q, p, r`; a printed solution ends the whole run. -/
def candidateLoop (next : List Point → Option (List Point)) (e : List Point) :
    List Point → Option (List Point)
  | p :: q :: r :: rest =>
    if triangleValid e p q r then
      match next (e ++ [q, p, r]) with
      | some printed => some printed
      | none => candidateLoop next e rest
    else candidateLoop next e rest
  | _ => none

/-- The recursion of `mySolution` on the triangles from `index` on. -/
def mySolutionFrom : List Triangle → List Point → Option (List Point)
  | [], e => some e
  | t :: rest, e => candidateLoop (mySolutionFrom rest) e t._allTriangles

/-- Source `mySolution`: `some e` when `printSolution(e)` is reached, `none`
when the call returns without printing. -/
def mySolution (WIN : List Triangle) (index : Nat) (e : List Point) : Option (List Point) :=
  mySolutionFrom (WIN.drop index) e

/-- The 29 triangles of `main`, in order. -/
def mainInput : List (Int × Int × Int) :=
  [(2,3,0), (18,7,0), (12,2,1), (4,13,1), (3,4,2), (7,11,2),
   (6,16,2), (6,0,3), (9,3,4), (11,9,4), (8,14,5), (4,0,6),
   (14,5,6), (18,15,6), (20,8,8), (7,1,10), (3,11,10),
   (3,16,10), (3,2,11), (7,7,12), (10,13,12), (5,16,13), (4,0,14),
   (10,5,14), (3,12,14), (12,3,15), (7,14,15), (8,9,16), (2,13,16)]


/-! ## Closed forms used in the proofs -/

/-- Number of offsets `createShifts` records in column `shiftX = -i`. -/
def shiftRows (B H : Int) (i : Nat) : Nat := ((B * H - H * (1 + i)) / B).toNat

/-- Number of columns `createShifts` visits. -/
def shiftCols (B H : Int) : Nat := ((B * H - B) / H).toNat

/-- The offsets of column `shiftX = -i`, in the order they are recorded. -/
def shiftColumn (B H : Int) (i : Nat) : List Point :=
  (List.range (shiftRows B H i)).map fun (k : Nat) => ⟨-(i : Int), -(k : Int)⟩

/-- All offsets, column after column. -/
def shiftList (B H : Int) : List Point :=
  (List.range (shiftCols B H)).flatMap (shiftColumn B H)

/-- The state of `createShifts` at the test of the inner loop, in column
`shiftX = -i` after `k` steps down. -/
def innerState (B H : Int) (i k : Nat) (rs : List Point) : ShiftState :=
  { results := rs
    shiftX := -(i : Int)
    shiftY := -(k : Int)
    v1 := ⟨-(i : Int), 0⟩
    v2 := ⟨-(i : Int), H - k⟩
    v3 := ⟨B - i, -(k : Int)⟩ }

/-- The state of `createShifts` at the test of the outer loop for column
`shiftX = -i`; `a` is the abscissa left in `v1`. -/
def outerState (B H : Int) (i : Nat) (a shY : Int) (rs : List Point) : ShiftState :=
  { results := rs
    shiftX := -(i : Int)
    shiftY := shY
    v1 := ⟨a, 0⟩
    v2 := ⟨-(i : Int), H⟩
    v3 := ⟨B - i, 0⟩ }

/-- The dimensions `createDimensions` produces, with the offsets of each. -/
def dimensionList (effectiveArea : Int) : List PossibleShifts :=
  ((baseRange effectiveArea).filter fun base => Int.tmod effectiveArea base = 0).map
    fun base =>
      ⟨⟨base, Int.tdiv effectiveArea base⟩, shiftList base (Int.tdiv effectiveArea base)⟩

/-! ## Specification vocabulary -/

/-- The point `pt` lies in the closed triangle spanned by `a`, `b`, `c`: it is
a convex combination of the three vertices (integer weights `u`, `v`, `w` of
positive sum, so no division is needed). -/
def InClosedTriangle (pt a b c : Point) : Prop :=
  ∃ u v w : Int, 0 ≤ u ∧ 0 ≤ v ∧ 0 ≤ w ∧ 0 < u + v + w ∧
    (u + v + w) * pt.x = u * a.x + v * b.x + w * c.x ∧
    (u + v + w) * pt.y = u * a.y + v * b.y + w * c.y

/-- The four corners of the unit cell anchored at `(X, Y)` lie in the closed
triangle `t`. -/
def CellInTriangle (X Y : Int) (t : Point × Point × Point) : Prop :=
  InClosedTriangle ⟨X, Y⟩ t.1 t.2.1 t.2.2 ∧
  InClosedTriangle ⟨X + 1, Y⟩ t.1 t.2.1 t.2.2 ∧
  InClosedTriangle ⟨X, Y + 1⟩ t.1 t.2.1 t.2.2 ∧
  InClosedTriangle ⟨X + 1, Y + 1⟩ t.1 t.2.1 t.2.2

/-- The point lies on the board `[0, MATRIX_MAX]` on both axes. -/
def OnBoard (p : Point) : Prop :=
  0 ≤ p.x ∧ p.x ≤ MATRIX_MAX ∧ 0 ≤ p.y ∧ p.y ≤ MATRIX_MAX

/-- The triangles stored in a flat vertex list, read three points at a time
the way every loop of the program reads them. -/
def triplesOf : List Point → List (Point × Point × Point)
  | p :: q :: r :: rest => (p, q, r) :: triplesOf rest
  | _ => []

/-- The flat vertex list that stores the given triangles. -/
def untriple (ts : List (Point × Point × Point)) : List Point :=
  ts.flatMap fun t => [t.1, t.2.1, t.2.2]

/-- The triangles one double loop of `makeCombinations` pushes. -/
def orientationTriples (f : Point → Point → Point × Point × Point)
    (combinations : List PossibleShifts) : List (Point × Point × Point) :=
  combinations.flatMap fun c =>
    c._shifts.flatMap fun s =>
      let v := f c._dimensions s
      if offBoard v.1.x v.1.y v.2.1.x v.2.1.y v.2.2.x v.2.2.y then [] else [v]

/-- The order in which `mySolution` commits the candidate `p`, `q`, `r`:
`e.push_back(q); e.push_back(p); e.push_back(r)`. -/
def commit (t : Point × Point × Point) : Point × Point × Point :=
  (t.2.1, t.1, t.2.2)

/-- A way to choose one candidate per triangle, in order, such that each chosen
candidate passes the check of `mySolution` against the assignment `e` extended
by the candidates chosen for the earlier triangles. -/
def ValidChoice : List Triangle → List Point → List (Point × Point × Point) → Prop
  | [], _, [] => True
  | t :: rest, e, c :: cs =>
    c ∈ triplesOf t._allTriangles ∧ triangleValid e c.1 c.2.1 c.2.2 = true ∧
      ValidChoice rest (e ++ [c.2.1, c.1, c.2.2]) cs
  | _, _, _ => False

/-- The three edges of a triangle, as pairs of end points. -/
def edgesOf (t : Point × Point × Point) : List (Point × Point) :=
  [(t.1, t.2.1), (t.1, t.2.2), (t.2.1, t.2.2)]

/-- No edge of `s` crosses an edge of `t`: `doIntersect` is false on all nine
pairs of edges, whichever segment is passed first. -/
def NoCrossing (s t : Point × Point × Point) : Prop :=
  ∀ f ∈ edgesOf s, ∀ g ∈ edgesOf t,
    doIntersect f.1 f.2 g.1 g.2 = false ∧ doIntersect g.1 g.2 f.1 f.2 = false

/-- The three vertices of `s` all pass `pointInTriangle` for the triangle `t`. -/
def NestedIn (s t : Point × Point × Point) : Prop :=
  pointInTriangle s.1 t.1 t.2.1 t.2.2 = true ∧ pointInTriangle s.2.1 t.1 t.2.1 t.2.2 = true ∧
    pointInTriangle s.2.2 t.1 t.2.1 t.2.2 = true

/-- Two placed triangles are compatible: no crossing edges and neither nested
in the other. -/
def Compatible (s t : Point × Point × Point) : Prop :=
  NoCrossing s t ∧ ¬ NestedIn s t ∧ ¬ NestedIn t s

/-- Two triangles of area 2 anchored at `(0, 0)` and `(2, 2)`, as the
constructor builds them. -/
def twoTriangles : List Triangle :=
  [Triangle.new 2 2 0 0 direction.UP, Triangle.new 2 2 2 2 direction.UP].filterMap id

/-- What the pruning pass may do to one triangle: anchor, area, orientation and
dimensions stay, and the new candidate list stores a sub-sequence of the
triples of the old one. -/
def PrunedFrom (t t' : Triangle) : Prop :=
  t'._xC = t._xC ∧ t'._yC = t._yC ∧ t'._area = t._area ∧ t'._direction = t._direction ∧
  t'._combinations = t._combinations ∧
  ∃ kept, List.Sublist kept (triplesOf t._allTriangles) ∧ t'._allTriangles = untriple kept

/-- The puzzle triangles T18 (area 3 at `(16, 10)`) and T22 (area 5 at
`(16, 13)`), as the constructor builds them. -/
def pairT18T22 : List Triangle :=
  [Triangle.new 5 3 16 10 direction.UP, Triangle.new 5 5 16 13 direction.UP].filterMap id

/-- The six corner-to-corner segments of the anchor cell of `t`: its four sides
and two diagonals, with `a`, `b`, `c`, `d` named as in the pruning pass. -/
def cellSegments (t : Triangle) : List (Point × Point) :=
  let a : Point := ⟨t._xC, t._yC⟩
  let b : Point := ⟨t._xC, t._yC + 1⟩
  let c : Point := ⟨t._xC + 1, t._yC + 1⟩
  let d : Point := ⟨t._xC + 1, t._yC⟩
  [(a, b), (a, c), (a, d), (b, c), (b, d), (c, d)]

/-- Some edge of the candidate crosses, per `doIntersect`, a side or diagonal
of the anchor cell of `t`. -/
def crossesCell (cand : Point × Point × Point) (t : Triangle) : Bool :=
  (edgesOf cand).any fun f => (cellSegments t).any fun g => doIntersect f.1 f.2 g.1 g.2

/-- The postcondition the pruning pass is meant to establish on `WIN`: no
candidate left in triangle `i` crosses the anchor cell of another triangle. -/
def PruningPostcondition (WIN : List Triangle) : Prop :=
  ∀ (i k : Nat) (t tk : Triangle), (preProcessValidTriangles WIN).get? i = some t →
    WIN.get? k = some tk → k ≠ i →
    ∀ cand ∈ triplesOf t._allTriangles, crossesCell cand tk = false

/-- The value `val` that `orientation` computes before it takes its sign. -/
def orientVal (p q r : Point) : Int :=
  (q.y - p.y) * (r.x - q.x) - (q.x - p.x) * (r.y - q.y)

/-- The point `r` lies on the line through `p` and `q` (the three points are
colinear). -/
def OnLine (r p q : Point) : Prop :=
  (q.x - p.x) * (r.y - p.y) - (q.y - p.y) * (r.x - p.x) = 0

/-- The segments `p1 q1` and `p2 q2` cross transversally: they are not
parallel, and they meet in a point that lies strictly between the end points
of both (parameters `s` and `t` strictly between 0 and 1). -/
def CrossTransversally (p1 q1 p2 q2 : Point) : Prop :=
  (q1.x - p1.x) * (q2.y - p2.y) - (q1.y - p1.y) * (q2.x - p2.x) ≠ 0 ∧
  ∃ s t : ℚ, 0 < s ∧ s < 1 ∧ 0 < t ∧ t < 1 ∧
    (p1.x : ℚ) + s * (q1.x - p1.x) = p2.x + t * (q2.x - p2.x) ∧
    (p1.y : ℚ) + s * (q1.y - p1.y) = p2.y + t * (q2.y - p2.y)

instance (r p q : Point) : Decidable (OnLine r p q) := by
  unfold OnLine
  infer_instance

/-- The point `(x, y)` with rational coordinates lies strictly inside the
triangle `t`: it is a convex combination of the vertices with three positive
weights. -/
def StrictlyInside (x y : ℚ) (t : Point × Point × Point) : Prop :=
  ∃ u v w : ℚ, 0 < u ∧ 0 < v ∧ 0 < w ∧ u + v + w = 1 ∧
    x = u * t.1.x + v * t.2.1.x + w * t.2.2.x ∧
    y = u * t.1.y + v * t.2.1.y + w * t.2.2.y

/-- All three vertices of `s` lie in the closed triangle `t`. -/
def ClosedNestedIn (s t : Point × Point × Point) : Prop :=
  InClosedTriangle s.1 t.1 t.2.1 t.2.2 ∧ InClosedTriangle s.2.1 t.1 t.2.1 t.2.2 ∧
    InClosedTriangle s.2.2 t.1 t.2.1 t.2.2

/-- Two triangles of areas 2 and 4 anchored at `(0, 2)` and `(0, 1)`, built by
the constructor and pruned by `preProcessValidTriangles` as `main` does. -/
def overlapPair : List Triangle :=
  preProcessValidTriangles
    ([Triangle.new 4 2 0 2 direction.UP, Triangle.new 4 4 0 1 direction.UP].filterMap id)

/-- A choice of one candidate position per triangle, in order, such that each
chosen candidate passes the check of `mySolution` against the candidates
committed for the earlier triangles. -/
def ValidIndices : List Triangle → List Point → List Nat → Prop
  | [], _, [] => True
  | t :: rest, e, k :: ks =>
    ∃ c, (triplesOf t._allTriangles).get? k = some c ∧
      triangleValid e c.1 c.2.1 c.2.2 = true ∧
      ValidIndices rest (e ++ [c.2.1, c.1, c.2.2]) ks
  | _, _, _ => False

/-- The points `mySolution` commits for a choice of candidate positions. -/
def assignmentOf : List Triangle → List Nat → List Point
  | t :: rest, k :: ks =>
    match (triplesOf t._allTriangles).get? k with
    | some c => [c.2.1, c.1, c.2.2] ++ assignmentOf rest ks
    | none => []
  | _, _ => []

/-- Lexicographic order on sequences of candidate positions. -/
def lexLe : List Nat → List Nat → Prop
  | [], _ => True
  | _ :: _, [] => False
  | i :: is, j :: js => i < j ∨ (i = j ∧ lexLe is js)

/-- The candidate `cand` of triangle `i` has an edge that crosses, per
`doIntersect`, a side or diagonal of the anchor cell of another triangle. -/
def CrossesOtherCell (WIN : List Triangle) (i : Nat) (cand : Point × Point × Point) : Prop :=
  ∃ k tk, WIN.get? k = some tk ∧ k ≠ i ∧ crossesCell cand tk = true

/-- The `k` loop of the pruning pass does not erase the candidate. -/
def passesKLoop (WIN : List Triangle) (i : Nat) (cand : Point × Point × Point) : Bool :=
  !kLoop i cand.1 cand.2.1 cand.2.2 0 WIN

/-- What the pruning pass does to triangle `i`, measured against the list `WIN`
the pass started from: every candidate that passes the `k` loop is kept. -/
def KeepsPassing (WIN : List Triangle) (i : Nat) (t t' : Triangle) : Prop :=
  ∃ kept, List.Sublist ((triplesOf t._allTriangles).filter (passesKLoop WIN i)) kept ∧
    List.Sublist kept (triplesOf t._allTriangles) ∧ t'._allTriangles = untriple kept

/-- The values of the local variables of `createShifts` when the outer loop is
first reached. -/
def initialShiftState (dimensions : Point) : ShiftState :=
  { results := []
    shiftX := 0
    shiftY := 0
    v1 := ⟨0, 0⟩
    v2 := ⟨0, dimensions.y⟩
    v3 := ⟨dimensions.x, 0⟩ }

/-- Two triples are the same placement: they have the same three vertices, in
whatever order. -/
def SameVertices (s u : Point × Point × Point) : Prop :=
  ∀ p : Point, p ∈ [s.1, s.2.1, s.2.2] ↔ p ∈ [u.1, u.2.1, u.2.2]

/-- The vertex formula of the loop of `makeCombinations` for orientation `o`. -/
def vertexFormula (o : direction) (X Y : Int) : Point → Point → Point × Point × Point :=
  match o with
  | direction.UP => verticesUp X Y
  | direction.RIGHT => verticesRight X Y
  | direction.DOWN => verticesDown X Y
  | direction.LEFT => verticesLeft X Y

/-- The vertices pushed for the orientation, Dimension and offset `k`. -/
def keyTriple (X Y : Int) (k : direction × Point × Point) : Point × Point × Point :=
  vertexFormula k.1 X Y k.2.1 k.2.2

/-- The board test of `makeCombinations` on a triple of vertices. -/
def tripleOffBoard (v : Point × Point × Point) : Bool :=
  offBoard v.1.x v.1.y v.2.1.x v.2.1.y v.2.2.x v.2.2.y

/-- The (orientation, Dimension, offset) combinations whose triple one loop of
`makeCombinations` pushes, in the order of the loop. -/
def orientationKeys (o : direction) (X Y : Int) (combinations : List PossibleShifts) :
    List (direction × Point × Point) :=
  combinations.flatMap fun c =>
    (c._shifts.filter fun s => !tripleOffBoard (vertexFormula o X Y c._dimensions s)).map
      fun s => (o, c._dimensions, s)

/-- All (orientation, Dimension, offset) combinations whose triple
`makeCombinations` pushes, in order. -/
def candidateKeys (X Y : Int) (combinations : List PossibleShifts) :
    List (direction × Point × Point) :=
  orientationKeys direction.UP X Y combinations ++
  orientationKeys direction.RIGHT X Y combinations ++
  orientationKeys direction.DOWN X Y combinations ++
  orientationKeys direction.LEFT X Y combinations

/-! ## The containment test -/

theorem pointInTriangle_eq_true_iff (pt v1 v2 v3 : Point) :
    pointInTriangle pt v1 v2 v3 = true ↔
      ((0 ≤ sign pt v1 v2 ∧ 0 ≤ sign pt v2 v3 ∧ 0 ≤ sign pt v3 v1) ∨
       (sign pt v1 v2 ≤ 0 ∧ sign pt v2 v3 ≤ 0 ∧ sign pt v3 v1 ≤ 0)) := by
  unfold pointInTriangle
  simp only [Bool.not_eq_true', Bool.and_eq_false_imp, Bool.or_eq_true, decide_eq_true_eq,
    Bool.or_eq_false_iff, decide_eq_false_iff_not, not_lt, gt_iff_lt]
  constructor
  · intro h
    by_cases h1 : sign pt v1 v2 < 0 ∨ sign pt v2 v3 < 0 ∨ sign pt v3 v1 < 0
    · right
      have := h (by tauto)
      omega
    · left
      omega
  · rintro (⟨a, b, c⟩ | ⟨a, b, c⟩) h
    · omega
    · omega

/-! ## The loops of `createShifts` -/

theorem pit_inner (B H sx k : Int) (hB : 0 < B) (hH : 0 < H) (hsx : sx ≤ 0) (hk : 0 ≤ k) :
    pointInTriangle q1 ⟨sx, 0⟩ ⟨sx, H - k⟩ ⟨B + sx, -k⟩ =
      decide (H * (1 - sx) + B * (1 + k) ≤ B * H) := by
  rw [Bool.eq_iff_iff, pointInTriangle_eq_true_iff, decide_eq_true_eq]
  simp only [sign, q1]
  have h3 : 0 ≤ (1 - sx) * k := mul_nonneg (by omega) hk
  constructor
  · rintro (⟨a, b, c⟩ | ⟨a, b, c⟩)
    · nlinarith
    · nlinarith
  · intro h
    right
    have hkH : k ≤ H := by nlinarith
    refine ⟨?_, ?_, ?_⟩
    · nlinarith [mul_nonneg (show (0:Int) ≤ 1 - sx by omega) (show (0:Int) ≤ H - k by omega)]
    · nlinarith
    · nlinarith

theorem pit_outer (B H sx a : Int) (hB : 2 ≤ B) (hH : 0 < H) (hsx : sx ≤ 0)
    (ha : a = sx ∨ a = sx + 1) :
    pointInTriangle q1 ⟨a, 0⟩ ⟨sx, H⟩ ⟨B + sx, 0⟩ =
      decide (H * (1 - sx) + B ≤ B * H) := by
  rw [Bool.eq_iff_iff, pointInTriangle_eq_true_iff, decide_eq_true_eq]
  simp only [sign, q1]
  have h3 : 0 ≤ H * (-sx) := mul_nonneg (by omega) (by omega)
  rcases ha with rfl | rfl
  · constructor
    · rintro (⟨a, b, c⟩ | ⟨a, b, c⟩)
      · nlinarith
      · nlinarith
    · intro h
      right
      refine ⟨?_, ?_, ?_⟩ <;> nlinarith
  · constructor
    · rintro (⟨a, b, c⟩ | ⟨a, b, c⟩)
      · nlinarith
      · nlinarith
    · intro h
      right
      refine ⟨?_, ?_, ?_⟩ <;> nlinarith

theorem lt_shiftRows_iff (B H : Int) (hB : 0 < B) (i k : Nat) :
    k < shiftRows B H i ↔ H * (1 + i) + B * (1 + k) ≤ B * H := by
  unfold shiftRows
  rw [Int.lt_toNat, Int.lt_iff_add_one_le, Int.le_ediv_iff_mul_le hB]
  constructor <;> intro h <;> nlinarith

theorem lt_shiftCols_iff (B H : Int) (hH : 0 < H) (i : Nat) :
    i < shiftCols B H ↔ H * (1 + i) + B ≤ B * H := by
  unfold shiftCols
  rw [Int.lt_toNat, Int.lt_iff_add_one_le, Int.le_ediv_iff_mul_le hH]
  constructor <;> intro h <;> nlinarith

theorem shiftRows_lt (B H : Int) (hB : 0 < B) (hH : 0 < H) (i : Nat) :
    (shiftRows B H i : Int) < H := by
  by_contra hcon
  have hk : H.toNat ≤ shiftRows B H i := by omega
  rcases Nat.eq_zero_or_pos (shiftRows B H i) with h0 | hpos
  · omega
  · have h1 : shiftRows B H i - 1 < shiftRows B H i := by omega
    rw [lt_shiftRows_iff B H hB] at h1
    have h2 : ((shiftRows B H i - 1 : Nat) : Int) = (shiftRows B H i : Int) - 1 := by omega
    rw [h2] at h1
    have h4 : 0 ≤ H * (i : Int) := mul_nonneg hH.le (by omega)
    nlinarith

theorem shiftCols_lt (B H : Int) (hB : 0 < B) (hH : 0 < H) :
    (shiftCols B H : Int) < B := by
  by_contra hcon
  rcases Nat.eq_zero_or_pos (shiftCols B H) with h0 | hpos
  · omega
  · have h1 : shiftCols B H - 1 < shiftCols B H := by omega
    rw [lt_shiftCols_iff B H hH] at h1
    have h2 : ((shiftCols B H - 1 : Nat) : Int) = (shiftCols B H : Int) - 1 := by omega
    rw [h2] at h1
    nlinarith

theorem innerWhile_run (B H : Int) (hB : 0 < B) (hH : 0 < H) (i : Nat) :
    ∀ (d k : Nat) (rs : List Point) (fuel : Nat), k + d = shiftRows B H i → d < fuel →
      innerWhile fuel (innerState B H i k rs) =
        some (innerState B H i (shiftRows B H i)
          (rs ++ (List.range' k d).map fun (j : Nat) => ⟨-(i : Int), -(j : Int)⟩)) := by
  intro d
  induction d with
  | zero =>
    intro k rs fuel hk hf
    obtain ⟨f, rfl⟩ : ∃ f, fuel = f + 1 := ⟨fuel - 1, by omega⟩
    have hnot : ¬ k < shiftRows B H i := by omega
    rw [lt_shiftRows_iff B H hB] at hnot
    have ht := pit_inner B H (-(i : Int)) k hB hH (by omega) (by omega)
    have hB' : B - (i : Int) = B + -(i : Int) := by ring
    simp only [innerWhile, innerState, hB', ht]
    have : ¬ (H * (1 - -(i : Int)) + B * (1 + (k : Int)) ≤ B * H) := by
      intro h; apply hnot; nlinarith
    have hk' : shiftRows B H i = k := by omega
    simp [hk', hnot]
  | succ d ih =>
    intro k rs fuel hk hf
    obtain ⟨f, rfl⟩ : ∃ f, fuel = f + 1 := ⟨fuel - 1, by omega⟩
    have hlt : k < shiftRows B H i := by omega
    rw [lt_shiftRows_iff B H hB] at hlt
    have ht := pit_inner B H (-(i : Int)) k hB hH (by omega) (by omega)
    have hB' : B - (i : Int) = B + -(i : Int) := by ring
    have hc : (H * (1 - -(i : Int)) + B * (1 + (k : Int)) ≤ B * H) := by nlinarith
    have hstep : innerWhile (f + 1) (innerState B H i k rs) =
        innerWhile f (innerState B H i (k + 1) (rs ++ [⟨-(i : Int), -(k : Int)⟩])) := by
      simp only [innerWhile, innerState, hB', ht, hc, decide_True, if_true]
      congr 2
      · simp; omega
      · simp; omega
      · simp; omega
    rw [hstep, ih (k + 1) _ f (by omega) (by omega)]
    simp [List.range'_succ]

theorem outerWhile_run (B H : Int) (hB : 2 ≤ B) (hH : 0 < H) (innerFuel : Nat)
    (hin : H ≤ innerFuel) :
    ∀ (d i : Nat) (a shY : Int) (rs : List Point) (fuel : Nat), i + d = shiftCols B H →
      d < fuel → (a = -(i : Int) ∨ a = -(i : Int) + 1) →
      ∃ s, outerWhile H innerFuel fuel (outerState B H i a shY rs) = some s ∧
        s.results = rs ++ (List.range' i d).flatMap (shiftColumn B H) := by
  intro d
  induction d with
  | zero =>
    intro i a shY rs fuel hi hf ha
    obtain ⟨f, rfl⟩ : ∃ f, fuel = f + 1 := ⟨fuel - 1, by omega⟩
    have hnot : ¬ i < shiftCols B H := by omega
    rw [lt_shiftCols_iff B H hH] at hnot
    have ht := pit_outer B H (-(i : Int)) a hB hH (by omega) ha
    have hB' : B - (i : Int) = B + -(i : Int) := by ring
    have hc : ¬ (H * (1 - -(i : Int)) + B ≤ B * H) := by
      intro h; apply hnot; nlinarith
    refine ⟨outerState B H i a shY rs, ?_, by simp [outerState]⟩
    simp only [outerWhile, outerState, hB', ht, hc, decide_False]
    simp
  | succ d ih =>
    intro i a shY rs fuel hi hf ha
    obtain ⟨f, rfl⟩ : ∃ f, fuel = f + 1 := ⟨fuel - 1, by omega⟩
    have hlt : i < shiftCols B H := by omega
    rw [lt_shiftCols_iff B H hH] at hlt
    have ht := pit_outer B H (-(i : Int)) a hB hH (by omega) ha
    have hB' : B - (i : Int) = B + -(i : Int) := by ring
    have hc : (H * (1 - -(i : Int)) + B ≤ B * H) := by nlinarith
    have hrows : shiftRows B H i < innerFuel := by
      have := shiftRows_lt B H (by omega) hH i
      omega
    have hinner := innerWhile_run B H (by omega) hH i (shiftRows B H i) 0 rs innerFuel
      (by omega) hrows
    have hstart : ({ outerState B H i a shY rs with
        shiftY := 0, v1 := ⟨(outerState B H i a shY rs).shiftX, 0⟩ } : ShiftState) =
        innerState B H i 0 rs := by
      simp [outerState, innerState]
    obtain ⟨s, hs, hres⟩ := ih (i + 1) (-(i : Int)) (-(shiftRows B H i : Int))
      (rs ++ shiftColumn B H i) f (by omega) (by omega) (by right; push_cast; ring)
    refine ⟨s, ?_, ?_⟩
    · rw [← hs]
      simp only [outerWhile]
      rw [show pointInTriangle q1 (outerState B H i a shY rs).v1 (outerState B H i a shY rs).v2
        (outerState B H i a shY rs).v3 = true by
          simp only [outerState, hB', ht, hc, decide_True]]
      simp only [if_true, hstart, hinner]
      congr 1
      simp only [innerState, outerState, shiftColumn, List.range_eq_range']
      congr 2
      all_goals first | rfl | (push_cast; ring)
    · rw [hres, List.range'_succ]
      simp [List.flatMap_cons, List.append_assoc]

theorem createShifts_eq (B H : Int) (hB : 2 ≤ B) (hH : 0 < H) (fuel : Nat)
    (hfB : B ≤ fuel) (hfH : H ≤ fuel) :
    createShifts fuel ⟨B, H⟩ = some (shiftList B H) := by
  have hcols := shiftCols_lt B H (by omega) hH
  obtain ⟨s, hs, hres⟩ := outerWhile_run B H hB hH fuel hfH (shiftCols B H) 0 0 0 [] fuel
    (by omega) (by omega) (by left; simp)
  have hinit : createShifts fuel ⟨B, H⟩ =
      (outerWhile H fuel fuel (outerState B H 0 0 0 [])).map ShiftState.results := by
    simp [createShifts, outerState]
  rw [hinit, hs, Option.map_some', hres]
  simp [shiftList, List.range_eq_range']

theorem mem_shiftList_iff (B H : Int) (hB : 0 < B) (hH : 0 < H) (p : Point) :
    p ∈ shiftList B H ↔
      p.x ≤ 0 ∧ p.y ≤ 0 ∧ (1 - p.x) * H + (1 - p.y) * B ≤ B * H := by
  simp only [shiftList, shiftColumn, List.mem_flatMap, List.mem_range, List.mem_map]
  constructor
  · rintro ⟨i, _, k, hk, rfl⟩
    rw [lt_shiftRows_iff B H hB] at hk
    refine ⟨by simp, by simp, ?_⟩
    simp only
    nlinarith
  · rintro ⟨hx, hy, hc⟩
    obtain ⟨px, py⟩ := p
    simp only at hx hy hc
    refine ⟨px.natAbs, ?_, py.natAbs, ?_, ?_⟩
    · rw [lt_shiftCols_iff B H hH]
      have : ((px.natAbs : Nat) : Int) = -px := by omega
      rw [this]
      have h1 : 0 ≤ (-py) * B := mul_nonneg (by omega) hB.le
      nlinarith
    · rw [lt_shiftRows_iff B H hB]
      have h1 : ((px.natAbs : Nat) : Int) = -px := by omega
      have h2 : ((py.natAbs : Nat) : Int) = -py := by omega
      rw [h1, h2]
      nlinarith
    · have h1 : ((px.natAbs : Nat) : Int) = -px := by omega
      have h2 : ((py.natAbs : Nat) : Int) = -py := by omega
      rw [h1, h2]
      simp

theorem shiftList_nodup (B H : Int) : (shiftList B H).Nodup := by
  unfold shiftList
  rw [List.nodup_flatMap]
  refine ⟨?_, ?_⟩
  · intro i _
    unfold shiftColumn
    refine List.Nodup.map ?_ (List.nodup_range _)
    intro k1 k2 h
    simp only [Point.mk.injEq, neg_inj, Nat.cast_inj, true_and] at h
    exact h
  · refine List.Pairwise.imp_of_mem ?_ (List.nodup_range _)
    intro i j _ _ hij
    simp only [Function.onFun, List.Disjoint, shiftColumn, List.mem_map, List.mem_range]
    rintro p ⟨k1, _, rfl⟩ ⟨k2, _, h2⟩
    simp only [Point.mk.injEq, neg_inj, Nat.cast_inj] at h2
    exact hij h2.1.symm

theorem shiftList_head (B H : Int) (hB : 2 ≤ B) (hH : 2 ≤ H) :
    (shiftList B H).head? = some ⟨0, 0⟩ := by
  have hc : 0 < shiftCols B H := by
    rw [lt_shiftCols_iff B H (by omega)]
    push_cast
    nlinarith
  have hr : 0 < shiftRows B H 0 := by
    rw [lt_shiftRows_iff B H (by omega)]
    push_cast
    nlinarith
  obtain ⟨c, hc'⟩ : ∃ c, shiftCols B H = c + 1 := ⟨shiftCols B H - 1, by omega⟩
  obtain ⟨r, hr'⟩ : ∃ r, shiftRows B H 0 = r + 1 := ⟨shiftRows B H 0 - 1, by omega⟩
  simp [shiftList, shiftColumn, hc', hr', List.range_succ_eq_map]

/-! ## The loop of `createDimensions` -/

theorem base_facts (ea base : Int) (h2 : 2 ≤ base) (hlt : base < ea)
    (hmod : Int.tmod ea base = 0) :
    base * Int.tdiv ea base = ea ∧ 2 ≤ Int.tdiv ea base ∧
      2 * Int.tdiv ea base ≤ ea ∧ 2 * base ≤ ea := by
  have h := Int.tdiv_add_tmod ea base
  rw [hmod, add_zero] at h
  have hH : 2 ≤ Int.tdiv ea base := by
    by_contra hcon
    have : Int.tdiv ea base ≤ 1 := by omega
    nlinarith
  refine ⟨h, hH, ?_, ?_⟩ <;> nlinarith

theorem mem_baseRange (ea base : Int) : base ∈ baseRange ea ↔ 2 ≤ base ∧ base < ea := by
  simp only [baseRange, List.mem_map, List.mem_range]
  constructor
  · rintro ⟨i, hi, rfl⟩
    omega
  · rintro ⟨h1, h2⟩
    exact ⟨(base - 2).toNat, by omega, by omega⟩

theorem createDimensionsLoop_eq (fuel : Nat) (ea : Int) (hf : ea ≤ 2 * fuel) :
    ∀ bases : List Int, (∀ b ∈ bases, 2 ≤ b ∧ b < ea) →
      createDimensionsLoop fuel ea bases =
        some ((bases.filter fun base => Int.tmod ea base = 0).map fun base =>
          ⟨⟨base, Int.tdiv ea base⟩, shiftList base (Int.tdiv ea base)⟩) := by
  intro bases
  induction bases with
  | nil => intro _; rfl
  | cons b rest ih =>
    intro hb
    have hrest := ih (fun x hx => hb x (List.mem_cons_of_mem _ hx))
    obtain ⟨hb2, hblt⟩ := hb b (List.mem_cons_self _ _)
    by_cases hmod : Int.tmod ea b = 0
    · obtain ⟨hprod, hH, hH2, hB2⟩ := base_facts ea b hb2 hblt hmod
      have hsh := createShifts_eq b (Int.tdiv ea b) hb2 (by omega) fuel (by omega) (by omega)
      simp [createDimensionsLoop, hmod, hsh, hrest]
    · simp [createDimensionsLoop, hmod, hrest]

theorem createDimensions_eq (fuel : Nat) (area : Int) (hf : area ≤ fuel) :
    createDimensions fuel area = some (dimensionList (2 * area)) := by
  unfold createDimensions dimensionList
  exact createDimensionsLoop_eq fuel (2 * area) (by omega) _
    (fun b hb => (mem_baseRange _ _).1 hb)

theorem mem_dimensionList (ea : Int) (c : PossibleShifts) (hc : c ∈ dimensionList ea) :
    2 ≤ c._dimensions.x ∧ 2 ≤ c._dimensions.y ∧ c._dimensions.x * c._dimensions.y = ea ∧
      c._shifts = shiftList c._dimensions.x c._dimensions.y := by
  simp only [dimensionList, List.mem_map, List.mem_filter, decide_eq_true_eq] at hc
  obtain ⟨b, ⟨hb, hmod⟩, rfl⟩ := hc
  obtain ⟨h2, hlt⟩ := (mem_baseRange _ _).1 hb
  obtain ⟨hprod, hH, _, _⟩ := base_facts ea b h2 hlt hmod
  exact ⟨h2, hH, hprod, rfl⟩

theorem dimensionList_complete (ea B H : Int) (hB : 2 ≤ B) (hH : 2 ≤ H) (hprod : B * H = ea) :
    (⟨⟨B, H⟩, shiftList B H⟩ : PossibleShifts) ∈ dimensionList ea := by
  have hdiv : Int.tdiv ea B = H := by
    rw [← hprod, Int.mul_tdiv_cancel_left]
    omega
  have hmod : Int.tmod ea B = 0 := by
    have h := Int.tdiv_add_tmod ea B
    rw [hdiv, hprod] at h
    omega
  simp only [dimensionList, List.mem_map, List.mem_filter, decide_eq_true_eq]
  refine ⟨B, ⟨(mem_baseRange _ _).2 ⟨hB, by nlinarith⟩, hmod⟩, ?_⟩
  rw [hdiv]


/-! ## Triangles stored in flat lists -/

theorem triplesOf_untriple_append (ts : List (Point × Point × Point)) (l : List Point) :
    triplesOf (untriple ts ++ l) = ts ++ triplesOf l := by
  induction ts with
  | nil => simp [untriple]
  | cons t rest ih =>
    have : untriple (t :: rest) ++ l = t.1 :: t.2.1 :: t.2.2 :: (untriple rest ++ l) := by
      simp [untriple]
    rw [this, triplesOf, ih]
    rfl

theorem triplesOf_untriple (ts : List (Point × Point × Point)) :
    triplesOf (untriple ts) = ts := by
  have h := triplesOf_untriple_append ts []
  simpa [triplesOf] using h

theorem untriple_append (ts us : List (Point × Point × Point)) :
    untriple (ts ++ us) = untriple ts ++ untriple us := by
  simp [untriple]

theorem length_untriple (ts : List (Point × Point × Point)) :
    (untriple ts).length = 3 * ts.length := by
  induction ts with
  | nil => rfl
  | cons t rest ih =>
    have : untriple (t :: rest) = t.1 :: t.2.1 :: t.2.2 :: untriple rest := by
      simp [untriple]
    rw [this]
    simp only [List.length_cons, ih]
    omega

theorem mem_untriple (ts : List (Point × Point × Point)) (p : Point) :
    p ∈ untriple ts ↔ ∃ t ∈ ts, p = t.1 ∨ p = t.2.1 ∨ p = t.2.2 := by
  simp [untriple]

theorem orientationLoop_eq (f : Point → Point → Point × Point × Point)
    (combinations : List PossibleShifts) :
    orientationLoop f combinations = untriple (orientationTriples f combinations) := by
  unfold orientationLoop orientationTriples untriple
  rw [List.flatMap_assoc]
  congr 1
  funext c
  rw [List.flatMap_assoc]
  congr 1
  funext s
  simp only [pushIfOnBoard]
  split <;> simp

theorem makeCombinations_eq (X Y : Int) (combinations : List PossibleShifts) :
    makeCombinations X Y combinations =
      untriple (orientationTriples (verticesUp X Y) combinations ++
        orientationTriples (verticesRight X Y) combinations ++
        orientationTriples (verticesDown X Y) combinations ++
        orientationTriples (verticesLeft X Y) combinations) := by
  simp only [makeCombinations, orientationLoop_eq, untriple_append]

theorem mem_orientationTriples (f : Point → Point → Point × Point × Point)
    (combinations : List PossibleShifts) (t : Point × Point × Point) :
    t ∈ orientationTriples f combinations ↔
      ∃ c ∈ combinations, ∃ s ∈ c._shifts, t = f c._dimensions s ∧
        offBoard t.1.x t.1.y t.2.1.x t.2.1.y t.2.2.x t.2.2.y = false := by
  simp only [orientationTriples, List.mem_flatMap]
  constructor
  · rintro ⟨c, hc, s, hs, ht⟩
    refine ⟨c, hc, s, hs, ?_⟩
    split at ht
    · simp at ht
    · rename_i hoff
      simp only [List.mem_singleton] at ht
      subst ht
      exact ⟨rfl, by simpa using hoff⟩
  · rintro ⟨c, hc, s, hs, rfl, hoff⟩
    refine ⟨c, hc, s, hs, ?_⟩
    simp [hoff]

theorem mem_triplesOf_makeCombinations (X Y : Int) (combinations : List PossibleShifts)
    (t : Point × Point × Point) :
    t ∈ triplesOf (makeCombinations X Y combinations) ↔
      ∃ f, (f = verticesUp X Y ∨ f = verticesRight X Y ∨ f = verticesDown X Y ∨
          f = verticesLeft X Y) ∧
        ∃ c ∈ combinations, ∃ s ∈ c._shifts, t = f c._dimensions s ∧
          offBoard t.1.x t.1.y t.2.1.x t.2.1.y t.2.2.x t.2.2.y = false := by
  rw [makeCombinations_eq, triplesOf_untriple]
  simp only [List.mem_append, mem_orientationTriples]
  constructor
  · rintro (((h | h) | h) | h)
    · exact ⟨_, Or.inl rfl, h⟩
    · exact ⟨_, Or.inr (Or.inl rfl), h⟩
    · exact ⟨_, Or.inr (Or.inr (Or.inl rfl)), h⟩
    · exact ⟨_, Or.inr (Or.inr (Or.inr rfl)), h⟩
  · rintro ⟨f, (rfl | rfl | rfl | rfl), h⟩
    · exact Or.inl (Or.inl (Or.inl h))
    · exact Or.inl (Or.inl (Or.inr h))
    · exact Or.inl (Or.inr h)
    · exact Or.inr h

theorem offBoard_eq_false_iff (aX aY bX bY cX cY : Int) :
    offBoard aX aY bX bY cX cY = false ↔
      OnBoard ⟨aX, aY⟩ ∧ OnBoard ⟨bX, bY⟩ ∧ OnBoard ⟨cX, cY⟩ := by
  simp only [offBoard, OnBoard, Bool.or_eq_false_iff, decide_eq_false_iff_not, not_lt, gt_iff_lt]
  tauto


/-! ## Closed right triangles with axis-parallel legs -/

theorem inClosed_swap (pt a b c : Point) (h : InClosedTriangle pt a b c) :
    InClosedTriangle pt a c b := by
  obtain ⟨u, v, w, hu, hv, hw, hs, hx, hy⟩ := h
  exact ⟨u, w, v, hu, hw, hv, by omega, by linear_combination hx, by linear_combination hy⟩

/-- A point whose offsets from the right angle `a`, measured along the legs,
are non-negative and lie under the hypotenuse is a convex combination. -/
theorem inClosed_right_of (pt a b c : Point) (Lx Ly sx sy : Int)
    (hsx : sx = 1 ∨ sx = -1) (hsy : sy = 1 ∨ sy = -1) (hLx : 0 < Lx) (hLy : 0 < Ly)
    (hbx : b.x = a.x + sx * Lx) (hby : b.y = a.y) (hcx : c.x = a.x) (hcy : c.y = a.y + sy * Ly)
    (h1 : 0 ≤ sx * (pt.x - a.x)) (h2 : 0 ≤ sy * (pt.y - a.y))
    (h3 : sx * (pt.x - a.x) * Ly + sy * (pt.y - a.y) * Lx ≤ Lx * Ly) :
    InClosedTriangle pt a b c := by
  refine ⟨Lx * Ly - sx * (pt.x - a.x) * Ly - sy * (pt.y - a.y) * Lx,
    sx * (pt.x - a.x) * Ly, sy * (pt.y - a.y) * Lx, by linarith,
    mul_nonneg h1 hLy.le, mul_nonneg h2 hLx.le, ?_, ?_, ?_⟩
  · have := mul_pos hLx hLy
    linarith
  · rw [hbx, hcx]
    rcases hsx with rfl | rfl <;> ring
  · rw [hby, hcy]
    rcases hsy with rfl | rfl <;> ring

theorem inClosed_right_imp (pt a b c : Point) (Lx Ly sx sy : Int)
    (hsx : sx = 1 ∨ sx = -1) (hsy : sy = 1 ∨ sy = -1) (hLx : 0 < Lx) (hLy : 0 < Ly)
    (hbx : b.x = a.x + sx * Lx) (hby : b.y = a.y) (hcx : c.x = a.x) (hcy : c.y = a.y + sy * Ly)
    (h : InClosedTriangle pt a b c) :
    0 ≤ sx * (pt.x - a.x) ∧ 0 ≤ sy * (pt.y - a.y) ∧
      sx * (pt.x - a.x) * Ly + sy * (pt.y - a.y) * Lx ≤ Lx * Ly := by
  obtain ⟨u, v, w, hu, hv, hw, hs, hx, hy⟩ := h
  rw [hbx, hcx] at hx
  rw [hby, hcy] at hy
  have ex : (u + v + w) * (sx * (pt.x - a.x)) = v * Lx := by
    rcases hsx with rfl | rfl
    · linear_combination hx
    · linear_combination -hx
  have ey : (u + v + w) * (sy * (pt.y - a.y)) = w * Ly := by
    rcases hsy with rfl | rfl
    · linear_combination hy
    · linear_combination -hy
  have hvL : 0 ≤ v * Lx := mul_nonneg hv hLx.le
  have hwL : 0 ≤ w * Ly := mul_nonneg hw hLy.le
  have hLL : 0 < Lx * Ly := mul_pos hLx hLy
  refine ⟨?_, ?_, ?_⟩
  · by_contra hneg
    have := mul_neg_of_pos_of_neg hs (not_le.1 hneg)
    omega
  · by_contra hneg
    have := mul_neg_of_pos_of_neg hs (not_le.1 hneg)
    omega
  · by_contra hgt
    have hlt := mul_lt_mul_of_pos_left (not_le.1 hgt) hs
    have e3 : (u + v + w) * (sx * (pt.x - a.x) * Ly + sy * (pt.y - a.y) * Lx) =
        (v + w) * (Lx * Ly) := by
      linear_combination Ly * ex + Lx * ey
    rw [e3] at hlt
    have : (v + w) * (Lx * Ly) ≤ (u + v + w) * (Lx * Ly) :=
      mul_le_mul_of_nonneg_right (by omega) hLL.le
    omega

/-! ## The four orientations contain the anchor cell -/

theorem cell_in_up (X Y B H dx dy : Int) (hB : 0 < B) (hH : 0 < H) (hdx : dx ≤ 0) (hdy : dy ≤ 0)
    (hc : (1 - dx) * H + (1 - dy) * B ≤ B * H) :
    CellInTriangle X Y (verticesUp X Y ⟨B, H⟩ ⟨dx, dy⟩) := by
  simp only [CellInTriangle, verticesUp]
  refine ⟨?_, ?_, ?_, ?_⟩ <;>
    refine inClosed_right_of _ _ _ _ B H 1 1 (Or.inl rfl) (Or.inl rfl) hB hH
      (by simp) rfl rfl (by simp) (by simp; omega) (by simp; omega) (by simp; nlinarith)

theorem cell_in_right (X Y B H dx dy : Int) (hB : 0 < B) (hH : 0 < H) (hdx : dx ≤ 0)
    (hdy : dy ≤ 0) (hc : (1 - dx) * H + (1 - dy) * B ≤ B * H) :
    CellInTriangle X Y (verticesRight X Y ⟨B, H⟩ ⟨dx, dy⟩) := by
  simp only [CellInTriangle, verticesRight, abs_of_nonpos hdx]
  refine ⟨?_, ?_, ?_, ?_⟩ <;>
    refine inClosed_swap _ _ _ _ (inClosed_right_of _ _ _ _ H B 1 (-1) (Or.inl rfl) (Or.inr rfl)
      hH hB (by simp) rfl rfl (by simp; ring) (by simp; omega) (by simp; omega)
      (by simp; nlinarith))

theorem cell_in_down (X Y B H dx dy : Int) (hB : 0 < B) (hH : 0 < H) (hdx : dx ≤ 0)
    (hdy : dy ≤ 0) (hc : (1 - dx) * H + (1 - dy) * B ≤ B * H) :
    CellInTriangle X Y (verticesDown X Y ⟨B, H⟩ ⟨dx, dy⟩) := by
  simp only [CellInTriangle, verticesDown, abs_of_nonpos hdx, abs_of_nonpos hdy]
  refine ⟨?_, ?_, ?_, ?_⟩ <;>
    refine inClosed_right_of _ _ _ _ B H (-1) (-1) (Or.inr rfl) (Or.inr rfl) hB hH
      (by simp; ring) rfl rfl (by simp; ring) (by simp; omega) (by simp; omega)
      (by simp; nlinarith)

theorem cell_in_left (X Y B H dx dy : Int) (hB : 0 < B) (hH : 0 < H) (hdx : dx ≤ 0)
    (hdy : dy ≤ 0) (hc : (1 - dx) * H + (1 - dy) * B ≤ B * H) :
    CellInTriangle X Y (verticesLeft X Y ⟨B, H⟩ ⟨dx, dy⟩) := by
  simp only [CellInTriangle, verticesLeft, abs_of_nonpos hdy]
  refine ⟨?_, ?_, ?_, ?_⟩ <;>
    refine inClosed_swap _ _ _ _ (inClosed_right_of _ _ _ _ H B (-1) 1 (Or.inr rfl) (Or.inl rfl)
      hH hB (by simp; ring) rfl rfl (by simp) (by simp; omega) (by simp; omega)
      (by simp; nlinarith))

theorem cell_right_imp (X Y ax ay Lx Ly sx sy : Int)
    (hsx : sx = 1 ∨ sx = -1) (hsy : sy = 1 ∨ sy = -1) (hLx : 0 < Lx) (hLy : 0 < Ly)
    (h : CellInTriangle X Y (⟨ax, ay⟩, ⟨ax + sx * Lx, ay⟩, ⟨ax, ay + sy * Ly⟩)) :
    (0 ≤ sx * (X - ax) ∧ 0 ≤ sy * (Y - ay) ∧
      sx * (X - ax) * Ly + sy * (Y - ay) * Lx ≤ Lx * Ly) ∧
    (0 ≤ sx * (X + 1 - ax) ∧ 0 ≤ sy * (Y - ay) ∧
      sx * (X + 1 - ax) * Ly + sy * (Y - ay) * Lx ≤ Lx * Ly) ∧
    (0 ≤ sx * (X - ax) ∧ 0 ≤ sy * (Y + 1 - ay) ∧
      sx * (X - ax) * Ly + sy * (Y + 1 - ay) * Lx ≤ Lx * Ly) ∧
    (0 ≤ sx * (X + 1 - ax) ∧ 0 ≤ sy * (Y + 1 - ay) ∧
      sx * (X + 1 - ax) * Ly + sy * (Y + 1 - ay) * Lx ≤ Lx * Ly) := by
  obtain ⟨h1, h2, h3, h4⟩ := h
  have k1 := inClosed_right_imp ⟨X, Y⟩ ⟨ax, ay⟩ ⟨ax + sx * Lx, ay⟩ ⟨ax, ay + sy * Ly⟩
    Lx Ly sx sy hsx hsy hLx hLy rfl rfl rfl rfl h1
  have k2 := inClosed_right_imp ⟨X + 1, Y⟩ ⟨ax, ay⟩ ⟨ax + sx * Lx, ay⟩ ⟨ax, ay + sy * Ly⟩
    Lx Ly sx sy hsx hsy hLx hLy rfl rfl rfl rfl h2
  have k3 := inClosed_right_imp ⟨X, Y + 1⟩ ⟨ax, ay⟩ ⟨ax + sx * Lx, ay⟩ ⟨ax, ay + sy * Ly⟩
    Lx Ly sx sy hsx hsy hLx hLy rfl rfl rfl rfl h3
  have k4 := inClosed_right_imp ⟨X + 1, Y + 1⟩ ⟨ax, ay⟩ ⟨ax + sx * Lx, ay⟩ ⟨ax, ay + sy * Ly⟩
    Lx Ly sx sy hsx hsy hLx hLy rfl rfl rfl rfl h4
  exact ⟨k1, k2, k3, k4⟩

theorem legs_ge_two (B H dx dy : Int) (hB : 0 < B) (hH : 0 < H) (hdx : dx ≤ 0) (hdy : dy ≤ 0)
    (hc : (1 - dx) * H + (1 - dy) * B ≤ B * H) : 2 ≤ B ∧ 2 ≤ H := by
  have h1 : 0 ≤ (-dx) * H := mul_nonneg (by omega) hH.le
  have h2 : 0 ≤ (-dy) * B := mul_nonneg (by omega) hB.le
  constructor
  · by_contra hcon
    have : B = 1 := by omega
    subst this
    nlinarith
  · by_contra hcon
    have : H = 1 := by omega
    subst this
    nlinarith

theorem cell_up_iff (B H dx dy : Int) (hB : 0 < B) (hH : 0 < H) :
    CellInTriangle 0 0 (⟨dx, dy⟩, ⟨dx + B, dy⟩, ⟨dx, dy + H⟩) ↔
      dx ≤ 0 ∧ dy ≤ 0 ∧ (1 - dx) * H + (1 - dy) * B ≤ B * H := by
  constructor
  · intro h
    have h' : CellInTriangle 0 0 (⟨dx, dy⟩, ⟨dx + 1 * B, dy⟩, ⟨dx, dy + 1 * H⟩) := by
      simpa using h
    obtain ⟨⟨a1, a2, _⟩, _, _, ⟨_, _, a3⟩⟩ :=
      cell_right_imp 0 0 dx dy B H 1 1 (Or.inl rfl) (Or.inl rfl) hB hH h'
    refine ⟨by omega, by omega, ?_⟩
    nlinarith
  · rintro ⟨hdx, hdy, hc⟩
    have := cell_in_up 0 0 B H dx dy hB hH hdx hdy hc
    simpa [verticesUp] using this

theorem mem_candidates_of (X Y A : Int) (f : Point → Point → Point × Point × Point)
    (hf : f = verticesUp X Y ∨ f = verticesRight X Y ∨ f = verticesDown X Y ∨
      f = verticesLeft X Y)
    (B H dx dy : Int) (hB : 0 < B) (hH : 0 < H) (hprod : B * H = 2 * A)
    (hdx : dx ≤ 0) (hdy : dy ≤ 0) (hc : (1 - dx) * H + (1 - dy) * B ≤ B * H)
    (hboard : OnBoard (f ⟨B, H⟩ ⟨dx, dy⟩).1 ∧ OnBoard (f ⟨B, H⟩ ⟨dx, dy⟩).2.1 ∧
      OnBoard (f ⟨B, H⟩ ⟨dx, dy⟩).2.2) :
    f ⟨B, H⟩ ⟨dx, dy⟩ ∈ triplesOf (makeCombinations X Y (dimensionList (2 * A))) := by
  obtain ⟨hB2, hH2⟩ := legs_ge_two B H dx dy hB hH hdx hdy hc
  rw [mem_triplesOf_makeCombinations]
  refine ⟨f, hf, ⟨⟨B, H⟩, shiftList B H⟩, dimensionList_complete (2 * A) B H hB2 hH2 hprod,
    ⟨dx, dy⟩, (mem_shiftList_iff B H hB hH _).2 ⟨hdx, hdy, hc⟩, rfl, ?_⟩
  exact (offBoard_eq_false_iff _ _ _ _ _ _).2 hboard

theorem Triangle_new_eq (fuel : Nat) (area X Y : Int) (dir : direction) (hf : area ≤ fuel) :
    Triangle.new fuel area X Y dir =
      some
        { _xC := X
          _yC := Y
          _area := area
          _direction := dir
          _combinations := dimensionList (2 * area)
          _allTriangles := makeCombinations X Y (dimensionList (2 * area)) } := by
  simp [Triangle.new, createDimensions_eq fuel area hf]

/-! ## Symmetries of the geometric tests -/

theorem orientation_eq_zero_iff (p q r : Point) :
    orientation p q r = 0 ↔ (q.y - p.y) * (r.x - q.x) - (q.x - p.x) * (r.y - q.y) = 0 := by
  unfold orientation
  simp only
  split
  · simp [*]
  · split <;> simp [*]

theorem orientation_eq_one_iff (p q r : Point) :
    orientation p q r = 1 ↔ 0 < (q.y - p.y) * (r.x - q.x) - (q.x - p.x) * (r.y - q.y) := by
  unfold orientation
  simp only
  split
  · rename_i h
    simp [h]
  · split
    · rename_i h1 h2
      simp only [true_iff]
      exact h2
    · rename_i h1 h2
      simp only [gt_iff_lt] at h2
      simp [h2]

theorem orientation_cases (p q r : Point) :
    orientation p q r = 0 ∨ orientation p q r = 1 ∨ orientation p q r = 2 := by
  unfold orientation
  simp only
  split
  · exact Or.inl rfl
  · split
    · exact Or.inr (Or.inl rfl)
    · exact Or.inr (Or.inr rfl)

/-- The value `doIntersect` returns: all four orientations are non-colinear and
each segment separates the end points of the other. -/
theorem doIntersect_eq_true_iff (p1 q1 p2 q2 : Point) :
    doIntersect p1 q1 p2 q2 = true ↔
      (orientation p1 q1 p2 ≠ 0 ∧ orientation p1 q1 q2 ≠ 0 ∧ orientation p2 q2 p1 ≠ 0 ∧
        orientation p2 q2 q1 ≠ 0) ∧
      orientation p1 q1 p2 ≠ orientation p1 q1 q2 ∧
      orientation p2 q2 p1 ≠ orientation p2 q2 q1 := by
  unfold doIntersect
  simp only
  split
  · rename_i h
    simp only [Bool.false_eq_true, false_iff]
    rintro ⟨⟨a, b, c, d⟩, _⟩
    rcases h with h | h | h | h
    · exact a h
    · exact b h
    · exact c h
    · exact d h
  · rename_i h
    have h' : orientation p1 q1 p2 ≠ 0 ∧ orientation p1 q1 q2 ≠ 0 ∧ orientation p2 q2 p1 ≠ 0 ∧
        orientation p2 q2 q1 ≠ 0 := by
      refine ⟨?_, ?_, ?_, ?_⟩ <;> intro hc <;> apply h <;> simp [hc]
    split
    · rename_i h2
      simp only [true_iff]
      exact ⟨h', h2⟩
    · rename_i h2
      have : ¬ ((orientation p1 q1 p2 ≠ 0 ∧ orientation p1 q1 q2 ≠ 0 ∧ orientation p2 q2 p1 ≠ 0 ∧
        orientation p2 q2 q1 ≠ 0) ∧ orientation p1 q1 p2 ≠ orientation p1 q1 q2 ∧
        orientation p2 q2 p1 ≠ orientation p2 q2 q1) := fun hh => h2 hh.2
      simp only [this, iff_false]
      repeat' split
      all_goals simp

theorem doIntersect_comm (p1 q1 p2 q2 : Point) :
    doIntersect p1 q1 p2 q2 = doIntersect p2 q2 p1 q1 := by
  rw [Bool.eq_iff_iff, doIntersect_eq_true_iff, doIntersect_eq_true_iff]
  tauto

theorem orientation_swap_zero (p q r : Point) :
    orientation q p r = 0 ↔ orientation p q r = 0 := by
  rw [orientation_eq_zero_iff, orientation_eq_zero_iff]
  constructor <;> intro h <;> linear_combination -h

theorem orientation_swap_one (p q r : Point) (h0 : orientation p q r ≠ 0) :
    orientation q p r = 1 ↔ orientation p q r ≠ 1 := by
  rw [orientation_eq_one_iff, Ne, orientation_eq_one_iff]
  rw [Ne, orientation_eq_zero_iff] at h0
  constructor
  · intro h hc
    nlinarith
  · intro h
    rcases lt_trichotomy ((q.y - p.y) * (r.x - q.x) - (q.x - p.x) * (r.y - q.y)) 0 with h1 | h1 | h1
    · nlinarith
    · exact absurd h1 h0
    · exact absurd h1 h

theorem orientation_ne_swap (p q r s : Point) (hr : orientation p q r ≠ 0)
    (hs : orientation p q s ≠ 0) :
    orientation q p r ≠ orientation q p s ↔ orientation p q r ≠ orientation p q s := by
  have hr' : orientation q p r ≠ 0 := fun h => hr ((orientation_swap_zero p q r).1 h)
  have hs' : orientation q p s ≠ 0 := fun h => hs ((orientation_swap_zero p q s).1 h)
  have e1 := orientation_swap_one p q r hr
  have e2 := orientation_swap_one p q s hs
  rcases orientation_cases p q r with a | a | a <;>
    rcases orientation_cases p q s with b | b | b <;>
    rcases orientation_cases q p r with c | c | c <;>
    rcases orientation_cases q p s with d | d | d <;>
    simp_all

theorem orientation_last_swap_zero (p q r : Point) :
    orientation q r p = 0 ↔ orientation p q r = 0 := by
  rw [orientation_eq_zero_iff, orientation_eq_zero_iff]
  constructor <;> intro h <;> linear_combination h

theorem orientation_rot (p q r : Point) : orientation q r p = orientation p q r := by
  have h0 := orientation_last_swap_zero p q r
  have h1 : orientation q r p = 1 ↔ orientation p q r = 1 := by
    rw [orientation_eq_one_iff, orientation_eq_one_iff]
    constructor <;> intro h <;> nlinarith
  rcases orientation_cases p q r with a | a | a <;>
    rcases orientation_cases q r p with c | c | c <;>
    simp_all

theorem doIntersect_swap_left (p1 q1 p2 q2 : Point) :
    doIntersect q1 p1 p2 q2 = doIntersect p1 q1 p2 q2 := by
  rw [Bool.eq_iff_iff, doIntersect_eq_true_iff, doIntersect_eq_true_iff]
  -- orientations with the first segment reversed
  have z1 := orientation_swap_zero p1 q1 p2
  have z2 := orientation_swap_zero p1 q1 q2
  -- orientation p2 q2 q1 and orientation p2 q2 p1 only trade places
  constructor
  · rintro ⟨⟨a, b, c, d⟩, e, f⟩
    have a' : orientation p1 q1 p2 ≠ 0 := fun h => a (z1.2 h)
    have b' : orientation p1 q1 q2 ≠ 0 := fun h => b (z2.2 h)
    exact ⟨⟨a', b', d, c⟩, (orientation_ne_swap p1 q1 p2 q2 a' b').1 e, fun h => f h.symm⟩
  · rintro ⟨⟨a, b, c, d⟩, e, f⟩
    exact ⟨⟨fun h => a (z1.1 h), fun h => b (z2.1 h), d, c⟩,
      (orientation_ne_swap p1 q1 p2 q2 a b).2 e, fun h => f h.symm⟩

theorem doIntersect_swap_right (p1 q1 p2 q2 : Point) :
    doIntersect p1 q1 q2 p2 = doIntersect p1 q1 p2 q2 := by
  rw [doIntersect_comm, doIntersect_swap_left, doIntersect_comm]

theorem sign_swap (pt a b : Point) : sign pt b a = - sign pt a b := by
  unfold sign
  ring

theorem pointInTriangle_swap12 (pt a b c : Point) :
    pointInTriangle pt b a c = pointInTriangle pt a b c := by
  rw [Bool.eq_iff_iff, pointInTriangle_eq_true_iff, pointInTriangle_eq_true_iff]
  rw [sign_swap pt a b, sign_swap pt c a, sign_swap pt b c]
  constructor <;> rintro (⟨h1, h2, h3⟩ | ⟨h1, h2, h3⟩)
  · right; exact ⟨by omega, by omega, by omega⟩
  · left; exact ⟨by omega, by omega, by omega⟩
  · right; exact ⟨by omega, by omega, by omega⟩
  · left; exact ⟨by omega, by omega, by omega⟩

/-! ## The search -/

theorem triple_induction {P : List Point → Prop}
    (h3 : ∀ p q r rest, P rest → P (p :: q :: r :: rest))
    (h0 : P []) (h1 : ∀ p, P [p]) (h2 : ∀ p q, P [p, q]) : ∀ l, P l
  | [] => h0
  | [p] => h1 p
  | [p, q] => h2 p q
  | p :: q :: r :: rest => h3 p q r rest (triple_induction h3 h0 h1 h2 rest)

theorem candidateLoop_some (next : List Point → Option (List Point)) (e : List Point) :
    ∀ (l : List Point) (e' : List Point), candidateLoop next e l = some e' →
      ∃ c ∈ triplesOf l, triangleValid e c.1 c.2.1 c.2.2 = true ∧
        next (e ++ [c.2.1, c.1, c.2.2]) = some e' := by
  intro l
  induction l using triple_induction with
  | h0 => intro e' h; simp [candidateLoop] at h
  | h1 p => intro e' h; simp [candidateLoop] at h
  | h2 p q => intro e' h; simp [candidateLoop] at h
  | h3 p q r rest ih =>
    intro e' h
    rw [candidateLoop] at h
    by_cases hv : triangleValid e p q r = true
    · rw [if_pos hv] at h
      cases hn : next (e ++ [q, p, r]) with
      | some printed =>
        rw [hn] at h
        simp only [Option.some.injEq] at h
        subst h
        exact ⟨(p, q, r), by simp [triplesOf], hv, hn⟩
      | none =>
        rw [hn] at h
        obtain ⟨c, hc, hcv, hcn⟩ := ih e' h
        exact ⟨c, by simp [triplesOf, hc], hcv, hcn⟩
    · rw [if_neg hv] at h
      obtain ⟨c, hc, hcv, hcn⟩ := ih e' h
      exact ⟨c, by simp [triplesOf, hc], hcv, hcn⟩

theorem candidateLoop_none (next : List Point → Option (List Point)) (e : List Point) :
    ∀ l : List Point, candidateLoop next e l = none →
      ∀ c ∈ triplesOf l, triangleValid e c.1 c.2.1 c.2.2 = true →
        next (e ++ [c.2.1, c.1, c.2.2]) = none := by
  intro l
  induction l using triple_induction with
  | h0 => intro _ c hc; simp [triplesOf] at hc
  | h1 p => intro _ c hc; simp [triplesOf] at hc
  | h2 p q => intro _ c hc; simp [triplesOf] at hc
  | h3 p q r rest ih =>
    intro h c hc hcv
    rw [candidateLoop] at h
    simp only [triplesOf, List.mem_cons] at hc
    by_cases hv : triangleValid e p q r = true
    · rw [if_pos hv] at h
      cases hn : next (e ++ [q, p, r]) with
      | some printed => rw [hn] at h; simp at h
      | none =>
        rw [hn] at h
        rcases hc with rfl | hc
        · exact hn
        · exact ih h c hc hcv
    · rw [if_neg hv] at h
      rcases hc with rfl | hc
      · exact absurd hcv hv
      · exact ih h c hc hcv

theorem mySolutionFrom_some (W : List Triangle) :
    ∀ (e e' : List Point), mySolutionFrom W e = some e' →
      ∃ cs, ValidChoice W e cs ∧ e' = e ++ untriple (cs.map commit) := by
  induction W with
  | nil =>
    intro e e' h
    simp only [mySolutionFrom, Option.some.injEq] at h
    exact ⟨[], trivial, by simp [untriple, h]⟩
  | cons t rest ih =>
    intro e e' h
    rw [mySolutionFrom] at h
    obtain ⟨c, hc, hcv, hcn⟩ := candidateLoop_some _ e _ e' h
    obtain ⟨cs, hcs, he⟩ := ih _ e' hcn
    refine ⟨c :: cs, ⟨hc, hcv, hcs⟩, ?_⟩
    rw [he]
    simp [untriple, commit]

theorem mySolutionFrom_none (W : List Triangle) :
    ∀ e : List Point, mySolutionFrom W e = none → ∀ cs, ¬ ValidChoice W e cs := by
  induction W with
  | nil =>
    intro e h
    simp [mySolutionFrom] at h
  | cons t rest ih =>
    intro e h cs hcs
    rw [mySolutionFrom] at h
    cases cs with
    | nil => exact hcs
    | cons c cs =>
      obtain ⟨hc, hcv, hrest⟩ := hcs
      exact ih _ (candidateLoop_none _ e _ h c hc hcv) cs hrest

/-! ## What the check of one candidate establishes -/

theorem untriple_cons (t : Point × Point × Point) (ts : List (Point × Point × Point)) :
    untriple (t :: ts) = t.1 :: t.2.1 :: t.2.2 :: untriple ts := by
  simp [untriple]

theorem crossesCommitted_false (ts : List (Point × Point × Point)) (p q r : Point)
    (h : crossesCommitted (untriple ts) p q r = false) :
    ∀ t ∈ ts, edgesCross p q r t.1 t.2.1 t.2.2 = false := by
  induction ts with
  | nil => intro t ht; simp at ht
  | cons t0 rest ih =>
    rw [untriple_cons, crossesCommitted] at h
    intro t ht
    by_cases hx : edgesCross p q r t0.1 t0.2.1 t0.2.2 = true
    · rw [if_pos hx] at h
      exact absurd h (by simp)
    · rw [if_neg hx] at h
      rcases List.mem_cons.1 ht with rfl | ht
      · simpa using hx
      · exact ih h t ht

theorem containedIn_false (ts : List (Point × Point × Point)) (p q r : Point)
    (h : triangleIsContainedInOtherTriangle (untriple ts) p q r = false) :
    ∀ t ∈ ts, ¬ NestedIn (p, q, r) t := by
  induction ts with
  | nil => intro t ht; simp at ht
  | cons t0 rest ih =>
    rw [untriple_cons, triangleIsContainedInOtherTriangle] at h
    intro t ht
    split at h
    · exact absurd h (by simp)
    · rename_i hx
      rcases List.mem_cons.1 ht with rfl | ht
      · intro hn
        apply hx
        simp only [NestedIn] at hn
        simp [hn.1, hn.2.1, hn.2.2]
      · exact ih h t ht

theorem containing_false (ts : List (Point × Point × Point)) (p q r : Point)
    (h : triangleIsContainingOtherTriangle (untriple ts) p q r = false) :
    ∀ t ∈ ts, ¬ NestedIn t (p, q, r) := by
  induction ts with
  | nil => intro t ht; simp at ht
  | cons t0 rest ih =>
    rw [untriple_cons, triangleIsContainingOtherTriangle] at h
    intro t ht
    split at h
    · exact absurd h (by simp)
    · rename_i hx
      rcases List.mem_cons.1 ht with rfl | ht
      · intro hn
        apply hx
        simp only [NestedIn] at hn
        simp [hn.1, hn.2.1, hn.2.2]
      · exact ih h t ht

theorem doIntersect_false_all (a b c d : Point) (h : doIntersect a b c d = false) :
    doIntersect a b d c = false ∧ doIntersect b a c d = false ∧ doIntersect b a d c = false ∧
    doIntersect c d a b = false ∧ doIntersect c d b a = false ∧ doIntersect d c a b = false ∧
    doIntersect d c b a = false := by
  have h1 : doIntersect a b d c = false := by rw [doIntersect_swap_right]; exact h
  have h2 : doIntersect b a c d = false := by rw [doIntersect_swap_left]; exact h
  have h3 : doIntersect b a d c = false := by rw [doIntersect_swap_left]; exact h1
  refine ⟨h1, h2, h3, ?_, ?_, ?_, ?_⟩
  · rw [doIntersect_comm]; exact h
  · rw [doIntersect_comm]; exact h2
  · rw [doIntersect_comm]; exact h1
  · rw [doIntersect_comm]; exact h3

theorem edgesCross_false (p q r e0 e1 e2 : Point) (h : edgesCross p q r e0 e1 e2 = false) :
    NoCrossing (e0, e1, e2) (q, p, r) := by
  simp only [edgesCross, Bool.or_eq_false_iff] at h
  obtain ⟨⟨⟨⟨⟨⟨⟨⟨k1, k2⟩, k3⟩, k4⟩, k5⟩, k6⟩, k7⟩, k8⟩, k9⟩ := h
  have a1 := doIntersect_false_all _ _ _ _ k1
  have a2 := doIntersect_false_all _ _ _ _ k2
  have a3 := doIntersect_false_all _ _ _ _ k3
  have a4 := doIntersect_false_all _ _ _ _ k4
  have a5 := doIntersect_false_all _ _ _ _ k5
  have a6 := doIntersect_false_all _ _ _ _ k6
  have a7 := doIntersect_false_all _ _ _ _ k7
  have a8 := doIntersect_false_all _ _ _ _ k8
  have a9 := doIntersect_false_all _ _ _ _ k9
  intro f hf g hg
  simp only [edgesOf, List.mem_cons, List.mem_singleton, List.not_mem_nil, or_false] at hf hg
  rcases hf with rfl | rfl | rfl <;> rcases hg with rfl | rfl | rfl <;> simp_all

theorem triangleValid_compatible (ts : List (Point × Point × Point)) (p q r : Point)
    (h : triangleValid (untriple ts) p q r = true) :
    ∀ t ∈ ts, Compatible t (q, p, r) := by
  simp only [triangleValid, Bool.and_eq_true, Bool.not_eq_true'] at h
  obtain ⟨⟨hx, hin⟩, hout⟩ := h
  intro t ht
  refine ⟨edgesCross_false p q r t.1 t.2.1 t.2.2 (crossesCommitted_false ts p q r hx t ht), ?_, ?_⟩
  · intro hn
    apply containing_false ts p q r hout t ht
    simp only [NestedIn] at hn ⊢
    rw [pointInTriangle_swap12 t.1, pointInTriangle_swap12 t.2.1, pointInTriangle_swap12 t.2.2]
      at hn
    exact hn
  · intro hn
    apply containedIn_false ts p q r hin t ht
    simp only [NestedIn] at hn ⊢
    exact ⟨hn.2.1, hn.1, hn.2.2⟩

theorem Compatible_symm (s t : Point × Point × Point) (h : Compatible s t) : Compatible t s := by
  obtain ⟨h1, h2, h3⟩ := h
  exact ⟨fun f hf g hg => ⟨(h1 g hg f hf).2, (h1 g hg f hf).1⟩, h3, h2⟩

theorem validChoice_pairwise (W : List Triangle) :
    ∀ (ts cs : List (Point × Point × Point)), ValidChoice W (untriple ts) cs →
      List.Pairwise Compatible ts →
      List.Pairwise Compatible (ts ++ cs.map commit) ∧
        List.Forall₂ (fun t c => c ∈ triplesOf t._allTriangles) W cs := by
  induction W with
  | nil =>
    intro ts cs h hp
    cases cs with
    | nil => simpa using hp
    | cons c cs => exact absurd h (by simp [ValidChoice])
  | cons t rest ih =>
    intro ts cs h hp
    cases cs with
    | nil => exact absurd h (by simp [ValidChoice])
    | cons c cs =>
      obtain ⟨hc, hcv, hrest⟩ := h
      have hcompat := triangleValid_compatible ts c.1 c.2.1 c.2.2 hcv
      have he : untriple ts ++ [c.2.1, c.1, c.2.2] = untriple (ts ++ [commit c]) := by
        simp [untriple, commit]
      rw [he] at hrest
      have hp' : List.Pairwise Compatible (ts ++ [commit c]) := by
        rw [List.pairwise_append]
        refine ⟨hp, by simp, ?_⟩
        intro a ha b hb
        simp only [List.mem_singleton] at hb
        subst hb
        exact hcompat a ha
      obtain ⟨h1, h2⟩ := ih (ts ++ [commit c]) cs hrest hp'
      refine ⟨?_, List.Forall₂.cons hc h2⟩
      simpa using h1

/-! ## The pruning pass -/

theorem untriple_triplesOf : ∀ l : List Point, l.length % 3 = 0 → untriple (triplesOf l) = l := by
  intro l
  induction l using triple_induction with
  | h0 => intro _; rfl
  | h1 p => intro h; simp at h
  | h2 p q => intro h; simp at h
  | h3 p q r rest ih =>
    intro h
    have hr : rest.length % 3 = 0 := by
      simp only [List.length_cons] at h
      omega
    rw [triplesOf, untriple_cons, ih hr]

theorem drop_untriple_append (pre : List (Point × Point × Point)) (l : List Point) :
    (untriple pre ++ l).drop (3 * pre.length) = l := by
  rw [← length_untriple]
  exact List.drop_left _ _

theorem take_untriple_append (pre : List (Point × Point × Point)) (l : List Point) :
    (untriple pre ++ l).take (3 * pre.length) = untriple pre := by
  rw [← length_untriple]
  exact List.take_left _ _

theorem eraseTriple_at (pre : List (Point × Point × Point)) (p q r : Point) (l : List Point) :
    eraseTriple (untriple pre ++ p :: q :: r :: l) (3 * pre.length) = untriple pre ++ l := by
  unfold eraseTriple
  rw [take_untriple_append]
  congr 1
  have h : untriple pre ++ p :: q :: r :: l = untriple (pre ++ [(p, q, r)]) ++ l := by
    simp [untriple]
  have hl : 3 * pre.length + 3 = 3 * (pre ++ [(p, q, r)]).length := by
    simp only [List.length_append, List.length_singleton]
    omega
  rw [h, hl, drop_untriple_append]

/-- Whatever the fuel, the `j` loop keeps the triples before `j` and leaves a
sub-sequence of the triples from `j` on. -/
theorem jLoop_sublist (WIN : List Triangle) (i : Nat) :
    ∀ (fuel : Nat) (pre suf : List (Point × Point × Point)),
      ∃ suf', List.Sublist suf' suf ∧
        jLoop WIN i fuel (untriple pre ++ untriple suf) (3 * pre.length) =
          untriple pre ++ untriple suf' := by
  intro fuel
  induction fuel with
  | zero =>
    intro pre suf
    exact ⟨suf, List.Sublist.refl _, rfl⟩
  | succ fuel ih =>
    intro pre suf
    cases suf with
    | nil =>
      refine ⟨[], List.Sublist.refl _, ?_⟩
      rw [jLoop, drop_untriple_append]
      rfl
    | cons t rest =>
      have hnext : 3 * pre.length + 3 = 3 * (pre ++ [t]).length := by
        simp only [List.length_append, List.length_singleton]
        omega
      rw [jLoop, drop_untriple_append, untriple_cons]
      simp only
      by_cases hk : kLoop i t.1 t.2.1 t.2.2 0 WIN = true
      · rw [if_pos hk, eraseTriple_at]
        cases rest with
        | nil =>
          refine ⟨[], List.nil_sublist _, ?_⟩
          have h0 : untriple pre ++ untriple [] = untriple pre ++ untriple [] := rfl
          obtain ⟨s, hs, hr⟩ := ih pre []
          have hs' : s = [] := List.eq_nil_of_sublist_nil hs
          subst hs'
          -- the index has passed the end of the list
          cases fuel with
          | zero => rfl
          | succ f =>
            rw [jLoop]
            have hd : (untriple pre ++ untriple []).drop (3 * pre.length + 3) = [] := by
              apply List.drop_eq_nil_of_le
              simp only [List.length_append, length_untriple, List.length_nil]
              omega
            rw [hd]
        | cons t2 rest2 =>
          obtain ⟨s, hs, hr⟩ := ih (pre ++ [t2]) rest2
          refine ⟨t2 :: s, (List.Sublist.cons₂ t2 hs).cons t, ?_⟩
          have e1 : untriple pre ++ untriple (t2 :: rest2) =
              untriple (pre ++ [t2]) ++ untriple rest2 := by
            simp [untriple]
          have hnext2 : 3 * pre.length + 3 = 3 * (pre ++ [t2]).length := by
            simp only [List.length_append, List.length_singleton]
            omega
          rw [e1, hnext2, hr]
          simp [untriple]
      · rw [if_neg hk]
        obtain ⟨s, hs, hr⟩ := ih (pre ++ [t]) rest
        refine ⟨t :: s, List.Sublist.cons₂ t hs, ?_⟩
        have e1 : untriple pre ++ t.1 :: t.2.1 :: t.2.2 :: untriple rest =
            untriple (pre ++ [t]) ++ untriple rest := by
          simp [untriple]
        rw [e1, hnext, hr]
        simp [untriple]

theorem PrunedFrom_refl (t : Triangle) (h : t._allTriangles.length % 3 = 0) : PrunedFrom t t :=
  ⟨rfl, rfl, rfl, rfl, rfl, triplesOf t._allTriangles, List.Sublist.refl _,
    (untriple_triplesOf _ h).symm⟩

theorem PrunedFrom_trans (a b c : Triangle) (h1 : PrunedFrom a b) (h2 : PrunedFrom b c) :
    PrunedFrom a c := by
  obtain ⟨x1, y1, z1, d1, c1, k1, s1, e1⟩ := h1
  obtain ⟨x2, y2, z2, d2, c2, k2, s2, e2⟩ := h2
  refine ⟨x2.trans x1, y2.trans y1, z2.trans z1, d2.trans d1, c2.trans c1, k2, ?_, e2⟩
  rw [e1, triplesOf_untriple] at s2
  exact s2.trans s1

theorem PrunedFrom_wf (a b : Triangle) (h : PrunedFrom a b) : b._allTriangles.length % 3 = 0 := by
  obtain ⟨_, _, _, _, _, k, _, e⟩ := h
  rw [e, length_untriple]
  omega

theorem forall₂_set {α : Type} (R : α → α → Prop) (x : α) :
    ∀ (l : List α) (i : Nat), (∀ y ∈ l, R y y) → (∀ y, l.get? i = some y → R y x) →
      List.Forall₂ R l (l.set i x) := by
  intro l
  induction l with
  | nil => intro i _ _; exact List.Forall₂.nil
  | cons a rest ih =>
    intro i hrefl hx
    cases i with
    | zero =>
      rw [List.set_cons_zero]
      refine List.Forall₂.cons (hx a rfl) ?_
      exact List.forall₂_same.2 fun y hy => hrefl y (List.mem_cons_of_mem _ hy)
    | succ i =>
      rw [List.set_cons_succ]
      refine List.Forall₂.cons (hrefl a (List.mem_cons_self _ _)) ?_
      exact ih i (fun y hy => hrefl y (List.mem_cons_of_mem _ hy)) (fun y hy => hx y hy)

theorem pruneTriangle_rel (W : List Triangle) (i : Nat)
    (hwf : ∀ t ∈ W, t._allTriangles.length % 3 = 0) :
    List.Forall₂ PrunedFrom W (pruneTriangle W i) := by
  unfold pruneTriangle
  cases hg : W.get? i with
  | none =>
    exact List.forall₂_same.2 fun y hy => PrunedFrom_refl y (hwf y hy)
  | some t =>
    simp only
    apply forall₂_set PrunedFrom _ W i (fun y hy => PrunedFrom_refl y (hwf y hy))
    intro y hy
    rw [hg] at hy
    simp only [Option.some.injEq] at hy
    subst hy
    have ht : t ∈ W := List.get?_mem hg
    have hl := untriple_triplesOf _ (hwf t ht)
    obtain ⟨s, hs, hr⟩ := jLoop_sublist W i (t._allTriangles.length + 1) []
      (triplesOf t._allTriangles)
    refine ⟨rfl, rfl, rfl, rfl, rfl, s, hs, ?_⟩
    simp only [untriple, List.flatMap_nil, List.nil_append, List.length_nil, Nat.mul_zero] at hr
    simp only [untriple]
    rw [← hr]
    have hl' : List.flatMap (triplesOf t._allTriangles) (fun t => [t.1, t.2.1, t.2.2]) =
        t._allTriangles := hl
    rw [hl']

theorem forall₂_PrunedFrom_trans :
    ∀ (A B C : List Triangle), List.Forall₂ PrunedFrom A B → List.Forall₂ PrunedFrom B C →
      List.Forall₂ PrunedFrom A C := by
  intro A B C h1
  induction h1 generalizing C with
  | nil => intro h2; cases h2; exact List.Forall₂.nil
  | cons hab _ ih =>
    intro h2
    cases h2 with
    | cons hbc hrest => exact List.Forall₂.cons (PrunedFrom_trans _ _ _ hab hbc) (ih _ hrest)

theorem forall₂_PrunedFrom_wf (A B : List Triangle) (h : List.Forall₂ PrunedFrom A B) :
    ∀ t ∈ B, t._allTriangles.length % 3 = 0 := by
  induction h with
  | nil => intro t ht; simp at ht
  | cons hab _ ih =>
    intro t ht
    rcases List.mem_cons.1 ht with rfl | ht
    · exact PrunedFrom_wf _ _ hab
    · exact ih t ht

theorem foldl_pruneTriangle_rel (W0 : List Triangle) :
    ∀ (is : List Nat) (W : List Triangle), List.Forall₂ PrunedFrom W0 W →
      List.Forall₂ PrunedFrom W0 (is.foldl pruneTriangle W) := by
  intro is
  induction is with
  | nil => intro W h; exact h
  | cons i rest ih =>
    intro W h
    rw [List.foldl_cons]
    apply ih
    exact forall₂_PrunedFrom_trans _ _ _ h
      (pruneTriangle_rel W i (forall₂_PrunedFrom_wf _ _ h))

theorem jLoop_succ_triple (WIN : List Triangle) (i fuel : Nat) (l : List Point) (j : Nat)
    (p q r : Point) (rest : List Point) (h : l.drop j = p :: q :: r :: rest) :
    jLoop WIN i (fuel + 1) l j =
      if kLoop i p q r 0 WIN then jLoop WIN i fuel (eraseTriple l j) (j + 3)
      else jLoop WIN i fuel l (j + 3) := by
  rw [jLoop, h]

theorem jLoop_succ_short (WIN : List Triangle) (i fuel : Nat) (l : List Point) (j : Nat)
    (h : ∀ p q r rest, l.drop j ≠ p :: q :: r :: rest) :
    jLoop WIN i (fuel + 1) l j = l := by
  rw [jLoop]
  split
  · rename_i p q r rest hd
    exact absurd hd (h p q r rest)
  · rfl

/-- The fuel `preProcessValidTriangles` hands to the `j` loop is never used up:
once the fuel covers the remaining steps of three, more fuel changes nothing. -/
theorem jLoop_fuel_stable (WIN : List Triangle) (i : Nat) :
    ∀ (fuel : Nat) (l : List Point) (j : Nat), l.length ≤ j + 3 * fuel →
      jLoop WIN i (fuel + 1) l j = jLoop WIN i fuel l j := by
  intro fuel
  induction fuel with
  | zero =>
    intro l j h
    have hd : l.drop j = [] := List.drop_eq_nil_of_le (by omega)
    simp [jLoop, hd]
  | succ fuel ih =>
    intro l j h
    by_cases hd : ∃ p q r rest, l.drop j = p :: q :: r :: rest
    · obtain ⟨p, q, r, rest, hd⟩ := hd
      have hlen : (eraseTriple l j).length ≤ j + 3 + 3 * fuel := by
        simp only [eraseTriple, List.length_append, List.length_take, List.length_drop]
        omega
      rw [jLoop_succ_triple WIN i (fuel + 1) l j p q r rest hd,
        jLoop_succ_triple WIN i fuel l j p q r rest hd,
        ih (eraseTriple l j) (j + 3) hlen, ih l (j + 3) (by omega)]
    · have hd' : ∀ p q r rest, l.drop j ≠ p :: q :: r :: rest :=
        fun p q r rest hh => hd ⟨p, q, r, rest, hh⟩
      rw [jLoop_succ_short WIN i (fuel + 1) l j hd', jLoop_succ_short WIN i fuel l j hd']

theorem jLoop_fuel_enough (WIN : List Triangle) (i : Nat) (l : List Point) :
    ∀ n, jLoop WIN i (l.length + 1 + n) l 0 = jLoop WIN i (l.length + 1) l 0 := by
  intro n
  induction n with
  | zero => rfl
  | succ n ih =>
    rw [← ih]
    exact jLoop_fuel_stable WIN i (l.length + 1 + n) l 0 (by omega)

/-! ## What `doIntersect` decides -/

theorem orientation_eq_zero_iff_val (p q r : Point) :
    orientation p q r = 0 ↔ orientVal p q r = 0 :=
  orientation_eq_zero_iff p q r

theorem orientation_ne_iff_val (p q r s : Point) :
    (orientation p q r ≠ 0 ∧ orientation p q s ≠ 0 ∧ orientation p q r ≠ orientation p q s) ↔
      orientVal p q r * orientVal p q s < 0 := by
  have z1 := orientation_eq_zero_iff p q r
  have z2 := orientation_eq_zero_iff p q s
  have o1 := orientation_eq_one_iff p q r
  have o2 := orientation_eq_one_iff p q s
  unfold orientVal
  constructor
  · rintro ⟨h1, h2, h3⟩
    rcases orientation_cases p q r with a | a | a <;>
      rcases orientation_cases p q s with b | b | b
    all_goals first
      | exact absurd a h1
      | exact absurd b h2
      | exact absurd (a.trans b.symm) h3
      | skip
    · have hr := o1.1 a
      have hs0 : ¬ (q.y - p.y) * (s.x - q.x) - (q.x - p.x) * (s.y - q.y) = 0 :=
        fun h => h2 (z2.2 h)
      have hs1 : ¬ 0 < (q.y - p.y) * (s.x - q.x) - (q.x - p.x) * (s.y - q.y) := by
        intro h
        have := o2.2 h
        omega
      exact mul_neg_of_pos_of_neg hr (by omega)
    · have hs := o2.1 b
      have hr0 : ¬ (q.y - p.y) * (r.x - q.x) - (q.x - p.x) * (r.y - q.y) = 0 :=
        fun h => h1 (z1.2 h)
      have hr1 : ¬ 0 < (q.y - p.y) * (r.x - q.x) - (q.x - p.x) * (r.y - q.y) := by
        intro h
        have := o1.2 h
        omega
      exact mul_neg_of_neg_of_pos (by omega) hs
  · intro h
    have hr0 : (q.y - p.y) * (r.x - q.x) - (q.x - p.x) * (r.y - q.y) ≠ 0 := by
      intro h0; rw [h0] at h; simp at h
    have hs0 : (q.y - p.y) * (s.x - q.x) - (q.x - p.x) * (s.y - q.y) ≠ 0 := by
      intro h0; rw [h0] at h; simp at h
    refine ⟨fun hh => hr0 (z1.1 hh), fun hh => hs0 (z2.1 hh), ?_⟩
    intro heq
    by_cases hpos : 0 < (q.y - p.y) * (r.x - q.x) - (q.x - p.x) * (r.y - q.y)
    · have h1 := o1.2 hpos
      have h2 := o2.1 (heq ▸ h1)
      have := mul_pos hpos h2
      omega
    · have hneg : (q.y - p.y) * (r.x - q.x) - (q.x - p.x) * (r.y - q.y) < 0 := by omega
      have hs : (q.y - p.y) * (s.x - q.x) - (q.x - p.x) * (s.y - q.y) < 0 := by
        by_contra hc
        have hspos : 0 < (q.y - p.y) * (s.x - q.x) - (q.x - p.x) * (s.y - q.y) := by omega
        have h2 := o2.2 hspos
        have h1 := o1.1 (heq.trans h2)
        omega
      have := mul_pos_of_neg_of_neg hneg hs
      omega

theorem doIntersect_iff_vals (p1 q1 p2 q2 : Point) :
    doIntersect p1 q1 p2 q2 = true ↔
      orientVal p1 q1 p2 * orientVal p1 q1 q2 < 0 ∧
      orientVal p2 q2 p1 * orientVal p2 q2 q1 < 0 := by
  rw [doIntersect_eq_true_iff, ← orientation_ne_iff_val, ← orientation_ne_iff_val]
  tauto

theorem crossTransversally_of_vals (p1 q1 p2 q2 : Point)
    (h1 : orientVal p1 q1 p2 * orientVal p1 q1 q2 < 0)
    (h2 : orientVal p2 q2 p1 * orientVal p2 q2 q1 < 0) :
    CrossTransversally p1 q1 p2 q2 := by
  have hD : orientVal p1 q1 p2 - orientVal p1 q1 q2 =
      (q1.x - p1.x) * (q2.y - p2.y) - (q1.y - p1.y) * (q2.x - p2.x) := by
    unfold orientVal; ring
  have hD' : orientVal p2 q2 q1 - orientVal p2 q2 p1 =
      (q1.x - p1.x) * (q2.y - p2.y) - (q1.y - p1.y) * (q2.x - p2.x) := by
    unfold orientVal; ring
  have hne : orientVal p1 q1 p2 - orientVal p1 q1 q2 ≠ 0 := by
    intro h0
    have : orientVal p1 q1 p2 = orientVal p1 q1 q2 := by omega
    rw [this] at h1
    nlinarith [mul_self_nonneg (orientVal p1 q1 q2)]
  refine ⟨by rw [← hD]; exact hne, ?_⟩
  set v1 : ℚ := (orientVal p1 q1 p2 : ℚ) with hv1
  set v2 : ℚ := (orientVal p1 q1 q2 : ℚ) with hv2
  set v3 : ℚ := (orientVal p2 q2 p1 : ℚ) with hv3
  set v4 : ℚ := (orientVal p2 q2 q1 : ℚ) with hv4
  have q1' : v1 * v2 < 0 := by
    have : ((orientVal p1 q1 p2 * orientVal p1 q1 q2 : Int) : ℚ) < 0 := by exact_mod_cast h1
    simpa [hv1, hv2] using this
  have q2' : v3 * v4 < 0 := by
    have : ((orientVal p2 q2 p1 * orientVal p2 q2 q1 : Int) : ℚ) < 0 := by exact_mod_cast h2
    simpa [hv3, hv4] using this
  have hrel : v4 - v3 = v1 - v2 := by
    have : ((orientVal p2 q2 q1 - orientVal p2 q2 p1 : Int) : ℚ) =
        ((orientVal p1 q1 p2 - orientVal p1 q1 q2 : Int) : ℚ) := by rw [hD', hD]
    simpa [hv1, hv2, hv3, hv4] using this
  have hDq : v1 - v2 ≠ 0 := by
    intro h0
    have : v1 = v2 := by linarith
    rw [this] at q1'
    nlinarith [mul_self_nonneg v2]
  have hDq' : v4 - v3 ≠ 0 := by rw [hrel]; exact hDq
  -- the parameters of the common point
  refine ⟨v3 / (v3 - v4), v1 / (v1 - v2), ?_, ?_, ?_, ?_, ?_, ?_⟩
  · rcases lt_or_gt_of_ne hDq' with hlt | hgt
    · have h3 : v3 > 0 := by nlinarith
      exact div_pos h3 (by linarith)
    · have h3 : v3 < 0 := by nlinarith
      exact div_pos_of_neg_of_neg h3 (by linarith)
  · rcases lt_or_gt_of_ne hDq' with hlt | hgt
    · have h3 : v3 > 0 := by nlinarith
      have h4 : v4 < 0 := by nlinarith
      rw [div_lt_one (by linarith)]
      linarith
    · have h3 : v3 < 0 := by nlinarith
      have h4 : v4 > 0 := by nlinarith
      rw [div_lt_one_of_neg (by linarith)]
      linarith
  · rcases lt_or_gt_of_ne hDq with hlt | hgt
    · have h3 : v1 < 0 := by nlinarith
      exact div_pos_of_neg_of_neg h3 (by linarith)
    · have h3 : v1 > 0 := by nlinarith
      exact div_pos h3 (by linarith)
  · rcases lt_or_gt_of_ne hDq with hlt | hgt
    · have h3 : v1 < 0 := by nlinarith
      have h4 : v2 > 0 := by nlinarith
      rw [div_lt_one_of_neg (by linarith)]
      linarith
    · have h3 : v1 > 0 := by nlinarith
      have h4 : v2 < 0 := by nlinarith
      rw [div_lt_one (by linarith)]
      linarith
  · have hd34 : v3 - v4 ≠ 0 := by
      intro h; apply hDq'; linarith
    field_simp
    simp only [hv1, hv2, hv3, hv4, orientVal]
    push_cast
    ring
  · have hd34 : v3 - v4 ≠ 0 := by
      intro h; apply hDq'; linarith
    field_simp
    simp only [hv1, hv2, hv3, hv4, orientVal]
    push_cast
    ring

theorem vals_of_crossTransversally (p1 q1 p2 q2 : Point) (h : CrossTransversally p1 q1 p2 q2) :
    orientVal p1 q1 p2 * orientVal p1 q1 q2 < 0 ∧
    orientVal p2 q2 p1 * orientVal p2 q2 q1 < 0 := by
  obtain ⟨hD, s, t, hs0, hs1, ht0, ht1, hx, hy⟩ := h
  have hDq : ((q1.x : ℚ) - p1.x) * (q2.y - p2.y) - ((q1.y : ℚ) - p1.y) * (q2.x - p2.x) ≠ 0 := by
    intro h0
    apply hD
    have : (((q1.x - p1.x) * (q2.y - p2.y) - (q1.y - p1.y) * (q2.x - p2.x) : Int) : ℚ) = 0 := by
      push_cast
      exact h0
    exact_mod_cast this
  set D : ℚ := ((q1.x : ℚ) - p1.x) * (q2.y - p2.y) - ((q1.y : ℚ) - p1.y) * (q2.x - p2.x) with hDdef
  have hDD : 0 < D * D := mul_self_pos.2 hDq
  have e1 : (orientVal p1 q1 p2 : ℚ) = t * D := by
    simp only [orientVal, hDdef]
    push_cast
    linear_combination ((q1.x : ℚ) - p1.x) * hy - ((q1.y : ℚ) - p1.y) * hx
  have e2 : (orientVal p1 q1 q2 : ℚ) = (t - 1) * D := by
    simp only [orientVal, hDdef]
    push_cast
    linear_combination ((q1.x : ℚ) - p1.x) * hy - ((q1.y : ℚ) - p1.y) * hx
  have e3 : (orientVal p2 q2 p1 : ℚ) = -(s * D) := by
    simp only [orientVal, hDdef]
    push_cast
    linear_combination ((q2.y : ℚ) - p2.y) * hx - ((q2.x : ℚ) - p2.x) * hy
  have e4 : (orientVal p2 q2 q1 : ℚ) = (1 - s) * D := by
    simp only [orientVal, hDdef]
    push_cast
    linear_combination ((q2.y : ℚ) - p2.y) * hx - ((q2.x : ℚ) - p2.x) * hy
  constructor
  · have : ((orientVal p1 q1 p2 * orientVal p1 q1 q2 : Int) : ℚ) < 0 := by
      push_cast
      rw [e1, e2]
      have : t * D * ((t - 1) * D) = (t * (t - 1)) * (D * D) := by ring
      rw [this]
      exact mul_neg_of_neg_of_pos (by nlinarith) hDD
    exact_mod_cast this
  · have : ((orientVal p2 q2 p1 * orientVal p2 q2 q1 : Int) : ℚ) < 0 := by
      push_cast
      rw [e3, e4]
      have : -(s * D) * ((1 - s) * D) = (s * (s - 1)) * (D * D) := by ring
      rw [this]
      exact mul_neg_of_neg_of_pos (by nlinarith) hDD
    exact_mod_cast this

theorem doIntersect_iff_cross (p1 q1 p2 q2 : Point) :
    doIntersect p1 q1 p2 q2 = true ↔ CrossTransversally p1 q1 p2 q2 := by
  rw [doIntersect_iff_vals]
  exact ⟨fun h => crossTransversally_of_vals p1 q1 p2 q2 h.1 h.2,
    vals_of_crossTransversally p1 q1 p2 q2⟩

theorem onLine_iff_val (r p q : Point) : OnLine r p q ↔ orientVal p q r = 0 := by
  unfold OnLine orientVal
  constructor <;> intro h <;> linear_combination -h

theorem doIntersect_false_of_onLine (p1 q1 p2 q2 : Point)
    (h : OnLine p2 p1 q1 ∨ OnLine q2 p1 q1 ∨ OnLine p1 p2 q2 ∨ OnLine q1 p2 q2) :
    doIntersect p1 q1 p2 q2 = false := by
  rw [← Bool.not_eq_true, doIntersect_iff_vals]
  rintro ⟨h1, h2⟩
  rcases h with h | h | h | h <;> rw [onLine_iff_val] at h
  · rw [h] at h1; simp at h1
  · rw [h] at h1; simp at h1
  · rw [h] at h2; simp at h2
  · rw [h] at h2; simp at h2

/-! ## What `pointInTriangle` decides -/

theorem sign_cyclic (a b c : Point) : sign b c a = sign a b c := by
  unfold sign; ring

theorem pointInTriangle_of_inClosed (pt v1 v2 v3 : Point) (h : InClosedTriangle pt v1 v2 v3) :
    pointInTriangle pt v1 v2 v3 = true := by
  obtain ⟨u, v, w, hu, hv, hw, hs, hx, hy⟩ := h
  rw [pointInTriangle_eq_true_iff]
  have e1 : (u + v + w) * sign pt v1 v2 = w * sign v1 v2 v3 := by
    unfold sign
    linear_combination (v1.y - v2.y) * hx - (v1.x - v2.x) * hy
  have e2 : (u + v + w) * sign pt v2 v3 = u * sign v1 v2 v3 := by
    unfold sign
    linear_combination (v2.y - v3.y) * hx - (v2.x - v3.x) * hy
  have e3 : (u + v + w) * sign pt v3 v1 = v * sign v1 v2 v3 := by
    unfold sign
    linear_combination (v3.y - v1.y) * hx - (v3.x - v1.x) * hy
  rcases le_total 0 (sign v1 v2 v3) with hK | hK
  · left
    refine ⟨?_, ?_, ?_⟩
    · by_contra hc
      have := mul_neg_of_pos_of_neg hs (not_le.1 hc)
      have := mul_nonneg hw hK
      omega
    · by_contra hc
      have := mul_neg_of_pos_of_neg hs (not_le.1 hc)
      have := mul_nonneg hu hK
      omega
    · by_contra hc
      have := mul_neg_of_pos_of_neg hs (not_le.1 hc)
      have := mul_nonneg hv hK
      omega
  · right
    refine ⟨?_, ?_, ?_⟩
    · by_contra hc
      have := mul_pos hs (not_le.1 hc)
      have := mul_nonpos_of_nonneg_of_nonpos hw hK
      omega
    · by_contra hc
      have := mul_pos hs (not_le.1 hc)
      have := mul_nonpos_of_nonneg_of_nonpos hu hK
      omega
    · by_contra hc
      have := mul_pos hs (not_le.1 hc)
      have := mul_nonpos_of_nonneg_of_nonpos hv hK
      omega

theorem inClosed_of_pointInTriangle (pt v1 v2 v3 : Point) (hnd : sign v1 v2 v3 ≠ 0)
    (h : pointInTriangle pt v1 v2 v3 = true) : InClosedTriangle pt v1 v2 v3 := by
  rw [pointInTriangle_eq_true_iff] at h
  have hsum : sign pt v1 v2 + sign pt v2 v3 + sign pt v3 v1 = sign v1 v2 v3 := by
    unfold sign; ring
  have hX : (sign pt v2 v3 + sign pt v3 v1 + sign pt v1 v2) * pt.x =
      sign pt v2 v3 * v1.x + sign pt v3 v1 * v2.x + sign pt v1 v2 * v3.x := by
    unfold sign; ring
  have hY : (sign pt v2 v3 + sign pt v3 v1 + sign pt v1 v2) * pt.y =
      sign pt v2 v3 * v1.y + sign pt v3 v1 * v2.y + sign pt v1 v2 * v3.y := by
    unfold sign; ring
  rcases h with ⟨h1, h2, h3⟩ | ⟨h1, h2, h3⟩
  · exact ⟨sign pt v2 v3, sign pt v3 v1, sign pt v1 v2, h2, h3, h1, by omega, hX, hY⟩
  · refine ⟨-sign pt v2 v3, -sign pt v3 v1, -sign pt v1 v2, by omega, by omega, by omega,
      by omega, ?_, ?_⟩
    · linear_combination -hX
    · linear_combination -hY

/-! ## The printed assignment, geometrically -/

theorem compatible_geometric (s t : Point × Point × Point) (h : Compatible s t) :
    (∀ f ∈ edgesOf s, ∀ g ∈ edgesOf t, ¬ CrossTransversally f.1 f.2 g.1 g.2) ∧
    ¬ ClosedNestedIn s t ∧ ¬ ClosedNestedIn t s := by
  obtain ⟨hx, hn1, hn2⟩ := h
  refine ⟨?_, ?_, ?_⟩
  · intro f hf g hg hc
    have := (hx f hf g hg).1
    rw [(doIntersect_iff_cross _ _ _ _).2 hc] at this
    exact absurd this (by simp)
  · rintro ⟨a, b, c⟩
    exact hn1 ⟨pointInTriangle_of_inClosed _ _ _ _ a, pointInTriangle_of_inClosed _ _ _ _ b,
      pointInTriangle_of_inClosed _ _ _ _ c⟩
  · rintro ⟨a, b, c⟩
    exact hn2 ⟨pointInTriangle_of_inClosed _ _ _ _ a, pointInTriangle_of_inClosed _ _ _ _ b,
      pointInTriangle_of_inClosed _ _ _ _ c⟩

theorem printed_pairwise_compatible (WIN : List Triangle) (e : List Point)
    (h : mySolution WIN 0 [] = some e) : List.Pairwise Compatible (triplesOf e) := by
  have h' : mySolutionFrom WIN [] = some e := by simpa [mySolution] using h
  obtain ⟨cs, hcs, he⟩ := mySolutionFrom_some WIN [] e h'
  simp only [List.nil_append] at he
  have hcs' : ValidChoice WIN (untriple []) cs := by simpa [untriple] using hcs
  obtain ⟨hpair, _⟩ := validChoice_pairwise WIN [] cs hcs' List.Pairwise.nil
  simp only [List.nil_append] at hpair
  rw [he, triplesOf_untriple]
  exact hpair

/-! ## The first solution in depth-first order -/

theorem candidateLoop_first (next : List Point → Option (List Point)) (e : List Point) :
    ∀ (l : List Point) (e' : List Point), candidateLoop next e l = some e' →
      ∃ k c, (triplesOf l).get? k = some c ∧ triangleValid e c.1 c.2.1 c.2.2 = true ∧
        next (e ++ [c.2.1, c.1, c.2.2]) = some e' ∧
        ∀ k' c', k' < k → (triplesOf l).get? k' = some c' →
          triangleValid e c'.1 c'.2.1 c'.2.2 = true →
          next (e ++ [c'.2.1, c'.1, c'.2.2]) = none := by
  intro l
  induction l using triple_induction with
  | h0 => intro e' h; simp [candidateLoop] at h
  | h1 p => intro e' h; simp [candidateLoop] at h
  | h2 p q => intro e' h; simp [candidateLoop] at h
  | h3 p q r rest ih =>
    intro e' h
    rw [candidateLoop] at h
    have shift : ∀ (hfirst : triangleValid e p q r = true → next (e ++ [q, p, r]) = none),
        candidateLoop next e rest = some e' →
        ∃ k c, (triplesOf (p :: q :: r :: rest)).get? k = some c ∧
          triangleValid e c.1 c.2.1 c.2.2 = true ∧
          next (e ++ [c.2.1, c.1, c.2.2]) = some e' ∧
          ∀ k' c', k' < k → (triplesOf (p :: q :: r :: rest)).get? k' = some c' →
            triangleValid e c'.1 c'.2.1 c'.2.2 = true →
            next (e ++ [c'.2.1, c'.1, c'.2.2]) = none := by
      intro hfirst hrest
      obtain ⟨k, c, hk, hv, hn, hmin⟩ := ih e' hrest
      refine ⟨k + 1, c, by simpa [triplesOf] using hk, hv, hn, ?_⟩
      intro k' c' hlt hk' hv'
      cases k' with
      | zero =>
        simp only [triplesOf, List.get?_cons_zero, Option.some.injEq] at hk'
        subst hk'
        exact hfirst hv'
      | succ k'' =>
        simp only [triplesOf, List.get?_cons_succ] at hk'
        exact hmin k'' c' (by omega) hk' hv'
    by_cases hv : triangleValid e p q r = true
    · rw [if_pos hv] at h
      cases hn : next (e ++ [q, p, r]) with
      | some printed =>
        rw [hn] at h
        simp only [Option.some.injEq] at h
        subst h
        refine ⟨0, (p, q, r), by simp [triplesOf], hv, hn, ?_⟩
        intro k' c' hlt
        omega
      | none =>
        rw [hn] at h
        exact shift (fun _ => hn) h
    · rw [if_neg hv] at h
      exact shift (fun hh => absurd hh hv) h

theorem validIndices_choice (W : List Triangle) :
    ∀ (e : List Point) (ks : List Nat), ValidIndices W e ks → ∃ cs, ValidChoice W e cs := by
  induction W with
  | nil =>
    intro e ks h
    cases ks with
    | nil => exact ⟨[], trivial⟩
    | cons k ks => exact absurd h (by simp [ValidIndices])
  | cons t rest ih =>
    intro e ks h
    cases ks with
    | nil => exact absurd h (by simp [ValidIndices])
    | cons k ks =>
      obtain ⟨c, hk, hv, hrest⟩ := h
      obtain ⟨cs, hcs⟩ := ih _ ks hrest
      exact ⟨c :: cs, List.get?_mem hk, hv, hcs⟩

theorem mySolutionFrom_first (W : List Triangle) :
    ∀ (e e' : List Point), mySolutionFrom W e = some e' →
      ∃ ks, ValidIndices W e ks ∧ e' = e ++ assignmentOf W ks ∧
        ∀ js, ValidIndices W e js → lexLe ks js := by
  induction W with
  | nil =>
    intro e e' h
    simp only [mySolutionFrom, Option.some.injEq] at h
    exact ⟨[], trivial, by simp [assignmentOf, h], fun js _ => trivial⟩
  | cons t rest ih =>
    intro e e' h
    rw [mySolutionFrom] at h
    obtain ⟨k, c, hk, hv, hn, hmin⟩ := candidateLoop_first _ e _ e' h
    obtain ⟨ks, hks, he, hlex⟩ := ih _ e' hn
    refine ⟨k :: ks, ⟨c, hk, hv, hks⟩, ?_, ?_⟩
    · rw [he, assignmentOf, hk]
      simp
    · intro js hjs
      cases js with
      | nil => exact absurd hjs (by simp [ValidIndices])
      | cons j js =>
        obtain ⟨c', hj, hv', hrest⟩ := hjs
        rcases Nat.lt_trichotomy j k with hlt | heq | hgt
        · exfalso
          have hnone := hmin j c' hlt hj hv'
          obtain ⟨cs, hcs⟩ := validIndices_choice rest _ js hrest
          exact mySolutionFrom_none rest _ hnone cs hcs
        · subst heq
          rw [hk] at hj
          simp only [Option.some.injEq] at hj
          subst hj
          exact Or.inr ⟨rfl, hlex js hrest⟩
        · exact Or.inl hgt

/-! ## The pruning pass erases only conflicting candidates -/

theorem doIntersect_degenerate (q a d : Point) : doIntersect q q a d = false := by
  apply doIntersect_false_of_onLine
  left
  unfold OnLine
  ring

theorem cellConflict_crossesCell (p q r : Point) (t : Triangle)
    (h : cellConflict p q r t = true) : crossesCell (p, q, r) t = true := by
  simp only [cellConflict, doIntersect_degenerate, Bool.or_false, Bool.or_eq_true] at h
  simp only [crossesCell, edgesOf, cellSegments, List.any_cons, List.any_nil, Bool.or_false,
    Bool.or_eq_true]
  tauto

theorem kLoop_true_iff (i : Nat) (p q r : Point) :
    ∀ (W : List Triangle) (k : Nat), kLoop i p q r k W = true ↔
      ∃ m tk, W.get? m = some tk ∧ k + m ≠ i ∧ cellConflict p q r tk = true := by
  intro W
  induction W with
  | nil => intro k; simp [kLoop]
  | cons t rest ih =>
    intro k
    rw [kLoop]
    constructor
    · intro h
      by_cases hk : k = i
      · rw [if_pos hk] at h
        obtain ⟨m, tk, hm, hne, hc⟩ := (ih (k + 1)).1 h
        exact ⟨m + 1, tk, by simpa using hm, by omega, hc⟩
      · rw [if_neg hk] at h
        by_cases hc : cellConflict p q r t = true
        · exact ⟨0, t, rfl, by omega, hc⟩
        · rw [if_neg hc] at h
          obtain ⟨m, tk, hm, hne, hc'⟩ := (ih (k + 1)).1 h
          exact ⟨m + 1, tk, by simpa using hm, by omega, hc'⟩
    · rintro ⟨m, tk, hm, hne, hc⟩
      cases m with
      | zero =>
        simp only [List.get?_cons_zero, Option.some.injEq] at hm
        subst hm
        rw [if_neg (by omega), if_pos hc]
      | succ m =>
        simp only [List.get?_cons_succ] at hm
        have hrec := (ih (k + 1)).2 ⟨m, tk, hm, by omega, hc⟩
        by_cases hk : k = i
        · rw [if_pos hk]; exact hrec
        · rw [if_neg hk]
          by_cases hc0 : cellConflict p q r t = true
          · rw [if_pos hc0]
          · rw [if_neg hc0]; exact hrec

theorem kLoop_crossesOther (WIN : List Triangle) (i : Nat) (c : Point × Point × Point)
    (h : kLoop i c.1 c.2.1 c.2.2 0 WIN = true) : CrossesOtherCell WIN i c := by
  obtain ⟨m, tk, hm, hne, hc⟩ := (kLoop_true_iff i c.1 c.2.1 c.2.2 WIN 0).1 h
  exact ⟨m, tk, hm, by omega, cellConflict_crossesCell c.1 c.2.1 c.2.2 tk hc⟩

theorem cellConflict_anchor (p q r : Point) (t t' : Triangle) (hx : t'._xC = t._xC)
    (hy : t'._yC = t._yC) : cellConflict p q r t' = cellConflict p q r t := by
  simp only [cellConflict, hx, hy]

theorem kLoop_congr (i : Nat) (p q r : Point) :
    ∀ (W W' : List Triangle), List.Forall₂ PrunedFrom W W' → ∀ k,
      kLoop i p q r k W' = kLoop i p q r k W := by
  intro W W' h
  induction h with
  | nil => intro k; rfl
  | cons hab _ ih =>
    intro k
    rw [kLoop, kLoop, ih (k + 1), cellConflict_anchor p q r _ _ hab.1 hab.2.1]

/-- The `j` loop never erases a candidate that passes the `k` loop. -/
theorem jLoop_keeps (WIN : List Triangle) (i : Nat) :
    ∀ (fuel : Nat) (pre suf : List (Point × Point × Point)),
      ∃ suf', List.Sublist (suf.filter (passesKLoop WIN i)) suf' ∧ List.Sublist suf' suf ∧
        jLoop WIN i fuel (untriple pre ++ untriple suf) (3 * pre.length) =
          untriple pre ++ untriple suf' := by
  intro fuel
  induction fuel with
  | zero =>
    intro pre suf
    exact ⟨suf, List.filter_sublist _, List.Sublist.refl _, rfl⟩
  | succ fuel ih =>
    intro pre suf
    cases suf with
    | nil =>
      refine ⟨[], by simp, List.Sublist.refl _, ?_⟩
      rw [jLoop, drop_untriple_append]
      rfl
    | cons t rest =>
      have hnext : 3 * pre.length + 3 = 3 * (pre ++ [t]).length := by
        simp only [List.length_append, List.length_singleton]
        omega
      rw [jLoop, drop_untriple_append, untriple_cons]
      simp only
      by_cases hk : kLoop i t.1 t.2.1 t.2.2 0 WIN = true
      · rw [if_pos hk, eraseTriple_at]
        have hbad : passesKLoop WIN i t = false := by simp [passesKLoop, hk]
        cases rest with
        | nil =>
          refine ⟨[], by simp [List.filter, hbad], List.nil_sublist _, ?_⟩
          cases fuel with
          | zero => rfl
          | succ f =>
            rw [jLoop]
            have hd : (untriple pre ++ untriple []).drop (3 * pre.length + 3) = [] := by
              apply List.drop_eq_nil_of_le
              simp only [List.length_append, length_untriple, List.length_nil]
              omega
            rw [hd]
        | cons t2 rest2 =>
          obtain ⟨s, hf, hs, hr⟩ := ih (pre ++ [t2]) rest2
          refine ⟨t2 :: s, ?_, (List.Sublist.cons₂ t2 hs).cons t, ?_⟩
          · rw [List.filter_cons_of_neg (by simp [hbad])]
            by_cases h2 : passesKLoop WIN i t2 = true
            · rw [List.filter_cons_of_pos h2]
              exact List.Sublist.cons₂ t2 hf
            · rw [List.filter_cons_of_neg h2]
              exact List.Sublist.cons t2 hf
          · have e1 : untriple pre ++ untriple (t2 :: rest2) =
                untriple (pre ++ [t2]) ++ untriple rest2 := by
              simp [untriple]
            have hnext2 : 3 * pre.length + 3 = 3 * (pre ++ [t2]).length := by
              simp only [List.length_append, List.length_singleton]
              omega
            rw [e1, hnext2, hr]
            simp [untriple]
      · rw [if_neg hk]
        have hgood : passesKLoop WIN i t = true := by simp [passesKLoop, hk]
        obtain ⟨s, hf, hs, hr⟩ := ih (pre ++ [t]) rest
        refine ⟨t :: s, ?_, List.Sublist.cons₂ t hs, ?_⟩
        · rw [List.filter_cons_of_pos hgood]
          exact List.Sublist.cons₂ t hf
        · have e1 : untriple pre ++ t.1 :: t.2.1 :: t.2.2 :: untriple rest =
              untriple (pre ++ [t]) ++ untriple rest := by
            simp [untriple]
          rw [e1, hnext, hr]
          simp [untriple]

theorem KeepsPassing_refl (WIN : List Triangle) (i : Nat) (t : Triangle)
    (h : t._allTriangles.length % 3 = 0) : KeepsPassing WIN i t t :=
  ⟨triplesOf t._allTriangles, List.filter_sublist _, List.Sublist.refl _,
    (untriple_triplesOf _ h).symm⟩

theorem passesKLoop_congr (WIN W : List Triangle) (h : List.Forall₂ PrunedFrom WIN W) (i : Nat) :
    passesKLoop W i = passesKLoop WIN i := by
  funext c
  simp only [passesKLoop, kLoop_congr i c.1 c.2.1 c.2.2 WIN W h 0]

theorem pruneTriangle_keeps (WIN W : List Triangle) (j : Nat)
    (hrel : List.Forall₂ PrunedFrom WIN W)
    (hinv : ∀ i t, WIN.get? i = some t → ∃ t', W.get? i = some t' ∧ KeepsPassing WIN i t t') :
    ∀ i t, WIN.get? i = some t →
      ∃ t', (pruneTriangle W j).get? i = some t' ∧ KeepsPassing WIN i t t' := by
  intro i t hi
  obtain ⟨t', hi', hkeep⟩ := hinv i t hi
  unfold pruneTriangle
  cases hg : W.get? j with
  | none => exact ⟨t', hi', hkeep⟩
  | some tj =>
    simp only
    by_cases hij : j = i
    · subst hij
      rw [hg] at hi'
      simp only [Option.some.injEq] at hi'
      subst hi'
      have hlt : j < W.length := by
        rw [List.get?_eq_getElem?] at hg
        exact (List.getElem?_eq_some_iff.1 hg).1
      refine ⟨{ tj with
        _allTriangles := jLoop W j (tj._allTriangles.length + 1) tj._allTriangles 0 }, ?_, ?_⟩
      · rw [List.get?_eq_getElem?, List.getElem?_set_self hlt]
      · obtain ⟨kept0, hf0, hs0, he0⟩ := hkeep
        obtain ⟨kept1, hf1, hs1, hr⟩ := jLoop_keeps W j (tj._allTriangles.length + 1) [] kept0
        simp only [untriple, List.flatMap_nil, List.nil_append, List.length_nil,
          Nat.mul_zero] at hr
        refine ⟨kept1, ?_, hs1.trans hs0, ?_⟩
        · rw [passesKLoop_congr WIN W hrel j] at hf1
          have h1 := hf0.filter (passesKLoop WIN j)
          rw [List.filter_filter] at h1
          simp only [Bool.and_self] at h1
          exact h1.trans hf1
        · simp only [untriple]
          rw [← hr]
          have : tj._allTriangles = List.flatMap kept0 (fun t => [t.1, t.2.1, t.2.2]) := he0
          rw [← this]
    · refine ⟨t', ?_, hkeep⟩
      rw [List.get?_eq_getElem?, List.getElem?_set_ne hij, ← List.get?_eq_getElem?]
      exact hi'

theorem foldl_pruneTriangle_keeps (WIN : List Triangle) :
    ∀ (is : List Nat) (W : List Triangle), List.Forall₂ PrunedFrom WIN W →
      (∀ i t, WIN.get? i = some t → ∃ t', W.get? i = some t' ∧ KeepsPassing WIN i t t') →
      ∀ i t, WIN.get? i = some t →
        ∃ t', (is.foldl pruneTriangle W).get? i = some t' ∧ KeepsPassing WIN i t t' := by
  intro is
  induction is with
  | nil => intro W _ hinv; exact hinv
  | cons j rest ih =>
    intro W hrel hinv
    rw [List.foldl_cons]
    apply ih
    · exact forall₂_PrunedFrom_trans _ _ _ hrel
        (pruneTriangle_rel W j (forall₂_PrunedFrom_wf _ _ hrel))
    · exact pruneTriangle_keeps WIN W j hrel hinv

theorem preProcess_keeps (WIN : List Triangle)
    (hwf : ∀ t ∈ WIN, t._allTriangles.length % 3 = 0) :
    ∀ i t, WIN.get? i = some t →
      ∃ t', (preProcessValidTriangles WIN).get? i = some t' ∧ KeepsPassing WIN i t t' := by
  apply foldl_pruneTriangle_keeps WIN _ WIN
  · exact List.forall₂_same.2 fun y hy => PrunedFrom_refl y (hwf y hy)
  · intro i t hi
    exact ⟨t, hi, KeepsPassing_refl WIN i t (hwf t (List.get?_mem hi))⟩

/-! ## The two tests the pruning pass leaves out are covered by the others -/

/-- Arithmetic core: a lattice segment from `(px, py)` above the line `y = 0`
to `(rx, ry)` below it that separates `(0,0)` from `(1,0)` also crosses, in the
sense of `doIntersect`, one of the other five corner pairs of the unit cell. -/
theorem unit_cell_core (px py rx ry N U M : Int) (hpy : 1 ≤ py) (hry : ry ≤ -1)
    (hN : N = rx * py - px * ry) (hU : U = py - ry) (hM : M = N + px - rx)
    (h : N * (N - U) < 0) :
    (N * M < 0 ∧ px * rx < 0) ∨
    (N * (M - U) < 0 ∧ (px - py) * (rx - ry) < 0) ∨
    (M * (M - U) < 0 ∧ (py - 1) * (ry - 1) < 0) ∨
    (M * (N - U) < 0 ∧ (px + py - 1) * (rx + ry - 1) < 0) ∨
    ((M - U) * (N - U) < 0 ∧ (px - 1) * (rx - 1) < 0) := by
  have hUpos : 0 < U := by omega
  have hN0 : 0 < N := by
    by_contra hc
    have h1 : N ≤ 0 := by omega
    have : 0 ≤ N * (N - U) := mul_nonneg_of_nonpos_of_nonpos h1 (by omega)
    omega
  have hNU : N < U := by
    by_contra hc
    have : 0 ≤ N * (N - U) := mul_nonneg hN0.le (by omega)
    omega
  have I1 : U * px = N * (1 - py) + U * py + py * (M - U) := by
    subst hN hU hM; ring
  have I2 : U * rx = N * (1 - ry) + U * ry + ry * (M - U) := by
    subst hN hU hM; ring
  have a1 : 0 ≤ N * (py - 1) := mul_nonneg hN0.le (by omega)
  have a2 : 0 < N * (1 - ry) := mul_pos hN0 (by omega)
  have a3 : 0 ≤ (U - N) * (py - 1) := mul_nonneg (by omega) (by omega)
  have a4 : 0 < (U - N) * (1 - ry) := mul_pos (by omega) (by omega)
  have a5 : 0 < U * py := mul_pos hUpos (by omega)
  have a6 : 0 < U * (-ry) := mul_pos hUpos (by omega)
  rcases lt_trichotomy M 0 with hM0 | hM0 | hM0
  · -- the line leaves the cell through the side `a b`
    left
    refine ⟨mul_neg_of_pos_of_neg hN0 hM0, ?_⟩
    have b1 : 0 < py * (-M) := mul_pos (by omega) (by omega)
    have b2 : 0 < (-ry) * (-M) := mul_pos (by omega) (by omega)
    have hpx : px < 0 := by
      by_contra hc
      have : 0 ≤ U * px := mul_nonneg hUpos.le (by omega)
      nlinarith
    have hrx : 0 < rx := by
      by_contra hc
      have : U * rx ≤ 0 := mul_nonpos_of_nonneg_of_nonpos hUpos.le (by omega)
      nlinarith
    exact mul_neg_of_neg_of_pos hpx hrx
  · -- the line passes through the corner `b`
    right; left
    subst hM0
    refine ⟨mul_neg_of_pos_of_neg hN0 (by omega), ?_⟩
    have hp : px - py < 0 := by
      by_contra hc
      have : 0 ≤ U * (px - py) := mul_nonneg hUpos.le (by omega)
      nlinarith
    have hr : 0 < rx - ry := by
      by_contra hc
      have : U * (rx - ry) ≤ 0 := mul_nonpos_of_nonneg_of_nonpos hUpos.le (by omega)
      nlinarith
    exact mul_neg_of_neg_of_pos hp hr
  · rcases lt_trichotomy M U with hMU | hMU | hMU
    · -- the line leaves the cell through the side `b c`
      right; right; left
      refine ⟨mul_neg_of_pos_of_neg hM0 (by omega), ?_⟩
      have hpy2 : 1 < py := by
        by_contra hc
        have hpy1 : py = 1 := by omega
        subst hpy1
        have hMpx : M = px * U := by subst hN hU hM; ring
        rcases le_or_lt px 0 with hpx | hpx
        · have : px * U ≤ 0 := mul_nonpos_of_nonpos_of_nonneg hpx hUpos.le
          omega
        · have : U ≤ px * U := by nlinarith
          omega
      exact mul_neg_of_pos_of_neg (by omega) (by omega)
    · -- the line passes through the corner `c`
      right; right; right; left
      refine ⟨mul_neg_of_pos_of_neg hM0 (by omega), ?_⟩
      have hp : 0 < px + py - 1 := by
        by_contra hc
        have : U * (px + py - 1) ≤ 0 := mul_nonpos_of_nonneg_of_nonpos hUpos.le (by omega)
        nlinarith
      have hr : rx + ry - 1 < 0 := by
        by_contra hc
        have : 0 ≤ U * (rx + ry - 1) := mul_nonneg hUpos.le (by omega)
        nlinarith
      exact mul_neg_of_pos_of_neg hp hr
    · -- the line leaves the cell through the side `c d`
      right; right; right; right
      refine ⟨mul_neg_of_pos_of_neg (by omega) (by omega), ?_⟩
      have b1 : 0 < py * (M - U) := mul_pos (by omega) (by omega)
      have b2 : 0 < (-ry) * (M - U) := mul_pos (by omega) (by omega)
      have hp : 0 < px - 1 := by
        by_contra hc
        have : U * (px - 1) ≤ 0 := mul_nonpos_of_nonneg_of_nonpos hUpos.le (by omega)
        nlinarith
      have hr : rx - 1 < 0 := by
        by_contra hc
        have : 0 ≤ U * (rx - 1) := mul_nonneg hUpos.le (by omega)
        nlinarith
      exact mul_neg_of_pos_of_neg hp hr

theorem bottom_side_covered_down (X Y : Int) (p r : Point) (hp : Y + 1 ≤ p.y) (hr : r.y ≤ Y - 1)
    (h : doIntersect p r ⟨X, Y⟩ ⟨X + 1, Y⟩ = true) :
    doIntersect p r ⟨X, Y⟩ ⟨X, Y + 1⟩ = true ∨ doIntersect p r ⟨X, Y⟩ ⟨X + 1, Y + 1⟩ = true ∨
    doIntersect p r ⟨X, Y + 1⟩ ⟨X + 1, Y + 1⟩ = true ∨
    doIntersect p r ⟨X, Y + 1⟩ ⟨X + 1, Y⟩ = true ∨
    doIntersect p r ⟨X + 1, Y + 1⟩ ⟨X + 1, Y⟩ = true := by
  simp only [doIntersect_iff_vals] at h ⊢
  have va : orientVal p r ⟨X, Y⟩ = (r.x - X) * (p.y - Y) - (p.x - X) * (r.y - Y) := by
    simp only [orientVal]; ring
  have vd : orientVal p r ⟨X + 1, Y⟩ =
      (r.x - X) * (p.y - Y) - (p.x - X) * (r.y - Y) - ((p.y - Y) - (r.y - Y)) := by
    simp only [orientVal]; ring
  have vb : orientVal p r ⟨X, Y + 1⟩ =
      (r.x - X) * (p.y - Y) - (p.x - X) * (r.y - Y) + (p.x - X) - (r.x - X) := by
    simp only [orientVal]; ring
  have vc : orientVal p r ⟨X + 1, Y + 1⟩ =
      (r.x - X) * (p.y - Y) - (p.x - X) * (r.y - Y) + (p.x - X) - (r.x - X) -
        ((p.y - Y) - (r.y - Y)) := by
    simp only [orientVal]; ring
  have wab : ∀ z : Point, orientVal ⟨X, Y⟩ ⟨X, Y + 1⟩ z = z.x - X := by
    intro z; simp only [orientVal]; ring
  have wac : ∀ z : Point, orientVal ⟨X, Y⟩ ⟨X + 1, Y + 1⟩ z = (z.x - X) - (z.y - Y) := by
    intro z; simp only [orientVal]; ring
  have wbc : ∀ z : Point, orientVal ⟨X, Y + 1⟩ ⟨X + 1, Y + 1⟩ z = -((z.y - Y) - 1) := by
    intro z; simp only [orientVal]; ring
  have wbd : ∀ z : Point, orientVal ⟨X, Y + 1⟩ ⟨X + 1, Y⟩ z =
      -((z.x - X) + (z.y - Y) - 1) := by
    intro z; simp only [orientVal]; ring
  have wcd : ∀ z : Point, orientVal ⟨X + 1, Y + 1⟩ ⟨X + 1, Y⟩ z = -((z.x - X) - 1) := by
    intro z; simp only [orientVal]; ring
  rw [va, vd] at h
  have hcore := unit_cell_core (p.x - X) (p.y - Y) (r.x - X) (r.y - Y)
    ((r.x - X) * (p.y - Y) - (p.x - X) * (r.y - Y)) ((p.y - Y) - (r.y - Y))
    ((r.x - X) * (p.y - Y) - (p.x - X) * (r.y - Y) + (p.x - X) - (r.x - X))
    (by omega) (by omega) rfl rfl rfl h.1
  rw [va, vb, vc, vd, wab, wab, wac, wac, wbc, wbc, wbd, wbd, wcd, wcd]
  rcases hcore with ⟨h1, h2⟩ | ⟨h1, h2⟩ | ⟨h1, h2⟩ | ⟨h1, h2⟩ | ⟨h1, h2⟩
  · exact Or.inl ⟨h1, h2⟩
  · exact Or.inr (Or.inl ⟨h1, h2⟩)
  · refine Or.inr (Or.inr (Or.inl ⟨h1, ?_⟩))
    linarith [h2]
  · refine Or.inr (Or.inr (Or.inr (Or.inl ⟨h1, ?_⟩)))
    linarith [h2]
  · refine Or.inr (Or.inr (Or.inr (Or.inr ⟨h1, ?_⟩)))
    linarith [h2]

theorem bottom_side_covered (X Y : Int) (p r : Point)
    (h : doIntersect p r ⟨X, Y⟩ ⟨X + 1, Y⟩ = true) :
    doIntersect p r ⟨X, Y⟩ ⟨X, Y + 1⟩ = true ∨ doIntersect p r ⟨X, Y⟩ ⟨X + 1, Y + 1⟩ = true ∨
    doIntersect p r ⟨X, Y + 1⟩ ⟨X + 1, Y + 1⟩ = true ∨
    doIntersect p r ⟨X, Y + 1⟩ ⟨X + 1, Y⟩ = true ∨
    doIntersect p r ⟨X + 1, Y + 1⟩ ⟨X + 1, Y⟩ = true := by
  have hv := (doIntersect_iff_vals _ _ _ _).1 h
  have w1 : orientVal ⟨X, Y⟩ ⟨X + 1, Y⟩ p = -(p.y - Y) := by simp only [orientVal]; ring
  have w2 : orientVal ⟨X, Y⟩ ⟨X + 1, Y⟩ r = -(r.y - Y) := by simp only [orientVal]; ring
  have hprod : (p.y - Y) * (r.y - Y) < 0 := by
    have := hv.2
    rw [w1, w2] at this
    linarith
  rcases lt_trichotomy (p.y - Y) 0 with hpy | hpy | hpy
  · -- `p` lies below: exchange the end points
    have hry : 0 < r.y - Y := by
      by_contra hc
      have : 0 ≤ (p.y - Y) * (r.y - Y) := mul_nonneg_of_nonpos_of_nonpos hpy.le (by omega)
      omega
    have h' : doIntersect r p ⟨X, Y⟩ ⟨X + 1, Y⟩ = true := by
      rw [doIntersect_swap_left]; exact h
    have := bottom_side_covered_down X Y r p (by omega) (by omega) h'
    simpa only [doIntersect_swap_left r p] using this
  · rw [hpy] at hprod
    simp at hprod
  · have hry : r.y - Y < 0 := by
      by_contra hc
      have : 0 ≤ (p.y - Y) * (r.y - Y) := mul_nonneg hpy.le (by omega)
      omega
    exact bottom_side_covered_down X Y p r (by omega) (by omega) h

theorem cellConflict_of_edge (p q r : Point) (t : Triangle) (x : Point)
    (hx : x = p ∨ x = q)
    (h : doIntersect x r ⟨t._xC, t._yC⟩ ⟨t._xC, t._yC + 1⟩ = true ∨
      doIntersect x r ⟨t._xC, t._yC⟩ ⟨t._xC + 1, t._yC + 1⟩ = true ∨
      doIntersect x r ⟨t._xC, t._yC + 1⟩ ⟨t._xC + 1, t._yC + 1⟩ = true ∨
      doIntersect x r ⟨t._xC, t._yC + 1⟩ ⟨t._xC + 1, t._yC⟩ = true ∨
      doIntersect x r ⟨t._xC + 1, t._yC + 1⟩ ⟨t._xC + 1, t._yC⟩ = true) :
    cellConflict p q r t = true := by
  rcases hx with rfl | rfl <;> rcases h with h | h | h | h | h <;>
    simp only [cellConflict, h, Bool.or_true, Bool.true_or]

theorem crossesCell_cellConflict (p q r : Point) (t : Triangle)
    (h : crossesCell (p, q, r) t = true) : cellConflict p q r t = true := by
  simp only [crossesCell, edgesOf, cellSegments, List.any_cons, List.any_nil, Bool.or_false,
    Bool.or_eq_true] at h
  rcases h with (h | h | h | h | h | h) | (h | h | h | h | h | h) | (h | h | h | h | h | h)
  all_goals first
    | (simp only [cellConflict, h, Bool.or_true, Bool.true_or]; done)
    | exact cellConflict_of_edge p q r t p (Or.inl rfl) (bottom_side_covered t._xC t._yC p r h)
    | exact cellConflict_of_edge p q r t q (Or.inr rfl) (bottom_side_covered t._xC t._yC q r h)

/-! ## Symmetries of the check of one candidate against one committed triangle -/

theorem pointInTriangle_rot (pt a b c : Point) :
    pointInTriangle pt b c a = pointInTriangle pt a b c := by
  rw [Bool.eq_iff_iff, pointInTriangle_eq_true_iff, pointInTriangle_eq_true_iff]
  tauto

theorem triangleValid_single (t1 t2 t3 p q r : Point) :
    triangleValid [t1, t2, t3] p q r =
      (!edgesCross p q r t1 t2 t3 &&
        !(pointInTriangle p t1 t2 t3 && pointInTriangle q t1 t2 t3 &&
          pointInTriangle r t1 t2 t3) &&
        !(pointInTriangle t1 p q r && pointInTriangle t2 p q r && pointInTriangle t3 p q r)) := by
  simp [triangleValid, crossesCommitted, triangleIsContainedInOtherTriangle,
    triangleIsContainingOtherTriangle]

theorem edgesCross_comm (p q r t1 t2 t3 : Point) :
    edgesCross t1 t2 t3 p q r = edgesCross p q r t1 t2 t3 := by
  simp only [edgesCross]
  rw [doIntersect_comm t1 t2 p q, doIntersect_comm t1 t2 p r,
    doIntersect_comm t1 t2 r q, doIntersect_swap_left q r t1 t2,
    doIntersect_comm t1 t3 p q, doIntersect_comm t1 t3 p r,
    doIntersect_comm t1 t3 r q, doIntersect_swap_left q r t1 t3,
    doIntersect_comm t2 t3 p q, ← doIntersect_swap_right p q t3 t2,
    doIntersect_comm t2 t3 p r, ← doIntersect_swap_right p r t3 t2,
    doIntersect_comm t2 t3 r q, doIntersect_swap_left q r t2 t3,
    ← doIntersect_swap_right q r t3 t2]
  rw [Bool.eq_iff_iff]
  simp only [Bool.or_eq_true]
  tauto

theorem edgesCross_swap (p q r t1 t2 t3 : Point) :
    edgesCross q p r t1 t2 t3 = edgesCross p q r t1 t2 t3 := by
  simp only [edgesCross]
  rw [doIntersect_swap_left p q t1 t2, doIntersect_swap_left p q t1 t3,
    doIntersect_swap_left p q t3 t2]
  rw [Bool.eq_iff_iff]
  simp only [Bool.or_eq_true]
  tauto

theorem edgesCross_rot (p q r t1 t2 t3 : Point) :
    edgesCross q r p t1 t2 t3 = edgesCross p q r t1 t2 t3 := by
  simp only [edgesCross]
  rw [doIntersect_swap_left p q t1 t2, doIntersect_swap_left p q t1 t3,
    doIntersect_swap_left p q t3 t2, doIntersect_swap_left p r t1 t2,
    doIntersect_swap_left p r t1 t3, doIntersect_swap_left p r t3 t2]
  rw [Bool.eq_iff_iff]
  simp only [Bool.or_eq_true]
  tauto

theorem triangleValid_symm (t1 t2 t3 p q r : Point) :
    triangleValid [p, q, r] t1 t2 t3 = triangleValid [t1, t2, t3] p q r := by
  rw [triangleValid_single, triangleValid_single, edgesCross_comm]
  generalize edgesCross p q r t1 t2 t3 = x
  generalize pointInTriangle p t1 t2 t3 = a1
  generalize pointInTriangle q t1 t2 t3 = a2
  generalize pointInTriangle r t1 t2 t3 = a3
  generalize pointInTriangle t1 p q r = b1
  generalize pointInTriangle t2 p q r = b2
  generalize pointInTriangle t3 p q r = b3
  revert x a1 a2 a3 b1 b2 b3
  decide

theorem triangleValid_swap (t1 t2 t3 p q r : Point) :
    triangleValid [t1, t2, t3] q p r = triangleValid [t1, t2, t3] p q r := by
  rw [triangleValid_single, triangleValid_single, edgesCross_swap,
    pointInTriangle_swap12 t1 p q r, pointInTriangle_swap12 t2 p q r,
    pointInTriangle_swap12 t3 p q r]
  generalize edgesCross p q r t1 t2 t3 = x
  generalize pointInTriangle p t1 t2 t3 = a1
  generalize pointInTriangle q t1 t2 t3 = a2
  generalize pointInTriangle r t1 t2 t3 = a3
  generalize pointInTriangle t1 p q r = b1
  generalize pointInTriangle t2 p q r = b2
  generalize pointInTriangle t3 p q r = b3
  revert x a1 a2 a3 b1 b2 b3
  decide

theorem triangleValid_rot (t1 t2 t3 p q r : Point) :
    triangleValid [t1, t2, t3] q r p = triangleValid [t1, t2, t3] p q r := by
  rw [triangleValid_single, triangleValid_single, edgesCross_rot,
    pointInTriangle_rot t1 p q r, pointInTriangle_rot t2 p q r, pointInTriangle_rot t3 p q r]
  generalize edgesCross p q r t1 t2 t3 = x
  generalize pointInTriangle p t1 t2 t3 = a1
  generalize pointInTriangle q t1 t2 t3 = a2
  generalize pointInTriangle r t1 t2 t3 = a3
  generalize pointInTriangle t1 p q r = b1
  generalize pointInTriangle t2 p q r = b2
  generalize pointInTriangle t3 p q r = b3
  revert x a1 a2 a3 b1 b2 b3
  decide

/-! ## No placement is enumerated twice -/

theorem vertexFormula_inj (X Y : Int) (o1 o2 : direction) (d1 s1 d2 s2 : Point)
    (hd1x : 0 < d1.x) (hd1y : 0 < d1.y) (hs1x : s1.x ≤ 0) (hs1y : s1.y ≤ 0)
    (hd2x : 0 < d2.x) (hd2y : 0 < d2.y) (hs2x : s2.x ≤ 0) (hs2y : s2.y ≤ 0)
    (h : SameVertices (vertexFormula o1 X Y d1 s1) (vertexFormula o2 X Y d2 s2)) :
    o1 = o2 ∧ d1 = d2 ∧ s1 = s2 := by
  obtain ⟨d1x, d1y⟩ := d1
  obtain ⟨s1x, s1y⟩ := s1
  obtain ⟨d2x, d2y⟩ := d2
  obtain ⟨s2x, s2y⟩ := s2
  simp only at hd1x hd1y hs1x hs1y hd2x hd2y hs2x hs2y
  have e1 : |s1x| = -s1x := abs_of_nonpos hs1x
  have e2 : |s1y| = -s1y := abs_of_nonpos hs1y
  have e3 : |s2x| = -s2x := abs_of_nonpos hs2x
  have e4 : |s2y| = -s2y := abs_of_nonpos hs2y
  have a1 := (h (vertexFormula o1 X Y ⟨d1x, d1y⟩ ⟨s1x, s1y⟩).1).1 (by simp)
  have a2 := (h (vertexFormula o1 X Y ⟨d1x, d1y⟩ ⟨s1x, s1y⟩).2.1).1 (by simp)
  have a3 := (h (vertexFormula o1 X Y ⟨d1x, d1y⟩ ⟨s1x, s1y⟩).2.2).1 (by simp)
  have b1 := (h (vertexFormula o2 X Y ⟨d2x, d2y⟩ ⟨s2x, s2y⟩).1).2 (by simp)
  have b2 := (h (vertexFormula o2 X Y ⟨d2x, d2y⟩ ⟨s2x, s2y⟩).2.1).2 (by simp)
  have b3 := (h (vertexFormula o2 X Y ⟨d2x, d2y⟩ ⟨s2x, s2y⟩).2.2).2 (by simp)
  cases o1 <;> cases o2 <;>
    simp only [vertexFormula, verticesUp, verticesRight, verticesDown, verticesLeft, e1, e2, e3,
      e4, List.mem_cons, List.mem_singleton, List.not_mem_nil, or_false, Point.mk.injEq,
      true_and, and_true, reduceCtorEq, false_and] at a1 a2 a3 b1 b2 b3 ⊢ <;>
    first
      | (exfalso; omega)
      | (refine ⟨⟨?_, ?_⟩, ⟨?_, ?_⟩⟩ <;> omega)

theorem orientationKeys_map (o : direction) (X Y : Int) (combinations : List PossibleShifts) :
    (orientationKeys o X Y combinations).map (keyTriple X Y) =
      orientationTriples (vertexFormula o X Y) combinations := by
  unfold orientationKeys orientationTriples
  rw [List.map_flatMap]
  congr 1
  funext c
  induction c._shifts with
  | nil => rfl
  | cons s rest ih =>
    rw [List.flatMap_cons, ← ih]
    by_cases hoff : tripleOffBoard (vertexFormula o X Y c._dimensions s) = true
    · have hoff' := hoff
      unfold tripleOffBoard at hoff'
      simp [List.filter_cons, hoff, hoff']
    · have hoff' := hoff
      unfold tripleOffBoard at hoff'
      simp [List.filter_cons, hoff, hoff', keyTriple]

theorem triplesOf_makeCombinations_keys (X Y : Int) (combinations : List PossibleShifts) :
    triplesOf (makeCombinations X Y combinations) =
      (candidateKeys X Y combinations).map (keyTriple X Y) := by
  rw [makeCombinations_eq, triplesOf_untriple]
  simp only [candidateKeys, List.map_append, orientationKeys_map]
  rfl

theorem mem_orientationKeys (o : direction) (X Y : Int) (combinations : List PossibleShifts)
    (k : direction × Point × Point) (hk : k ∈ orientationKeys o X Y combinations) :
    k.1 = o ∧ ∃ c ∈ combinations, k.2.1 = c._dimensions ∧ k.2.2 ∈ c._shifts := by
  simp only [orientationKeys, List.mem_flatMap, List.mem_map, List.mem_filter] at hk
  obtain ⟨c, hc, s, ⟨hs, _⟩, rfl⟩ := hk
  exact ⟨rfl, c, hc, rfl, hs⟩

theorem mem_candidateKeys (X Y : Int) (combinations : List PossibleShifts)
    (k : direction × Point × Point) (hk : k ∈ candidateKeys X Y combinations) :
    ∃ c ∈ combinations, k.2.1 = c._dimensions ∧ k.2.2 ∈ c._shifts := by
  simp only [candidateKeys, List.mem_append] at hk
  rcases hk with ((hk | hk) | hk) | hk
  · exact (mem_orientationKeys _ X Y combinations k hk).2
  · exact (mem_orientationKeys _ X Y combinations k hk).2
  · exact (mem_orientationKeys _ X Y combinations k hk).2
  · exact (mem_orientationKeys _ X Y combinations k hk).2

theorem candidateKeys_valid (X Y ea : Int) (k : direction × Point × Point)
    (hk : k ∈ candidateKeys X Y (dimensionList ea)) :
    0 < k.2.1.x ∧ 0 < k.2.1.y ∧ k.2.2.x ≤ 0 ∧ k.2.2.y ≤ 0 := by
  obtain ⟨c, hc, hd, hs⟩ := mem_candidateKeys X Y _ k hk
  obtain ⟨hB, hH, _, hsh⟩ := mem_dimensionList _ c hc
  rw [hsh] at hs
  obtain ⟨h1, h2, _⟩ :=
    (mem_shiftList_iff c._dimensions.x c._dimensions.y (by omega) (by omega) k.2.2).1 hs
  rw [hd]
  exact ⟨by omega, by omega, h1, h2⟩

theorem baseRange_nodup (ea : Int) : (baseRange ea).Nodup := by
  unfold baseRange
  refine List.Nodup.map ?_ (List.nodup_range _)
  intro i j h
  simp only at h
  omega

theorem dimensionList_pairwise (ea : Int) :
    List.Pairwise (fun c c' : PossibleShifts => c._dimensions ≠ c'._dimensions)
      (dimensionList ea) := by
  unfold dimensionList
  rw [List.pairwise_map]
  have hnd : ((baseRange ea).filter fun base => Int.tmod ea base = 0).Nodup :=
    (baseRange_nodup ea).filter _
  refine List.Pairwise.imp ?_ hnd
  intro a b hab hEq
  simp only [Point.mk.injEq] at hEq
  exact hab hEq.1

theorem orientationKeys_nodup (o : direction) (X Y ea : Int) :
    (orientationKeys o X Y (dimensionList ea)).Nodup := by
  unfold orientationKeys
  rw [List.nodup_flatMap]
  refine ⟨?_, ?_⟩
  · intro c hc
    obtain ⟨_, _, _, hsh⟩ := mem_dimensionList _ c hc
    refine List.Nodup.map ?_ ?_
    · intro s s' h
      simp only [Prod.mk.injEq, true_and] at h
      exact h
    · rw [hsh]
      exact (shiftList_nodup _ _).filter _
  · refine List.Pairwise.imp ?_ (dimensionList_pairwise ea)
    intro c c' hne
    simp only [Function.onFun, List.Disjoint, List.mem_map, List.mem_filter]
    rintro k ⟨s, _, rfl⟩ ⟨s', _, h'⟩
    simp only [Prod.mk.injEq, true_and] at h'
    exact hne h'.1.symm

theorem candidateKeys_nodup (X Y ea : Int) : (candidateKeys X Y (dimensionList ea)).Nodup := by
  have hdis : ∀ o o' : direction, o ≠ o' →
      List.Disjoint (orientationKeys o X Y (dimensionList ea))
        (orientationKeys o' X Y (dimensionList ea)) := by
    intro o o' hne k hk hk'
    have h1 := (mem_orientationKeys o X Y _ k hk).1
    have h2 := (mem_orientationKeys o' X Y _ k hk').1
    exact hne (h1.symm.trans h2)
  unfold candidateKeys
  refine List.Nodup.append (List.Nodup.append (List.Nodup.append
    (orientationKeys_nodup _ X Y ea) (orientationKeys_nodup _ X Y ea) (hdis _ _ (by decide)))
    (orientationKeys_nodup _ X Y ea) ?_) (orientationKeys_nodup _ X Y ea) ?_
  · intro k hk hk'
    rcases List.mem_append.1 hk with h | h
    · exact hdis _ _ (by decide) h hk'
    · exact hdis _ _ (by decide) h hk'
  · intro k hk hk'
    rcases List.mem_append.1 hk with h | h
    · rcases List.mem_append.1 h with h | h
      · exact hdis _ _ (by decide) h hk'
      · exact hdis _ _ (by decide) h hk'
    · exact hdis _ _ (by decide) h hk'

/-- No two candidates the constructor stores have the same three vertices. -/
theorem makeCombinations_pairwise_distinct (X Y ea : Int) :
    List.Pairwise (fun s u => ¬ SameVertices s u)
      (triplesOf (makeCombinations X Y (dimensionList ea))) := by
  rw [triplesOf_makeCombinations_keys, List.pairwise_map]
  refine List.Pairwise.imp_of_mem ?_ (candidateKeys_nodup X Y ea)
  intro k k' hk hk' hne hsame
  obtain ⟨a1, a2, a3, a4⟩ := candidateKeys_valid X Y ea k hk
  obtain ⟨b1, b2, b3, b4⟩ := candidateKeys_valid X Y ea k' hk'
  obtain ⟨e1, e2, e3⟩ := vertexFormula_inj X Y k.1 k'.1 k.2.1 k.2.2 k'.2.1 k'.2.2
    a1 a2 a3 a4 b1 b2 b3 b4 hsame
  apply hne
  exact Prod.ext e1 (Prod.ext e2 e3)

/-! ## Claims on the placement enumerator -/

/-- C3: for every area and anchor cell `(X, Y)`, with enough fuel for the loops
of `createShifts`, the dimensions are produced and every triple that
`makeCombinations` computes from them, in each of the four orientations and
before the board test, contains the four corners of the anchor cell in its
closed triangle; so does every triple stored in the candidate list. -/
theorem makeCombinations_contains_anchor (fuel : Nat) (area X Y : Int) (hf : area ≤ fuel) :
    ∃ combinations, createDimensions fuel area = some combinations ∧
      (∀ c ∈ combinations, ∀ s ∈ c._shifts,
        CellInTriangle X Y (verticesUp X Y c._dimensions s) ∧
        CellInTriangle X Y (verticesRight X Y c._dimensions s) ∧
        CellInTriangle X Y (verticesDown X Y c._dimensions s) ∧
        CellInTriangle X Y (verticesLeft X Y c._dimensions s)) ∧
      ∀ t ∈ triplesOf (makeCombinations X Y combinations), CellInTriangle X Y t := by
  have hall : ∀ c ∈ dimensionList (2 * area), ∀ s ∈ c._shifts,
      CellInTriangle X Y (verticesUp X Y c._dimensions s) ∧
      CellInTriangle X Y (verticesRight X Y c._dimensions s) ∧
      CellInTriangle X Y (verticesDown X Y c._dimensions s) ∧
      CellInTriangle X Y (verticesLeft X Y c._dimensions s) := by
    intro c hc s hs
    obtain ⟨hB, hH, _, hsh⟩ := mem_dimensionList _ c hc
    rw [hsh] at hs
    obtain ⟨hdx, hdy, hcond⟩ :=
      (mem_shiftList_iff c._dimensions.x c._dimensions.y (by omega) (by omega) s).1 hs
    have hB0 : 0 < c._dimensions.x := by omega
    have hH0 : 0 < c._dimensions.y := by omega
    exact ⟨cell_in_up X Y c._dimensions.x c._dimensions.y s.x s.y hB0 hH0 hdx hdy hcond,
      cell_in_right X Y c._dimensions.x c._dimensions.y s.x s.y hB0 hH0 hdx hdy hcond,
      cell_in_down X Y c._dimensions.x c._dimensions.y s.x s.y hB0 hH0 hdx hdy hcond,
      cell_in_left X Y c._dimensions.x c._dimensions.y s.x s.y hB0 hH0 hdx hdy hcond⟩
  refine ⟨dimensionList (2 * area), createDimensions_eq fuel area hf, hall, ?_⟩
  intro t ht
  rw [mem_triplesOf_makeCombinations] at ht
  obtain ⟨f, hf', c, hc, s, hs, rfl, _⟩ := ht
  obtain ⟨h1, h2, h3, h4⟩ := hall c hc s hs
  rcases hf' with rfl | rfl | rfl | rfl <;> assumption

theorem makeCombinations_contains_anchor_witness :
    (20 : Int) ≤ (20 : Nat) ∧
    ∃ combinations, createDimensions 20 20 = some combinations ∧
      (∀ c ∈ combinations, ∀ s ∈ c._shifts,
        CellInTriangle 8 8 (verticesUp 8 8 c._dimensions s) ∧
        CellInTriangle 8 8 (verticesRight 8 8 c._dimensions s) ∧
        CellInTriangle 8 8 (verticesDown 8 8 c._dimensions s) ∧
        CellInTriangle 8 8 (verticesLeft 8 8 c._dimensions s)) ∧
      ∀ t ∈ triplesOf (makeCombinations 8 8 combinations), CellInTriangle 8 8 t :=
  ⟨by decide, makeCombinations_contains_anchor 20 20 8 8 (by decide)⟩

/-- C4: for every area and anchor cell, with enough fuel, the constructor
returns a triangle whose candidate list has a length that is a multiple of 3
and whose every vertex has both coordinates in `[0, MATRIX_MAX]`, where
`MATRIX_MAX = 17`. -/
theorem constructor_candidates_on_board (fuel : Nat) (area X Y : Int) (dir : direction)
    (hf : area ≤ fuel) :
    MATRIX_MAX = 17 ∧
    ∃ t, Triangle.new fuel area X Y dir = some t ∧
      t._allTriangles.length % 3 = 0 ∧
      ∀ p ∈ t._allTriangles, 0 ≤ p.x ∧ p.x ≤ MATRIX_MAX ∧ 0 ≤ p.y ∧ p.y ≤ MATRIX_MAX := by
  refine ⟨rfl, _, Triangle_new_eq fuel area X Y dir hf, ?_, ?_⟩
  · simp only [makeCombinations_eq, length_untriple]
    omega
  · intro p hp
    simp only [makeCombinations_eq, mem_untriple] at hp
    obtain ⟨t, ht, hpt⟩ := hp
    have ht' : t ∈ triplesOf (makeCombinations X Y (dimensionList (2 * area))) := by
      rw [makeCombinations_eq, triplesOf_untriple]
      exact ht
    rw [mem_triplesOf_makeCombinations] at ht'
    obtain ⟨f, _, c, _, s, _, _, hoff⟩ := ht'
    obtain ⟨ha, hb, hc⟩ := (offBoard_eq_false_iff _ _ _ _ _ _).1 hoff
    rcases hpt with rfl | rfl | rfl
    · exact ha
    · exact hb
    · exact hc

theorem constructor_candidates_on_board_witness :
    (2 : Int) ≤ (5 : Nat) ∧ MATRIX_MAX = 17 ∧
    ∃ t, Triangle.new 5 2 3 0 direction.UP = some t ∧
      t._allTriangles.length % 3 = 0 ∧
      ∀ p ∈ t._allTriangles, 0 ≤ p.x ∧ p.x ≤ MATRIX_MAX ∧ 0 ≤ p.y ∧ p.y ≤ MATRIX_MAX :=
  ⟨by decide, constructor_candidates_on_board 5 2 3 0 direction.UP (by decide)⟩

/-- C5: for every area `A` and anchor cell `(X, Y)`, every right triangle with
right angle at the integer point `(ax, ay)`, legs parallel to the axes
(directions `sx`, `sy`) of positive integer lengths `Lx`, `Ly` with
`Lx * Ly = 2 * A` (which forces `A ≥ 1`), all three vertices on the board and
the closed anchor cell inside it, is stored in the candidate list the
constructor builds (with enough fuel) as a triple with exactly those three
vertices: the right angle first, then the two leg ends in either order. -/
theorem enumerator_complete (fuel : Nat) (A X Y : Int) (dir : direction)
    (hf : A ≤ fuel) (ax ay Lx Ly sx sy : Int) (hsx : sx = 1 ∨ sx = -1) (hsy : sy = 1 ∨ sy = -1)
    (hLx : 0 < Lx) (hLy : 0 < Ly) (hprod : Lx * Ly = 2 * A)
    (ha : OnBoard ⟨ax, ay⟩) (hb : OnBoard ⟨ax + sx * Lx, ay⟩) (hc : OnBoard ⟨ax, ay + sy * Ly⟩)
    (hcell : CellInTriangle X Y (⟨ax, ay⟩, ⟨ax + sx * Lx, ay⟩, ⟨ax, ay + sy * Ly⟩)) :
    ∃ t, Triangle.new fuel A X Y dir = some t ∧
      (((⟨ax, ay⟩, ⟨ax + sx * Lx, ay⟩, ⟨ax, ay + sy * Ly⟩) : Point × Point × Point) ∈
          triplesOf t._allTriangles ∨
        ((⟨ax, ay⟩, ⟨ax, ay + sy * Ly⟩, ⟨ax + sx * Lx, ay⟩) : Point × Point × Point) ∈
          triplesOf t._allTriangles) := by
  refine ⟨_, Triangle_new_eq fuel A X Y dir hf, ?_⟩
  simp only
  obtain ⟨⟨a1, a2, a3⟩, ⟨b1, b2, b3⟩, ⟨c1, c2, c3⟩, ⟨d1, d2, d3⟩⟩ :=
    cell_right_imp X Y ax ay Lx Ly sx sy hsx hsy hLx hLy hcell
  rcases hsx with rfl | rfl <;> rcases hsy with rfl | rfl
  · -- legs along +x and +y: the upward loop
    left
    have h := mem_candidates_of X Y A (verticesUp X Y) (Or.inl rfl) Lx Ly (ax - X) (ay - Y)
      hLx hLy hprod (by omega) (by omega) (by nlinarith)
      (by simp only [verticesUp]
          refine ⟨?_, ?_, ?_⟩
          · simpa using ha
          · simpa using hb
          · simpa using hc)
    simpa [verticesUp] using h
  · -- legs along +x and -y: the rightward loop
    right
    have hdx : Y + 1 - ay ≤ 0 := by omega
    have h := mem_candidates_of X Y A (verticesRight X Y) (Or.inr (Or.inl rfl)) Ly Lx
      (Y + 1 - ay) (ax - X) hLy hLx (by rw [mul_comm]; exact hprod) hdx (by omega)
      (by nlinarith)
      (by simp only [verticesRight, abs_of_nonpos hdx]
          refine ⟨?_, ?_, ?_⟩
          · convert ha using 2 <;> ring
          · convert hc using 2 <;> ring
          · convert hb using 2 <;> ring)
    simp only [verticesRight, abs_of_nonpos hdx] at h
    convert h using 4 <;> ring
  · -- legs along -x and +y: the leftward loop
    right
    have hdy : X + 1 - ax ≤ 0 := by omega
    have h := mem_candidates_of X Y A (verticesLeft X Y) (Or.inr (Or.inr (Or.inr rfl))) Ly Lx
      (ay - Y) (X + 1 - ax) hLy hLx (by rw [mul_comm]; exact hprod) (by omega) hdy
      (by nlinarith)
      (by simp only [verticesLeft, abs_of_nonpos hdy]
          refine ⟨?_, ?_, ?_⟩
          · convert ha using 2 <;> ring
          · convert hc using 2 <;> ring
          · convert hb using 2 <;> ring)
    simp only [verticesLeft, abs_of_nonpos hdy] at h
    convert h using 4 <;> ring
  · -- legs along -x and -y: the downward loop
    left
    have hdx : X + 1 - ax ≤ 0 := by omega
    have hdy : Y + 1 - ay ≤ 0 := by omega
    have h := mem_candidates_of X Y A (verticesDown X Y) (Or.inr (Or.inr (Or.inl rfl))) Lx Ly
      (X + 1 - ax) (Y + 1 - ay) hLx hLy hprod hdx hdy (by nlinarith)
      (by simp only [verticesDown, abs_of_nonpos hdx, abs_of_nonpos hdy]
          refine ⟨?_, ?_, ?_⟩
          · convert ha using 2 <;> ring
          · convert hb using 2 <;> ring
          · convert hc using 2 <;> ring)
    simp only [verticesDown, abs_of_nonpos hdx, abs_of_nonpos hdy] at h
    convert h using 4 <;> ring

theorem enumerator_complete_witness :
    (6 : Int) ≤ (6 : Nat) ∧
    (∃ t, Triangle.new 6 6 16 2 direction.UP = some t ∧
      (((⟨17, 0⟩, ⟨17 + (-1) * 2, 0⟩, ⟨17, 0 + 1 * 6⟩) : Point × Point × Point) ∈
          triplesOf t._allTriangles ∨
        ((⟨17, 0⟩, ⟨17, 0 + 1 * 6⟩, ⟨17 + (-1) * 2, 0⟩) : Point × Point × Point) ∈
          triplesOf t._allTriangles)) :=
  ⟨by decide,
    enumerator_complete 6 6 16 2 direction.UP (by decide) 17 0 2 6 (-1) 1
      (Or.inr rfl) (Or.inl rfl) (by decide) (by decide) (by decide)
      (by simp [OnBoard, MATRIX_MAX]) (by simp [OnBoard, MATRIX_MAX])
      (by simp [OnBoard, MATRIX_MAX])
      ⟨⟨1, 3, 2, by decide, by decide, by decide, by decide, by decide, by decide⟩,
       ⟨2, 0, 1, by decide, by decide, by decide, by decide, by decide, by decide⟩,
       ⟨0, 1, 1, by decide, by decide, by decide, by decide, by decide, by decide⟩,
       ⟨1, 0, 1, by decide, by decide, by decide, by decide, by decide, by decide⟩⟩⟩

/-- C6: for every Dimension `(B, H)` with `B ≥ 2` and `H ≥ 2`, `createShifts`
(with fuel at least `B` and `H`) returns a list without repetition whose
members are exactly the offsets `(dx, dy)` with `dx ≤ 0`, `dy ≤ 0` and
`(1 - dx) * H + (1 - dy) * B ≤ B * H`, equivalently exactly the offsets for
which the unit square with corners `(0,0)` and `(1,1)` lies in the closed right
triangle with right angle at `(dx, dy)`, base `B` along `+x` and height `H`
along `+y`; the first element is `(0, 0)`. -/
theorem createShifts_exact (fuel : Nat) (B H : Int) (hB : 2 ≤ B) (hH : 2 ≤ H)
    (hfB : B ≤ fuel) (hfH : H ≤ fuel) :
    ∃ shifts, createShifts fuel ⟨B, H⟩ = some shifts ∧ shifts.Nodup ∧
      (∀ dx dy : Int, (⟨dx, dy⟩ : Point) ∈ shifts ↔
        (dx ≤ 0 ∧ dy ≤ 0 ∧ (1 - dx) * H + (1 - dy) * B ≤ B * H)) ∧
      (∀ dx dy : Int, (⟨dx, dy⟩ : Point) ∈ shifts ↔
        (dx ≤ 0 ∧ dy ≤ 0 ∧
          CellInTriangle 0 0 (⟨dx, dy⟩, ⟨dx + B, dy⟩, ⟨dx, dy + H⟩))) ∧
      shifts.head? = some ⟨0, 0⟩ := by
  refine ⟨shiftList B H, createShifts_eq B H hB (by omega) fuel hfB hfH, shiftList_nodup B H,
    ?_, ?_, shiftList_head B H hB hH⟩
  · intro dx dy
    exact mem_shiftList_iff B H (by omega) (by omega) ⟨dx, dy⟩
  · intro dx dy
    rw [mem_shiftList_iff B H (by omega) (by omega) ⟨dx, dy⟩,
      cell_up_iff B H dx dy (by omega) (by omega)]
    tauto

theorem createShifts_exact_witness :
    (2 : Int) ≤ 8 ∧ (2 : Int) ≤ 5 ∧ (8 : Int) ≤ (8 : Nat) ∧ (5 : Int) ≤ (8 : Nat) ∧
    ∃ shifts, createShifts 8 ⟨8, 5⟩ = some shifts ∧ shifts.Nodup ∧
      (∀ dx dy : Int, (⟨dx, dy⟩ : Point) ∈ shifts ↔
        (dx ≤ 0 ∧ dy ≤ 0 ∧ (1 - dx) * 5 + (1 - dy) * 8 ≤ 8 * 5)) ∧
      (∀ dx dy : Int, (⟨dx, dy⟩ : Point) ∈ shifts ↔
        (dx ≤ 0 ∧ dy ≤ 0 ∧
          CellInTriangle 0 0 (⟨dx, dy⟩, ⟨dx + 8, dy⟩, ⟨dx, dy + 5⟩))) ∧
      shifts.head? = some ⟨0, 0⟩ :=
  ⟨by decide, by decide, by decide, by decide,
    createShifts_exact 8 8 5 (by decide) (by decide) (by decide) (by decide)⟩

/-- C7: for every area `A` (in particular every `A ≥ 1`), with enough fuel,
`createDimensions` returns its list of Dimensions and every pair
`(base, height)` in it satisfies `base * height = 2 * A`, `base ≥ 2` and
`height ≥ 1`. -/
theorem createDimensions_pairs (fuel : Nat) (A : Int) (hf : A ≤ fuel) :
    ∃ combinations, createDimensions fuel A = some combinations ∧
      ∀ c ∈ combinations,
        c._dimensions.x * c._dimensions.y = 2 * A ∧ 2 ≤ c._dimensions.x ∧
          1 ≤ c._dimensions.y := by
  refine ⟨dimensionList (2 * A), createDimensions_eq fuel A hf, ?_⟩
  intro c hc
  obtain ⟨hB, hH, hprod, _⟩ := mem_dimensionList _ c hc
  exact ⟨hprod, hB, by omega⟩

theorem createDimensions_pairs_witness :
    (20 : Int) ≤ (20 : Nat) ∧
    ∃ combinations, createDimensions 20 20 = some combinations ∧
      ∀ c ∈ combinations,
        c._dimensions.x * c._dimensions.y = 2 * 20 ∧ 2 ≤ c._dimensions.x ∧
          1 ≤ c._dimensions.y :=
  ⟨by decide, createDimensions_pairs 20 20 (by decide)⟩

/-! ## Claims on the search -/

/-- C1: if `mySolution`, started at index 0 with an empty assignment, reaches
the terminal state and prints `e`, then `e` holds exactly one triple per
triangle, the i-th triple consists of the three vertices of a candidate of
triangle i (committed in the order q, p, r), and any two triples of `e` are
compatible: `doIntersect` is false on all nine pairs of their edges and neither
has all three vertices inside the other according to `pointInTriangle`. -/
theorem mySolution_sound (WIN : List Triangle) (e : List Point)
    (h : mySolution WIN 0 [] = some e) :
    e.length = 3 * WIN.length ∧ (triplesOf e).length = WIN.length ∧
    List.Forall₂
      (fun t s => ∃ c ∈ triplesOf t._allTriangles, s = (c.2.1, c.1, c.2.2))
      WIN (triplesOf e) ∧
    List.Pairwise (fun s t => Compatible s t ∧ Compatible t s) (triplesOf e) := by
  have h' : mySolutionFrom WIN [] = some e := by simpa [mySolution] using h
  obtain ⟨cs, hcs, he⟩ := mySolutionFrom_some WIN [] e h'
  simp only [List.nil_append] at he
  have hcs' : ValidChoice WIN (untriple []) cs := by simpa [untriple] using hcs
  obtain ⟨hpair, hall⟩ := validChoice_pairwise WIN [] cs hcs' List.Pairwise.nil
  simp only [List.nil_append] at hpair
  have hlen : cs.length = WIN.length := hall.length_eq.symm
  have htr : triplesOf e = cs.map commit := by rw [he, triplesOf_untriple]
  refine ⟨?_, ?_, ?_, ?_⟩
  · rw [he, length_untriple, List.length_map, hlen]
  · rw [htr, List.length_map, hlen]
  · rw [htr, List.forall₂_map_right_iff]
    exact hall.imp fun t c hc => ⟨c, hc, rfl⟩
  · rw [htr]
    exact hpair.imp fun hst => ⟨hst, Compatible_symm _ _ hst⟩

theorem mySolution_sound_witness :
    mySolution twoTriangles 0 [] = some [⟨2, 0⟩, ⟨0, 0⟩, ⟨0, 2⟩, ⟨4, 2⟩, ⟨2, 2⟩, ⟨2, 4⟩] ∧
    ([⟨2, 0⟩, ⟨0, 0⟩, ⟨0, 2⟩, ⟨4, 2⟩, ⟨2, 2⟩, ⟨2, 4⟩] : List Point).length =
      3 * twoTriangles.length ∧
    (triplesOf [⟨2, 0⟩, ⟨0, 0⟩, ⟨0, 2⟩, ⟨4, 2⟩, ⟨2, 2⟩, ⟨2, 4⟩]).length = twoTriangles.length ∧
    List.Forall₂
      (fun t s => ∃ c ∈ triplesOf t._allTriangles, s = (c.2.1, c.1, c.2.2))
      twoTriangles (triplesOf [⟨2, 0⟩, ⟨0, 0⟩, ⟨0, 2⟩, ⟨4, 2⟩, ⟨2, 2⟩, ⟨2, 4⟩]) ∧
    List.Pairwise (fun s t => Compatible s t ∧ Compatible t s)
      (triplesOf [⟨2, 0⟩, ⟨0, 0⟩, ⟨0, 2⟩, ⟨4, 2⟩, ⟨2, 2⟩, ⟨2, 4⟩]) :=
  ⟨by decide, mySolution_sound twoTriangles _ (by decide)⟩

/-- C2: `mySolution`, started at index 0 with an empty assignment, returns
without printing a solution if and only if there is no way to choose one
candidate per triangle such that each chosen candidate passes the check of the
search (`triangleValid`: no edge crossing, not nested either way) against the
candidates chosen for the earlier triangles. -/
theorem mySolution_exhausts_iff (WIN : List Triangle) :
    mySolution WIN 0 [] = none ↔ ¬ ∃ cs, ValidChoice WIN [] cs := by
  have hdef : mySolution WIN 0 [] = mySolutionFrom WIN [] := by simp [mySolution]
  rw [hdef]
  constructor
  · rintro h ⟨cs, hcs⟩
    exact mySolutionFrom_none WIN [] h cs hcs
  · intro h
    cases hres : mySolutionFrom WIN [] with
    | none => rfl
    | some e =>
      obtain ⟨cs, hcs, _⟩ := mySolutionFrom_some WIN [] e hres
      exact absurd ⟨cs, hcs⟩ h

/-! ## Claims on the pruning pass -/

/-- C8 (the code departs from the claim): on the puzzle triangles T18 and T22
the pruning pass erases the first candidate of T22 and then steps over the next
one, `(17,15) (15,15) (17,10)`, which stays in the list although its edge
`(15,15)-(17,10)` crosses the top side `(16,11)-(17,11)` of the anchor cell of
T18; so the postcondition does not hold after the pass. -/
theorem preProcess_postcondition_fails :
    (pairT18T22.map fun t => (t._area, t._xC, t._yC)) = [(3, 16, 10), (5, 16, 13)] ∧
    ((preProcessValidTriangles pairT18T22).get? 1).map (fun t => triplesOf t._allTriangles) =
      some [(⟨17, 15⟩, ⟨15, 15⟩, ⟨17, 10⟩), (⟨17, 14⟩, ⟨12, 14⟩, ⟨17, 12⟩),
        (⟨17, 13⟩, ⟨17, 15⟩, ⟨12, 13⟩), (⟨17, 12⟩, ⟨17, 17⟩, ⟨15, 12⟩)] ∧
    doIntersect ⟨15, 15⟩ ⟨17, 10⟩ ⟨16, 11⟩ ⟨17, 11⟩ = true ∧
    ¬ PruningPostcondition pairT18T22 := by
  have hres : ((preProcessValidTriangles pairT18T22).get? 1).map
      (fun t => triplesOf t._allTriangles) =
      some [(⟨17, 15⟩, ⟨15, 15⟩, ⟨17, 10⟩), (⟨17, 14⟩, ⟨12, 14⟩, ⟨17, 12⟩),
        (⟨17, 13⟩, ⟨17, 15⟩, ⟨12, 13⟩), (⟨17, 12⟩, ⟨17, 17⟩, ⟨15, 12⟩)] := by decide
  refine ⟨by decide, hres, by decide, ?_⟩
  intro hpost
  cases ht : (preProcessValidTriangles pairT18T22).get? 1 with
  | none =>
    rw [ht] at hres
    exact absurd hres (by simp)
  | some t =>
    rw [ht] at hres
    simp only [Option.map_some', Option.some.injEq] at hres
    cases htk : pairT18T22.get? 0 with
    | none => exact absurd htk (by decide)
    | some tk =>
      have hcell : cellSegments tk =
          [(⟨16, 10⟩, ⟨16, 11⟩), (⟨16, 10⟩, ⟨17, 11⟩), (⟨16, 10⟩, ⟨17, 10⟩),
            (⟨16, 11⟩, ⟨17, 11⟩), (⟨16, 11⟩, ⟨17, 10⟩), (⟨17, 11⟩, ⟨17, 10⟩)] := by
        have h0 : (pairT18T22.get? 0).map cellSegments =
            some [(⟨16, 10⟩, ⟨16, 11⟩), (⟨16, 10⟩, ⟨17, 11⟩), (⟨16, 10⟩, ⟨17, 10⟩),
              (⟨16, 11⟩, ⟨17, 11⟩), (⟨16, 11⟩, ⟨17, 10⟩), (⟨17, 11⟩, ⟨17, 10⟩)] := by decide
        rw [htk] at h0
        simpa using h0
      have hbad := hpost 1 0 t tk ht htk (by decide) (⟨17, 15⟩, ⟨15, 15⟩, ⟨17, 10⟩)
        (by rw [hres]; simp)
      have hcross : crossesCell (⟨17, 15⟩, ⟨15, 15⟩, ⟨17, 10⟩) tk = true := by
        unfold crossesCell
        rw [hcell]
        decide
      rw [hcross] at hbad
      exact absurd hbad (by simp)

/-- C9 (the code departs from the claim): on the puzzle triangles T18 and T22
a second run of the pruning pass removes a candidate of T22 that the first run
stepped over, so running the pass twice does not give the candidate lists of
running it once (4 candidates of T22 after one run, 3 after two). -/
theorem preProcess_not_idempotent :
    ((preProcessValidTriangles pairT18T22).map fun t => (triplesOf t._allTriangles).length) =
      [4, 4] ∧
    ((preProcessValidTriangles (preProcessValidTriangles pairT18T22)).map
      fun t => (triplesOf t._allTriangles).length) = [4, 3] ∧
    ((preProcessValidTriangles (preProcessValidTriangles pairT18T22)).map
      fun t => t._allTriangles) ≠
      ((preProcessValidTriangles pairT18T22).map fun t => t._allTriangles) := by
  refine ⟨by decide, by decide, by decide⟩

/-- C10: on triangles whose candidate lists hold whole triples, the pruning
pass returns as many triangles as it was given, and the i-th of them has the
anchor, area, orientation and dimensions of the i-th input triangle and a
candidate list that stores an order-preserving sub-sequence of the triples of
the input list (nothing added, nothing reordered, no triple split). -/
theorem preProcess_pure_filter (WIN : List Triangle)
    (hwf : ∀ t ∈ WIN, t._allTriangles.length % 3 = 0) :
    (preProcessValidTriangles WIN).length = WIN.length ∧
    List.Forall₂
      (fun t t' =>
        t'._xC = t._xC ∧ t'._yC = t._yC ∧ t'._area = t._area ∧
        ∃ kept, List.Sublist kept (triplesOf t._allTriangles) ∧
          t'._allTriangles = untriple kept)
      WIN (preProcessValidTriangles WIN) := by
  have h : List.Forall₂ PrunedFrom WIN (preProcessValidTriangles WIN) :=
    foldl_pruneTriangle_rel WIN _ WIN
      (List.forall₂_same.2 fun y hy => PrunedFrom_refl y (hwf y hy))
  refine ⟨h.length_eq.symm, h.imp ?_⟩
  rintro t t' ⟨hx, hy, ha, _, _, hk⟩
  exact ⟨hx, hy, ha, hk⟩

theorem preProcess_pure_filter_witness :
    (∀ t ∈ pairT18T22, t._allTriangles.length % 3 = 0) ∧
    (preProcessValidTriangles pairT18T22).length = pairT18T22.length ∧
    List.Forall₂
      (fun t t' =>
        t'._xC = t._xC ∧ t'._yC = t._yC ∧ t'._area = t._area ∧
        ∃ kept, List.Sublist kept (triplesOf t._allTriangles) ∧
          t'._allTriangles = untriple kept)
      pairT18T22 (preProcessValidTriangles pairT18T22) :=
  ⟨by decide, preProcess_pure_filter pairT18T22 (by decide)⟩

/-! ## Claims on the geometry kernel -/

/-- C11: for all points with integer coordinates, `doIntersect` is true if and
only if the two segments cross transversally (not parallel, and the common
point lies strictly between the end points of both segments); and it is false
whenever an end point of one segment lies on the line through the other. -/
theorem doIntersect_iff_transversal (p1 q1 p2 q2 : Point) :
    (doIntersect p1 q1 p2 q2 = true ↔ CrossTransversally p1 q1 p2 q2) ∧
    ((OnLine p2 p1 q1 ∨ OnLine q2 p1 q1 ∨ OnLine p1 p2 q2 ∨ OnLine q1 p2 q2) →
      doIntersect p1 q1 p2 q2 = false) :=
  ⟨doIntersect_iff_cross p1 q1 p2 q2, doIntersect_false_of_onLine p1 q1 p2 q2⟩

/-- C12: if the two segments have an end point in common then `doIntersect`
returns false; in particular `doIntersect((0,0),(1,1),(1,1),(2,0))` is false. -/
theorem doIntersect_shared_endpoint (p1 q1 p2 q2 : Point)
    (h : p1 = p2 ∨ p1 = q2 ∨ q1 = p2 ∨ q1 = q2) :
    doIntersect p1 q1 p2 q2 = false ∧ doIntersect ⟨0, 0⟩ ⟨1, 1⟩ ⟨1, 1⟩ ⟨2, 0⟩ = false := by
  refine ⟨?_, by decide⟩
  apply doIntersect_false_of_onLine
  rcases h with h | h | h | h
  · left; subst h; unfold OnLine; ring
  · right; left; subst h; unfold OnLine; ring
  · left; subst h; unfold OnLine; ring
  · right; left; subst h; unfold OnLine; ring

theorem doIntersect_shared_endpoint_witness :
    (((⟨0, 0⟩ : Point) = ⟨1, 1⟩ ∨ (⟨0, 0⟩ : Point) = ⟨2, 0⟩ ∨ (⟨1, 1⟩ : Point) = ⟨1, 1⟩ ∨
      (⟨1, 1⟩ : Point) = ⟨2, 0⟩)) ∧
    (doIntersect ⟨0, 0⟩ ⟨1, 1⟩ ⟨1, 1⟩ ⟨2, 0⟩ = false ∧
      doIntersect ⟨0, 0⟩ ⟨1, 1⟩ ⟨1, 1⟩ ⟨2, 0⟩ = false) :=
  ⟨by decide, doIntersect_shared_endpoint ⟨0, 0⟩ ⟨1, 1⟩ ⟨1, 1⟩ ⟨2, 0⟩ (by decide)⟩

/-- C13: for every triangle `v1 v2 v3` with integer vertices that are not
colinear and every integer point `pt`, `pointInTriangle` is true if and only if
`pt` lies in the closed triangle, i.e. is a convex combination of the three
vertices (interior, edges and vertices included). -/
theorem pointInTriangle_iff_closed (pt v1 v2 v3 : Point) (hnd : ¬ OnLine v3 v1 v2) :
    pointInTriangle pt v1 v2 v3 = true ↔ InClosedTriangle pt v1 v2 v3 := by
  have hs : sign v1 v2 v3 ≠ 0 := by
    intro h0
    apply hnd
    unfold OnLine
    unfold sign at h0
    linear_combination h0
  exact ⟨inClosed_of_pointInTriangle pt v1 v2 v3 hs, pointInTriangle_of_inClosed pt v1 v2 v3⟩

theorem pointInTriangle_iff_closed_witness :
    (¬ OnLine ⟨0, 4⟩ ⟨0, 0⟩ ⟨4, 0⟩) ∧
    (pointInTriangle ⟨1, 1⟩ ⟨0, 0⟩ ⟨4, 0⟩ ⟨0, 4⟩ = true ↔
      InClosedTriangle ⟨1, 1⟩ ⟨0, 0⟩ ⟨4, 0⟩ ⟨0, 4⟩) :=
  ⟨by unfold OnLine; decide,
    pointInTriangle_iff_closed ⟨1, 1⟩ ⟨0, 0⟩ ⟨4, 0⟩ ⟨0, 4⟩ (by unfold OnLine; decide)⟩

/-- C14: the two containment checks are exact duals: for all points,
`triangleIsContainingOtherTriangle` on the one-triangle list `[a, b, c]` with
vertices `p, q, r` is true if and only if `triangleIsContainedInOtherTriangle`
on the one-triangle list `[p, q, r]` with vertices `a, b, c` is true. -/
theorem containment_checks_dual (a b c p q r : Point) :
    triangleIsContainingOtherTriangle [a, b, c] p q r = true ↔
      triangleIsContainedInOtherTriangle [p, q, r] a b c = true := by
  simp [triangleIsContainingOtherTriangle, triangleIsContainedInOtherTriangle]

/-! ## Claims on the printed assignment -/

/-- C15 (the claim fails): on two triangles of areas 2 and 4 anchored at
`(0, 2)` and `(0, 1)`, built by the constructor and pruned, all candidates are
non-degenerate and `mySolution` prints the triples `(2,2) (0,2) (0,4)` and
`(4,1) (0,1) (0,3)`, yet the point `(1/4, 9/4)` lies strictly inside both: the
hypotenuse of the second passes through the vertices `(2,2)` and `(0,3)` of
the first, which `doIntersect` does not count as a crossing. -/
theorem printed_solution_overlaps :
    (∀ t ∈ overlapPair, ∀ c ∈ triplesOf t._allTriangles, ¬ OnLine c.2.2 c.1 c.2.1) ∧
    mySolution overlapPair 0 [] = some [⟨2, 2⟩, ⟨0, 2⟩, ⟨0, 4⟩, ⟨4, 1⟩, ⟨0, 1⟩, ⟨0, 3⟩] ∧
    StrictlyInside (1 / 4) (9 / 4) (⟨2, 2⟩, ⟨0, 2⟩, ⟨0, 4⟩) ∧
    StrictlyInside (1 / 4) (9 / 4) (⟨4, 1⟩, ⟨0, 1⟩, ⟨0, 3⟩) := by
  refine ⟨by decide, by decide, ?_, ?_⟩
  · exact ⟨1 / 8, 3 / 4, 1 / 8, by norm_num, by norm_num, by norm_num, by norm_num,
      by norm_num, by norm_num⟩
  · exact ⟨1 / 16, 5 / 16, 5 / 8, by norm_num, by norm_num, by norm_num, by norm_num,
      by norm_num, by norm_num⟩

/-- C15 (amended): any two triples of an assignment that `mySolution` prints
have no pair of edges that cross transversally, and neither triple has all
three of its vertices in the closed triangle of the other. -/
theorem printed_pairs_no_crossing_no_nesting (WIN : List Triangle) (e : List Point)
    (h : mySolution WIN 0 [] = some e) :
    List.Pairwise
      (fun s t =>
        (∀ f ∈ edgesOf s, ∀ g ∈ edgesOf t, ¬ CrossTransversally f.1 f.2 g.1 g.2) ∧
        ¬ ClosedNestedIn s t ∧ ¬ ClosedNestedIn t s)
      (triplesOf e) :=
  (printed_pairwise_compatible WIN e h).imp fun hst => compatible_geometric _ _ hst

theorem printed_pairs_no_crossing_no_nesting_witness :
    mySolution twoTriangles 0 [] = some [⟨2, 0⟩, ⟨0, 0⟩, ⟨0, 2⟩, ⟨4, 2⟩, ⟨2, 2⟩, ⟨2, 4⟩] ∧
    List.Pairwise
      (fun s t =>
        (∀ f ∈ edgesOf s, ∀ g ∈ edgesOf t, ¬ CrossTransversally f.1 f.2 g.1 g.2) ∧
        ¬ ClosedNestedIn s t ∧ ¬ ClosedNestedIn t s)
      (triplesOf [⟨2, 0⟩, ⟨0, 0⟩, ⟨0, 2⟩, ⟨4, 2⟩, ⟨2, 2⟩, ⟨2, 4⟩]) :=
  ⟨by decide, printed_pairs_no_crossing_no_nesting twoTriangles _ (by decide)⟩

/-- C16: whenever `mySolution`, started at index 0 with an empty assignment,
prints an assignment, the candidate positions it chose (one per triangle, in
triangle order) form a sequence in which every candidate passes the check
against the earlier ones, the printed assignment is the one committed for that
sequence, and the sequence is lexicographically smallest among all such
sequences. -/
theorem mySolution_first_in_dfs_order (WIN : List Triangle) (e : List Point)
    (h : mySolution WIN 0 [] = some e) :
    ∃ ks, ValidIndices WIN [] ks ∧ e = assignmentOf WIN ks ∧
      ∀ js, ValidIndices WIN [] js → lexLe ks js := by
  have h' : mySolutionFrom WIN [] = some e := by simpa [mySolution] using h
  obtain ⟨ks, hks, he, hlex⟩ := mySolutionFrom_first WIN [] e h'
  exact ⟨ks, hks, by simpa using he, hlex⟩

theorem mySolution_first_in_dfs_order_witness :
    mySolution overlapPair 0 [] = some [⟨2, 2⟩, ⟨0, 2⟩, ⟨0, 4⟩, ⟨4, 1⟩, ⟨0, 1⟩, ⟨0, 3⟩] ∧
    ∃ ks, ValidIndices overlapPair [] ks ∧
      ([⟨2, 2⟩, ⟨0, 2⟩, ⟨0, 4⟩, ⟨4, 1⟩, ⟨0, 1⟩, ⟨0, 3⟩] : List Point) =
        assignmentOf overlapPair ks ∧
      ∀ js, ValidIndices overlapPair [] js → lexLe ks js :=
  ⟨by decide, mySolution_first_in_dfs_order overlapPair _ (by decide)⟩

/-! ## Further claims on the pruning pass and the enumerator -/

/-- C17: on triangles whose candidate lists hold whole triples, every candidate
of triangle `i` that the pruning pass removes (it occurs less often after the
pass than before) has an edge that crosses, per `doIntersect`, a side or
diagonal of the anchor cell of some other triangle `k ≠ i`; equivalently a
candidate that crosses no other anchor cell is still in the list after the
pass. -/
theorem preProcess_removes_only_crossing (WIN : List Triangle)
    (hwf : ∀ t ∈ WIN, t._allTriangles.length % 3 = 0) (i : Nat) (t t' : Triangle)
    (hi : WIN.get? i = some t) (hi' : (preProcessValidTriangles WIN).get? i = some t') :
    (∀ c, List.count c (triplesOf t'._allTriangles) < List.count c (triplesOf t._allTriangles) →
      CrossesOtherCell WIN i c) ∧
    (∀ c ∈ triplesOf t._allTriangles, ¬ CrossesOtherCell WIN i c →
      c ∈ triplesOf t'._allTriangles) := by
  obtain ⟨t'', hi'', kept, hf, _, he⟩ := preProcess_keeps WIN hwf i t hi
  rw [hi'] at hi''
  simp only [Option.some.injEq] at hi''
  subst hi''
  have hkept : triplesOf t'._allTriangles = kept := by rw [he, triplesOf_untriple]
  have hpass : ∀ c, ¬ CrossesOtherCell WIN i c → passesKLoop WIN i c = true := by
    intro c hc
    by_contra hk
    apply hc
    apply kLoop_crossesOther
    simpa [passesKLoop] using hk
  constructor
  · intro c hlt
    by_contra hc
    have h1 : List.count c ((triplesOf t._allTriangles).filter (passesKLoop WIN i)) =
        List.count c (triplesOf t._allTriangles) := List.count_filter (hpass c hc)
    have h2 := hf.count_le c
    rw [hkept] at hlt
    omega
  · intro c hmem hc
    rw [hkept]
    exact hf.subset (List.mem_filter.2 ⟨hmem, hpass c hc⟩)

theorem preProcess_removes_only_crossing_witness :
    (∀ t ∈ pairT18T22, t._allTriangles.length % 3 = 0) ∧
    ∃ t t', pairT18T22.get? 1 = some t ∧
      (preProcessValidTriangles pairT18T22).get? 1 = some t' ∧
      (∀ c, List.count c (triplesOf t'._allTriangles) <
          List.count c (triplesOf t._allTriangles) →
        CrossesOtherCell pairT18T22 1 c) ∧
      (∀ c ∈ triplesOf t._allTriangles, ¬ CrossesOtherCell pairT18T22 1 c →
        c ∈ triplesOf t'._allTriangles) :=
  ⟨by decide,
    (pairT18T22.get? 1).get (by decide),
    ((preProcessValidTriangles pairT18T22).get? 1).get (by decide),
    (Option.some_get _).symm, (Option.some_get _).symm,
    preProcess_removes_only_crossing pairT18T22 (by decide) 1 _ _
      (Option.some_get _).symm (Option.some_get _).symm⟩

/-- C18: for every candidate triple `(p, q, r)` with integer coordinates and
every anchor cell with integer corners, the chain of `doIntersect` tests of the
pruning pass reports a conflict if and only if one of the three edges
`pq`, `pr`, `qr` crosses, per `doIntersect`, one of the six corner-to-corner
pairs `ab`, `ac`, `ad`, `bc`, `bd`, `cd` of the cell (the two pairs the chain
leaves out, `pr`/`ad` and `qr`/`ad`, can only cross together with a pair it
does test). -/
theorem cellConflict_iff_some_pair_crosses (p q r : Point) (t : Triangle) :
    cellConflict p q r t = true ↔
      ∃ f ∈ edgesOf (p, q, r), ∃ g ∈ cellSegments t, doIntersect f.1 f.2 g.1 g.2 = true := by
  have hc : crossesCell (p, q, r) t = true ↔
      ∃ f ∈ edgesOf (p, q, r), ∃ g ∈ cellSegments t, doIntersect f.1 f.2 g.1 g.2 = true := by
    simp only [crossesCell, List.any_eq_true]
  rw [← hc]
  exact ⟨cellConflict_crossesCell p q r t, crossesCell_cellConflict p q r t⟩

/-- C19: for every area `A` and anchor cell, with enough fuel, each candidate
triple `(a, b, c)` the constructor stores belongs to one enumerated Dimension
`(base, height)` with `base * height = 2 * A`: the leg `a b` is parallel to one
axis with length `base`, the leg `a c` is parallel to the other axis with
length `height`, so the right angle is at `a` and twice the area of the
triangle is `2 * A`. -/
theorem candidates_are_right_triangles (fuel : Nat) (A X Y : Int) (dir : direction)
    (hf : A ≤ fuel) :
    ∃ t, Triangle.new fuel A X Y dir = some t ∧
      ∀ c ∈ triplesOf t._allTriangles, ∃ d ∈ t._combinations,
        d._dimensions.x * d._dimensions.y = 2 * A ∧
        ((c.2.1.y = c.1.y ∧ |c.2.1.x - c.1.x| = d._dimensions.x ∧
            c.2.2.x = c.1.x ∧ |c.2.2.y - c.1.y| = d._dimensions.y) ∨
          (c.2.1.x = c.1.x ∧ |c.2.1.y - c.1.y| = d._dimensions.x ∧
            c.2.2.y = c.1.y ∧ |c.2.2.x - c.1.x| = d._dimensions.y)) ∧
        (c.2.1.x - c.1.x) * (c.2.2.x - c.1.x) + (c.2.1.y - c.1.y) * (c.2.2.y - c.1.y) = 0 ∧
        |(c.2.1.x - c.1.x) * (c.2.2.y - c.1.y) - (c.2.1.y - c.1.y) * (c.2.2.x - c.1.x)| =
          2 * A := by
  refine ⟨_, Triangle_new_eq fuel A X Y dir hf, ?_⟩
  intro c hc
  simp only at hc
  rw [mem_triplesOf_makeCombinations] at hc
  obtain ⟨f, hf', d, hd, s, _, rfl, _⟩ := hc
  obtain ⟨hB, hH, hprod, _⟩ := mem_dimensionList _ d hd
  have hBabs : |d._dimensions.x| = d._dimensions.x := abs_of_nonneg (by omega)
  have hHabs : |d._dimensions.y| = d._dimensions.y := abs_of_nonneg (by omega)
  have hA : |2 * A| = 2 * A := abs_of_nonneg (by rw [← hprod]; positivity)
  refine ⟨d, hd, hprod, ?_⟩
  rcases hf' with rfl | rfl | rfl | rfl
  · refine ⟨Or.inl ⟨rfl, ?_, rfl, ?_⟩, ?_, ?_⟩
    · simp only [verticesUp, add_sub_cancel_left, hBabs]
    · simp only [verticesUp, add_sub_cancel_left, hHabs]
    · simp only [verticesUp]; ring
    · simp only [verticesUp]
      rw [← hA, ← hprod]
      congr 1
      ring
  · refine ⟨Or.inr ⟨rfl, ?_, rfl, ?_⟩, ?_, ?_⟩
    · simp only [verticesRight, sub_sub_cancel_left, abs_neg, hBabs]
    · simp only [verticesRight, add_sub_cancel_left, hHabs]
    · simp only [verticesRight]; ring
    · simp only [verticesRight]
      rw [← hA, ← hprod]
      congr 1
      ring
  · refine ⟨Or.inl ⟨rfl, ?_, rfl, ?_⟩, ?_, ?_⟩
    · simp only [verticesDown, sub_sub_cancel_left, abs_neg, hBabs]
    · simp only [verticesDown, sub_sub_cancel_left, abs_neg, hHabs]
    · simp only [verticesDown]; ring
    · simp only [verticesDown]
      rw [← hA, ← hprod]
      congr 1
      ring
  · refine ⟨Or.inr ⟨rfl, ?_, rfl, ?_⟩, ?_, ?_⟩
    · simp only [verticesLeft, add_sub_cancel_left, hBabs]
    · simp only [verticesLeft, sub_sub_cancel_left, abs_neg, hHabs]
    · simp only [verticesLeft]; ring
    · simp only [verticesLeft]
      rw [← hA, ← hprod]
      congr 1
      ring

theorem candidates_are_right_triangles_witness :
    (6 : Int) ≤ (6 : Nat) ∧
    ∃ t, Triangle.new 6 6 16 2 direction.UP = some t ∧
      ∀ c ∈ triplesOf t._allTriangles, ∃ d ∈ t._combinations,
        d._dimensions.x * d._dimensions.y = 2 * 6 ∧
        ((c.2.1.y = c.1.y ∧ |c.2.1.x - c.1.x| = d._dimensions.x ∧
            c.2.2.x = c.1.x ∧ |c.2.2.y - c.1.y| = d._dimensions.y) ∨
          (c.2.1.x = c.1.x ∧ |c.2.1.y - c.1.y| = d._dimensions.x ∧
            c.2.2.y = c.1.y ∧ |c.2.2.x - c.1.x| = d._dimensions.y)) ∧
        (c.2.1.x - c.1.x) * (c.2.2.x - c.1.x) + (c.2.1.y - c.1.y) * (c.2.2.y - c.1.y) = 0 ∧
        |(c.2.1.x - c.1.x) * (c.2.2.y - c.1.y) - (c.2.1.y - c.1.y) * (c.2.2.x - c.1.x)| =
          2 * 6 :=
  ⟨by decide, candidates_are_right_triangles 6 6 16 2 direction.UP (by decide)⟩

/-- C20: for every Dimension `(B, H)` with `B ≥ 2` and `H ≥ 2` the loops of
`createShifts` stop: the outer loop returns when it is given fuel `B` (so its
test is evaluated at most `B` times and its body runs fewer than `B` times)
while every inner loop is given fuel `H` (its body runs fewer than `H` times);
hence `createShifts` returns a list for every fuel that is at least `B` and
`H`, and `createDimensions` returns for every area once the fuel is at least
the area. -/
theorem createShifts_terminates (B H : Int) (hB : 2 ≤ B) (hH : 2 ≤ H) :
    (∃ s, outerWhile H H.toNat B.toNat (initialShiftState ⟨B, H⟩) = some s) ∧
    (∀ fuel : Nat, B ≤ fuel → H ≤ fuel → ∃ shifts, createShifts fuel ⟨B, H⟩ = some shifts) ∧
    (∀ (fuel : Nat) (A : Int), A ≤ fuel →
      ∃ combinations, createDimensions fuel A = some combinations ∧
        ∀ c ∈ combinations, createShifts fuel c._dimensions = some c._shifts) := by
  refine ⟨?_, ?_, ?_⟩
  · have hcols := shiftCols_lt B H (by omega) (by omega)
    obtain ⟨s, hs, _⟩ := outerWhile_run B H hB (by omega) H.toNat (by omega) (shiftCols B H) 0 0 0
      [] B.toNat (by omega) (by omega) (by left; simp)
    refine ⟨s, ?_⟩
    have hinit : initialShiftState ⟨B, H⟩ = outerState B H 0 0 0 [] := by
      simp [initialShiftState, outerState]
    rw [hinit]
    exact hs
  · intro fuel hfB hfH
    exact ⟨_, createShifts_eq B H hB (by omega) fuel hfB hfH⟩
  · intro fuel A hf
    refine ⟨_, createDimensions_eq fuel A hf, ?_⟩
    intro c hc
    obtain ⟨h1, h2, h3, h4⟩ := mem_dimensionList _ c hc
    rw [h4]
    have hle1 : c._dimensions.x ≤ fuel := by nlinarith
    have hle2 : c._dimensions.y ≤ fuel := by nlinarith
    exact createShifts_eq c._dimensions.x c._dimensions.y h1 (by omega) fuel hle1 hle2

theorem createShifts_terminates_witness :
    (2 : Int) ≤ 8 ∧ (2 : Int) ≤ 5 ∧
    ((∃ s, outerWhile 5 (5 : Int).toNat (8 : Int).toNat (initialShiftState ⟨8, 5⟩) = some s) ∧
    (∀ fuel : Nat, (8 : Int) ≤ fuel → (5 : Int) ≤ fuel →
      ∃ shifts, createShifts fuel ⟨8, 5⟩ = some shifts) ∧
    (∀ (fuel : Nat) (A : Int), A ≤ fuel →
      ∃ combinations, createDimensions fuel A = some combinations ∧
        ∀ c ∈ combinations, createShifts fuel c._dimensions = some c._shifts)) :=
  ⟨by decide, by decide, createShifts_terminates 8 5 (by decide) (by decide)⟩

/-! ## The shape of the offset set -/

/-- C21 (the claim fails): for the Dimension `(8, 5)`, which the enumerator
produces for area 20, the offsets `(-5, 0)` and `(0, -3)` are both returned but
`(-5, -3)` is not: the offset set is a staircase under the hypotenuse, not a
rectangle. -/
theorem shifts_not_rectangular :
    ∃ combinations, createDimensions 20 20 = some combinations ∧
      ∃ c ∈ combinations, c._dimensions = ⟨8, 5⟩ ∧
        createShifts 20 c._dimensions = some c._shifts ∧
        (⟨-5, 0⟩ : Point) ∈ c._shifts ∧ (⟨0, -3⟩ : Point) ∈ c._shifts ∧
        (⟨-5, -3⟩ : Point) ∉ c._shifts := by
  refine ⟨dimensionList 40, createDimensions_eq 20 20 (by decide), ⟨⟨8, 5⟩, shiftList 8 5⟩,
    by decide, rfl, ?_, by decide, by decide, by decide⟩
  exact createShifts_eq 8 5 (by decide) (by decide) 20 (by decide) (by decide)

/-- C21 (amended): for every Dimension the enumerator produces, the offsets
returned by `createShifts` form a staircase closed towards `(0, 0)`: whenever
`(dx1, dy1)` and `(dx2, dy2)` are both returned and `dx2 ≤ dx1` or `dy1 ≤ dy2`,
the offset `(dx1, dy2)` is returned as well. -/
theorem shifts_staircase (fuel : Nat) (A : Int) (hf : A ≤ fuel) :
    ∃ combinations, createDimensions fuel A = some combinations ∧
      ∀ c ∈ combinations, createShifts fuel c._dimensions = some c._shifts ∧
        ∀ dx1 dy1 dx2 dy2 : Int, (⟨dx1, dy1⟩ : Point) ∈ c._shifts →
          (⟨dx2, dy2⟩ : Point) ∈ c._shifts → (dx2 ≤ dx1 ∨ dy1 ≤ dy2) →
          (⟨dx1, dy2⟩ : Point) ∈ c._shifts := by
  refine ⟨_, createDimensions_eq fuel A hf, ?_⟩
  intro c hc
  obtain ⟨hB, hH, hprod, hsh⟩ := mem_dimensionList _ c hc
  have hB0 : 0 < c._dimensions.x := by omega
  have hH0 : 0 < c._dimensions.y := by omega
  constructor
  · rw [hsh]
    exact createShifts_eq c._dimensions.x c._dimensions.y hB hH0 fuel (by nlinarith)
      (by nlinarith)
  · intro dx1 dy1 dx2 dy2 h1 h2 hor
    rw [hsh] at h1 h2 ⊢
    rw [mem_shiftList_iff _ _ hB0 hH0] at h1 h2 ⊢
    obtain ⟨a1, a2, a3⟩ := h1
    obtain ⟨b1, b2, b3⟩ := h2
    simp only at a1 a2 a3 b1 b2 b3 ⊢
    refine ⟨a1, b2, ?_⟩
    rcases hor with h | h
    · have : (1 - dx1) * c._dimensions.y ≤ (1 - dx2) * c._dimensions.y :=
        mul_le_mul_of_nonneg_right (by omega) hH0.le
      linarith
    · have : (1 - dy2) * c._dimensions.x ≤ (1 - dy1) * c._dimensions.x :=
        mul_le_mul_of_nonneg_right (by omega) hB0.le
      linarith

theorem shifts_staircase_witness :
    (20 : Int) ≤ (20 : Nat) ∧
    ∃ combinations, createDimensions 20 20 = some combinations ∧
      ∀ c ∈ combinations, createShifts 20 c._dimensions = some c._shifts ∧
        ∀ dx1 dy1 dx2 dy2 : Int, (⟨dx1, dy1⟩ : Point) ∈ c._shifts →
          (⟨dx2, dy2⟩ : Point) ∈ c._shifts → (dx2 ≤ dx1 ∨ dy1 ≤ dy2) →
          (⟨dx1, dy2⟩ : Point) ∈ c._shifts :=
  ⟨by decide, shifts_staircase 20 20 (by decide)⟩

/-! ## Symmetry of the pairwise check -/

/-- C23: for all triples `S = (s1, s2, s3)` and `T = (t1, t2, t3)`, the
candidate `S` is accepted against an assignment holding only `T` if and only if
the candidate `T` is accepted against an assignment holding only `S`; and the
answer of the check is the same for each of the other five orders of the
vertices of `S` and for each of the other five orders of the vertices of `T`
(in particular for the order `q, p, r` in which the search commits). -/
theorem triangleValid_symmetric_order_free (s1 s2 s3 t1 t2 t3 : Point) :
    (triangleValid [t1, t2, t3] s1 s2 s3 = true ↔ triangleValid [s1, s2, s3] t1 t2 t3 = true) ∧
    (triangleValid [t1, t2, t3] s2 s1 s3 = triangleValid [t1, t2, t3] s1 s2 s3 ∧
      triangleValid [t1, t2, t3] s1 s3 s2 = triangleValid [t1, t2, t3] s1 s2 s3 ∧
      triangleValid [t1, t2, t3] s3 s2 s1 = triangleValid [t1, t2, t3] s1 s2 s3 ∧
      triangleValid [t1, t2, t3] s2 s3 s1 = triangleValid [t1, t2, t3] s1 s2 s3 ∧
      triangleValid [t1, t2, t3] s3 s1 s2 = triangleValid [t1, t2, t3] s1 s2 s3) ∧
    (triangleValid [t2, t1, t3] s1 s2 s3 = triangleValid [t1, t2, t3] s1 s2 s3 ∧
      triangleValid [t1, t3, t2] s1 s2 s3 = triangleValid [t1, t2, t3] s1 s2 s3 ∧
      triangleValid [t3, t2, t1] s1 s2 s3 = triangleValid [t1, t2, t3] s1 s2 s3 ∧
      triangleValid [t2, t3, t1] s1 s2 s3 = triangleValid [t1, t2, t3] s1 s2 s3 ∧
      triangleValid [t3, t1, t2] s1 s2 s3 = triangleValid [t1, t2, t3] s1 s2 s3) := by
  have perms : ∀ a1 a2 a3 p q r : Point,
      triangleValid [a1, a2, a3] q p r = triangleValid [a1, a2, a3] p q r ∧
      triangleValid [a1, a2, a3] p r q = triangleValid [a1, a2, a3] p q r ∧
      triangleValid [a1, a2, a3] r q p = triangleValid [a1, a2, a3] p q r ∧
      triangleValid [a1, a2, a3] q r p = triangleValid [a1, a2, a3] p q r ∧
      triangleValid [a1, a2, a3] r p q = triangleValid [a1, a2, a3] p q r := by
    intro a1 a2 a3 p q r
    have hrot := triangleValid_rot a1 a2 a3 p q r
    have hrot2 : triangleValid [a1, a2, a3] r p q = triangleValid [a1, a2, a3] p q r := by
      rw [triangleValid_rot a1 a2 a3 q r p, hrot]
    refine ⟨triangleValid_swap a1 a2 a3 p q r, ?_, ?_, hrot, hrot2⟩
    · rw [triangleValid_swap a1 a2 a3 r p q, hrot2]
    · rw [triangleValid_swap a1 a2 a3 q r p, hrot]
  refine ⟨by rw [triangleValid_symm], perms t1 t2 t3 s1 s2 s3, ?_⟩
  obtain ⟨h1, h2, h3, h4, h5⟩ := perms s1 s2 s3 t1 t2 t3
  refine ⟨?_, ?_, ?_, ?_, ?_⟩
  · rw [← triangleValid_symm t2 t1 t3 s1 s2 s3, h1, triangleValid_symm]
  · rw [← triangleValid_symm t1 t3 t2 s1 s2 s3, h2, triangleValid_symm]
  · rw [← triangleValid_symm t3 t2 t1 s1 s2 s3, h3, triangleValid_symm]
  · rw [← triangleValid_symm t2 t3 t1 s1 s2 s3, h4, triangleValid_symm]
  · rw [← triangleValid_symm t3 t1 t2 s1 s2 s3, h5, triangleValid_symm]

/-! ## Duplicates in the candidate list -/

/-- C22 (the claim fails): there is no area and anchor cell for which the
candidate list the constructor builds (with enough fuel) holds, at two
different positions, triples with the same three vertices; in particular no
placement is produced by two different orientations. -/
theorem no_duplicate_placement :
    ¬ ∃ (fuel : Nat) (A X Y : Int) (dir : direction) (t : Triangle) (i j : Nat)
        (s u : Point × Point × Point),
      A ≤ fuel ∧ Triangle.new fuel A X Y dir = some t ∧ i < j ∧
      (triplesOf t._allTriangles).get? i = some s ∧
      (triplesOf t._allTriangles).get? j = some u ∧ SameVertices s u := by
  rintro ⟨fuel, A, X, Y, dir, t, i, j, s, u, hf, hnew, hij, hi, hj, hsame⟩
  rw [Triangle_new_eq fuel A X Y dir hf] at hnew
  simp only [Option.some.injEq] at hnew
  subst hnew
  simp only at hi hj
  have hp := makeCombinations_pairwise_distinct X Y (2 * A)
  rw [List.pairwise_iff_getElem] at hp
  rw [List.get?_eq_getElem?] at hi hj
  obtain ⟨hi1, hi2⟩ := List.getElem?_eq_some_iff.1 hi
  obtain ⟨hj1, hj2⟩ := List.getElem?_eq_some_iff.1 hj
  have := hp i j hi1 hj1 hij
  rw [hi2, hj2] at this
  exact this hsame

/-- C22 (amended): for every area and anchor cell, with enough fuel, no two
triples of the candidate list the constructor builds have the same three
vertices: every placement is enumerated once, by one orientation, one
Dimension and one offset. -/
theorem candidates_pairwise_distinct (fuel : Nat) (A X Y : Int) (dir : direction)
    (hf : A ≤ fuel) :
    ∃ t, Triangle.new fuel A X Y dir = some t ∧
      List.Pairwise (fun s u => ¬ SameVertices s u) (triplesOf t._allTriangles) :=
  ⟨_, Triangle_new_eq fuel A X Y dir hf, makeCombinations_pairwise_distinct X Y (2 * A)⟩

theorem candidates_pairwise_distinct_witness :
    (20 : Int) ≤ (20 : Nat) ∧
    ∃ t, Triangle.new 20 20 8 8 direction.UP = some t ∧
      List.Pairwise (fun s u => ¬ SameVertices s u) (triplesOf t._allTriangles) :=
  ⟨by decide, candidates_pairwise_distinct 20 20 8 8 direction.UP (by decide)⟩

end TriTri
